import Mathlib

/-! # Leela Zero (five-in-a-row variant): search node, selector, expander, root decision

A shallow embedding of `src/src/FastBoard.h`, `src/src/UCTNode.cpp` and
`src/src/UCTSearch.cpp`.

Conventions of the embedding.

* `float` and `double` values are rationals (`ℚ`): arithmetic is taken exactly.
* `int` values are `Int`; `size_t` values are `Nat`; `uint32` values are `Nat`
  reduced modulo `2 ^ 32` where the source can wrap.
* The intrusive child list (`m_firstchild`, `m_nextsibling`) is the list
  `m_children`, head first.  A pointer to a child is its position in that list.
* The board engine, the game state, the network and the random generator are
  not part of these sources; the functions of theirs that the code calls are
  fields of the structures `FastBoard`, `GameState`, `Config`.  The same holds
  for the transposition table and the moves of the game state in
  `play_simulation`: they are fields of `SearchEnv`.
* The recursion of `play_simulation` is bounded by a number of nested calls;
  the theorems about it show that it returns for every bound from some bound on.
-/

namespace LeelaZero

/-! ## FastBoard.h -/

/-- The constant `DK_num_stone` of `FastBoard.h`: the length of a winning run. -/
def DK_num_stone : Nat := 5

/-- The enumeration `FastBoard::square_t`. -/
inductive square_t where
  | BLACK
  | WHITE
  | EMPTY
  | INVAL
  deriving DecidableEq

/-- The numeric value of a `square_t` (`BLACK = 0, WHITE = 1, EMPTY = 2, INVAL = 3`). -/
def square_t.toInt : square_t → Int
  | .BLACK => 0
  | .WHITE => 1
  | .EMPTY => 2
  | .INVAL => 3

/-- The constant `FastBoard::MAXBOARDSIZE`. -/
def MAXBOARDSIZE : Int := 19

/-- The constant `FastBoard::PASS`. -/
def PASS : Int := -1

/-- The constant `FastBoard::RESIGN`. -/
def RESIGN : Int := -2

/-- The part of `FastBoard` the search reads.  The bodies of these member
functions are in `FastBoard.cpp`, which is not among the sources, so each one
is a field: `get_square` is `get_square(int vertex)`, `get_square_xy` is
`get_square(int x, int y)`, `is_eye color vtx` is `is_eye(color, vtx)`. -/
structure FastBoard where
  m_boardsize : Int
  m_tomove : Int
  get_vertex : Int → Int → Int
  get_square : Int → square_t
  get_square_xy : Int → Int → square_t
  is_eye : Int → Int → Bool

/-- The part of `GameState` (`m_rootstate`) the search reads: the board, the
move number, the last move, the count of consecutive passes and the value of
`final_score()` on this state. -/
structure GameState where
  board : FastBoard
  m_movenum : Nat
  m_lastmove : Int
  m_passes : Nat
  final_score : ℚ

/-- The configuration globals (`cfg_*`), the constant `VIRTUAL_LOSS_COUNT`
(declared in `UCTNode.h`, not among the sources) and the two library calls whose
values the embedding takes as given: `randuint32 n` is the value
`Random::get_Rng().randuint32(n)` returns, `sqrt` stands for `std::sqrt`. -/
structure Config where
  cfg_puct : ℚ
  cfg_random_cnt : Int
  cfg_dumbpass : Bool
  cfg_resignpct : Int
  VIRTUAL_LOSS_COUNT : Int
  randuint32 : Nat → Nat
  sqrt : ℚ → ℚ

/-! ## UCTNode.cpp: the node -/

/-- The class `UCTNode`.  The constructor sets `m_move`, `m_score`,
`m_init_eval` and `m_must`; the other members start at `0`, `true` (valid),
`false` and the empty child list. -/
structure UCTNode where
  m_move : Int
  m_score : ℚ
  m_init_eval : ℚ
  m_must : Bool
  m_visits : Int
  m_blackevals : ℚ
  m_virtual_loss : Int
  m_valid : Bool
  m_has_children : Bool
  m_is_expanding : Bool
  m_children : List UCTNode

/-- The constructor `UCTNode::UCTNode(vertex, score, init_eval)`. -/
def UCTNode.new (vertex : Int) (score init_eval : ℚ) : UCTNode :=
  { m_move := vertex, m_score := score, m_init_eval := init_eval, m_must := false,
    m_visits := 0, m_blackevals := 0, m_virtual_loss := 0, m_valid := true,
    m_has_children := false, m_is_expanding := false, m_children := [] }

/-- The method `UCTNode::first_visit`. -/
def UCTNode.first_visit (n : UCTNode) : Bool := n.m_visits == 0

/-- The method `UCTNode::link_child`: the new child becomes the head. -/
def UCTNode.link_child (n : UCTNode) (newchild : UCTNode) : UCTNode :=
  { n with m_children := newchild :: n.m_children }

/-- The method `UCTNode::get_eval`. -/
def UCTNode.get_eval (n : UCTNode) (tomove : Int) : ℚ :=
  let visits := n.m_visits
  if visits > 0 then
    let blackeval := n.m_blackevals
    let score := blackeval / (visits : ℚ)
    if tomove = square_t.WHITE.toInt then 1 - score else score
  else
    let eval := n.m_init_eval
    if tomove = square_t.WHITE.toInt then 1 - eval else eval

/-- The method `UCTNode::update`: one more visit, `eval` added to the sum. -/
def UCTNode.update (n : UCTNode) (eval : ℚ) : UCTNode :=
  { n with m_visits := n.m_visits + 1, m_blackevals := n.m_blackevals + eval }

/-- The method `UCTNode::virtual_loss`. -/
def UCTNode.virtual_loss (n : UCTNode) (cfg : Config) : UCTNode :=
  { n with m_virtual_loss := n.m_virtual_loss + cfg.VIRTUAL_LOSS_COUNT }

/-- The method `UCTNode::virtual_loss_undo`. -/
def UCTNode.virtual_loss_undo (n : UCTNode) (cfg : Config) : UCTNode :=
  { n with m_virtual_loss := n.m_virtual_loss - cfg.VIRTUAL_LOSS_COUNT }

/-- The method `UCTNode::invalidate`. -/
def UCTNode.invalidate (n : UCTNode) : UCTNode :=
  { n with m_valid := false }

/-- The method `UCTNode::get_nopass_child`: the first child whose move is not
`PASS` and is not an eye of the side to move. -/
def UCTNode.get_nopass_child (n : UCTNode) (state : GameState) : Option UCTNode :=
  n.m_children.find? (fun child =>
    decide (child.m_move ≠ PASS) && !state.board.is_eye state.board.m_tomove child.m_move)

/-! ## UCTNode.cpp: sorting the root children -/

/-- The tuple `UCTNode::sortnode_t`: winrate, visits, score, child. -/
abbrev sortnode_t := ℚ × Int × ℚ × UCTNode

/-- The comparison `NodeComp::operator()`: `true` when `a` goes before `b`. -/
def NodeComp (a b : sortnode_t) : Bool :=
  if a.2.1 = 0 ∧ b.2.1 ≠ 0 then false
  else if b.2.1 = 0 ∧ a.2.1 ≠ 0 then true
  else if a.2.1 = 0 ∧ b.2.1 = 0 then decide (a.2.2.1 > b.2.2.1)
  else if a.2.1 = b.2.1 then decide (a.1 > b.1)
  else decide (a.2.1 > b.2.1)

/-- The library call `std::stable_sort(first, last, comp)` on a sequence: the
sorted arrangement in which elements that `comp` does not separate keep their
order (insertion from the right end, each element placed before the first one
that is not strictly before it). -/
def stable_sort {α : Type} (comp : α → α → Bool) (l : List α) : List α :=
  List.insertionSort (fun a b => comp b a = false) l

/-- The entry `sort_root_children` builds for one child. -/
def sort_entry (color : Int) (child : UCTNode) : sortnode_t :=
  let visits := child.m_visits
  let score := child.m_score
  if visits ≠ 0 then (child.get_eval color, visits, score, child)
  else (0, 0, score, child)

/-- The method `UCTNode::sort_root_children`: `tmp` holds one entry per child in
list order, `std::stable_sort` runs on the reversed range
(`rbegin(tmp), rend(tmp)`), and the children are linked again one by one, each
at the head. -/
def UCTNode.sort_root_children (n : UCTNode) (color : Int) : UCTNode :=
  let tmp := n.m_children.map (sort_entry color)
  let tmp := (stable_sort NodeComp tmp.reverse).reverse
  tmp.foldl (fun (node : UCTNode) sortnode => node.link_child sortnode.2.2.2)
    { n with m_children := [] }

/-! ## UCTNode.cpp: proportional randomisation of the first child -/

/-- The vector `accum_vector` of `randomize_first_proportionally`: the running
sums of the children's visits, in `uint32` arithmetic, starting from `accum`. -/
def accum_vector (accum : Nat) : List UCTNode → List Nat
  | [] => []
  | child :: rest =>
    let accum := (((accum : Int) + child.m_visits) % 2 ^ 32).toNat
    accum :: accum_vector accum rest

/-- The loop that finds `index`: the first position whose running sum exceeds
`pick`, and `0` when there is none. -/
def pick_index (pick : Nat) (accum_vector : List Nat) : Nat :=
  let i := accum_vector.findIdx (fun a => decide (pick < a))
  if i < accum_vector.length then i else 0

/-- The method `UCTNode::randomize_first_proportionally`.  With `index > 0` the
loop stops at the predecessor of the chosen child; the chosen child becomes the
first child, its successor is the old first child, and the predecessor is
linked to the chosen child's old successor. -/
def UCTNode.randomize_first_proportionally (n : UCTNode) (randuint32 : Nat → Nat) : UCTNode :=
  let accum_vector := accum_vector 0 n.m_children
  let accum := accum_vector.getLastD 0
  let pick := randuint32 accum
  let index := pick_index pick accum_vector
  if index = 0 then n
  else
    match n.m_children.drop index with
    | [] => n
    | chosen :: old_next =>
      { n with m_children := chosen :: (n.m_children.take index ++ old_next) }

/-! ## UCTSearch.cpp: the root pattern scan of `get_best_move` -/

/-- The array `dir` of the pattern scan. -/
def dir : List (Int × Int) := [(1, 0), (0, 1), (1, 1), (-1, 1)]

/-- The value the fill loop stores for the square `tmp_pos`: `0` empty, `1`
mine, `2` enemy or wall. -/
def stone_code (board : FastBoard) (pos : Int × Int) (color : square_t)
    (tmp_pos : Int × Int) : Nat :=
  if tmp_pos.1 < 0 ∨ tmp_pos.1 ≥ MAXBOARDSIZE ∨ tmp_pos.2 < 0 ∨ tmp_pos.2 ≥ MAXBOARDSIZE then 2
  else if tmp_pos = pos then 1
  else
    let tcolor := board.get_square_xy tmp_pos.1 tmp_pos.2
    if tcolor = color then 1
    else if tcolor = square_t.EMPTY then 0
    else 2

/-- The fill loop of the pattern scan for one direction `d`.  The buffer
`stones` has `DK_num_stone * 2 - 1 = 9` cells, all `0` at first, and the loop
runs `j` over `0 .. DK_num_stone * 2 - 1`, that is `0 .. 9`.  The store at
`j = 9` is outside the buffer; the nine cells keep their values there
(`List.set` past the end changes nothing). -/
def fill_stones (board : FastBoard) (pos : Int × Int) (color : square_t)
    (d : Int × Int) : List Nat :=
  ((List.range (DK_num_stone * 2)).foldl
    (fun (st : List Nat × (Int × Int)) j =>
      (st.1.set j (stone_code board pos color st.2), (st.2.1 + d.1, st.2.2 + d.2)))
    (List.replicate (DK_num_stone * 2 - 1) 0,
      (pos.1 + d.1 * -((DK_num_stone : Int) - 1),
       pos.2 + d.2 * -((DK_num_stone : Int) - 1)))).1

/-- The innermost loop: `(mine_count, empty_count)` of the window
`stones[j .. j + DK_num_stone - 1]`. -/
def window_counts (stones : List Nat) (j : Nat) : Nat × Nat :=
  (List.range' j DK_num_stone).foldl
    (fun (c : Nat × Nat) k =>
      if stones.getD k 0 = 1 then (c.1 + 1, c.2)
      else if stones.getD k 0 = 0 then (c.1, c.2 + 1)
      else c)
    (0, 0)

/-- The window loop of the root scan for one direction: it adds to
`(five, four)`. -/
def count_windows (stones : List Nat) (ff : Nat × Nat) : Nat × Nat :=
  (List.range DK_num_stone).foldl
    (fun (ff : Nat × Nat) j =>
      let c := window_counts stones j
      if c.1 = DK_num_stone then (ff.1 + 1, ff.2)
      else if c.1 = DK_num_stone - 1 ∧ c.2 = 1 then (ff.1, ff.2 + 1)
      else ff)
    ff

/-- The loop over the four directions: `(five, four)` for a stone of `color`
at `pos`. -/
def scan_tally (board : FastBoard) (pos : Int × Int) (color : square_t) : Nat × Nat :=
  dir.foldl (fun ff d => count_windows (fill_stones board pos color d) ff) (0, 0)

/-- The loop that computes `rank`: the position of the first child whose move
is `vertex`, the number of children when there is none. -/
def rank_of (vertex : Int) : List UCTNode → Int
  | [] => 0
  | temp :: rest => if temp.m_move = vertex then 0 else rank_of vertex rest + 1

/-- The value `init_point`. -/
def init_point (rank : Int) : ℚ := ((361 - rank : Int) : ℚ) / 1000000

/-- The winrate (`mine_winrate`, `enemy_winrate`: the same formula) computed
from `init_point` and the tallies. -/
def pattern_winrate (init_point : ℚ) (five four : Nat) : ℚ :=
  if five > 0 then init_point + (1 + (five : ℚ) / 1000)
  else if four > 1 then init_point + (0.99 + (four : ℚ) / 1000)
  else if four = 1 then init_point + 0.98
  else init_point

/-- The four running variables of the scan. -/
structure Best where
  best_mine_winrate : ℚ
  best_mine_move : Int
  best_enemy_winrate : ℚ
  best_enemy_move : Int

/-- The body of the loop over the two colours for the empty vertex `vertex`
at `pos`. -/
def scan_color (board : FastBoard) (children : List UCTNode) (to_move : Int)
    (pos : Int × Int) (vertex : Int) (best : Best) (color : square_t) : Best :=
  let ff := scan_tally board pos color
  let five := ff.1
  let four := ff.2
  if five > 0 ∨ four ≥ 1 then
    let rank := rank_of vertex children
    let init_point := init_point rank
    if color.toInt = to_move then
      let mine_winrate := pattern_winrate init_point five four
      if best.best_mine_winrate < mine_winrate then
        { best with best_mine_move := vertex, best_mine_winrate := mine_winrate }
      else best
    else
      let enemy_winrate := pattern_winrate init_point five four
      if best.best_enemy_winrate < enemy_winrate then
        { best with best_enemy_move := vertex, best_enemy_winrate := enemy_winrate }
      else best
  else best

/-- The body of the loops over `x` and `y`.  `pos` is `get_xy(vertex)`, which
the assertion in the source fixes to `(x, y)`. -/
def scan_vertex (board : FastBoard) (children : List UCTNode) (to_move : Int)
    (best : Best) (x y : Int) : Best :=
  let vertex := board.get_vertex x y
  if board.get_square vertex ≠ square_t.EMPTY then best
  else
    [square_t.BLACK, square_t.WHITE].foldl
      (scan_color board children to_move (x, y) vertex) best

/-- The whole scan: `x` and `y` run over `0 .. 18`. -/
def root_scan (board : FastBoard) (children : List UCTNode) (to_move : Int) : Best :=
  (List.range 19).foldl
    (fun best (x : Nat) =>
      (List.range 19).foldl
        (fun best (y : Nat) => scan_vertex board children to_move best (x : Int) (y : Int)) best)
    { best_mine_winrate := 0, best_mine_move := -1,
      best_enemy_winrate := 0, best_enemy_move := -1 }

/-- The override rules after the scan: `some move` when `must_play` stays
true and the function returns `move`, `none` when the code falls through. -/
def tactical_override (best : Best) : Option Int :=
  if best.best_mine_winrate ≥ 0.99 ∨ best.best_enemy_winrate ≥ 0.99 then
    if best.best_mine_winrate ≥ 1 then some best.best_mine_move
    else if best.best_enemy_winrate ≥ 1 then some best.best_enemy_move
    else if best.best_mine_winrate ≥ 0.99 then some best.best_mine_move
    else if best.best_enemy_winrate ≥ 0.99 ∧ best.best_mine_winrate < 0.98 then
      some best.best_enemy_move
    else none
  else none

/-! ## UCTSearch.cpp: `get_best_move` -/

/-- Modelled from the spec: the flag `NOPASS` carried in `pass_flag`
(declared in `UCTSearch.h`, which is not among the sources), one bit. -/
def NOPASS : Nat := 1

/-- Modelled from the spec: the flag `NORESIGN` carried in `pass_flag`
(declared in `UCTSearch.h`, which is not among the sources), another bit. -/
def NORESIGN : Nat := 2

/-- The test "do we lose by passing?" of the pass policy. -/
def passing_loses (score : ℚ) (to_move : Int) : Bool :=
  decide ((score > 0 ∧ to_move = square_t.WHITE.toInt)
    ∨ (score < 0 ∧ to_move = square_t.BLACK.toInt))

/-- The replacement of a pass by `get_nopass_child`: the new `bestmove` and
`bestscore`, unchanged when there is no such child. -/
def prefer_nopass (root : UCTNode) (state : GameState) (to_move : Int)
    (bestmove : Int) (bestscore : ℚ) : Int × ℚ :=
  match root.get_nopass_child state with
  | some nopass =>
    (nopass.m_move, if nopass.first_visit then 1 else nopass.get_eval to_move)
  | none => (bestmove, bestscore)

/-- The pass policy of `get_best_move`: the new `bestmove` and `bestscore`. -/
def pass_policy (cfg : Config) (root : UCTNode) (state : GameState) (passflag : Nat)
    (to_move : Int) (bestmove : Int) (bestscore : ℚ) : Int × ℚ :=
  if passflag &&& NOPASS ≠ 0 then
    if bestmove = PASS then prefer_nopass root state to_move bestmove bestscore
    else (bestmove, bestscore)
  else if !cfg.cfg_dumbpass ∧ bestmove = PASS then
    if passing_loses state.final_score to_move then
      prefer_nopass root state to_move bestmove bestscore
    else (bestmove, bestscore)
  else if !cfg.cfg_dumbpass ∧ state.m_lastmove = PASS then
    if passing_loses state.final_score to_move then (bestmove, bestscore)
    else (PASS, bestscore)
  else (bestmove, bestscore)

/-- The resign policy of `get_best_move`. -/
def resign_policy (cfg : Config) (root : UCTNode) (state : GameState) (passflag : Nat)
    (bestmove : Int) (bestscore : ℚ) : Int :=
  let visits := root.m_visits
  if bestmove ≠ PASS then
    if passflag &&& NORESIGN = 0 then
      let movetresh : Nat :=
        (Int.tdiv (state.board.m_boardsize * state.board.m_boardsize) 4).toNat
      if bestscore < (cfg.cfg_resignpct : ℚ) / 100 ∧ visits > 500
          ∧ state.m_movenum > movetresh then RESIGN
      else bestmove
    else bestmove
  else bestmove

/-- The method `UCTSearch::get_best_move`.  The sort and the randomisation
keep the number of children, so the first child exists after them; the
`[]` branch of the inner `match` is not reached. -/
def get_best_move (cfg : Config) (m_root : UCTNode) (m_rootstate : GameState)
    (passflag : Nat) : Int :=
  if m_root.m_children.isEmpty then PASS
  else
    let to_move := m_rootstate.board.m_tomove
    let root := m_root.sort_root_children to_move
    let movenum : Int := m_rootstate.m_movenum
    let root :=
      if movenum < cfg.cfg_random_cnt then root.randomize_first_proportionally cfg.randuint32
      else root
    match root.m_children with
    | [] => PASS
    | first :: _ =>
      let bestmove := first.m_move
      match tactical_override (root_scan m_rootstate.board root.m_children to_move) with
      | some move => move
      | none =>
        if first.first_visit then bestmove
        else
          let bestscore := first.get_eval to_move
          let best := pass_policy cfg root m_rootstate passflag to_move bestmove bestscore
          resign_policy cfg root m_rootstate passflag best.1 best.2

/-! ## UCTNode.cpp: `uct_select_child` -/

/-- The first loop of `uct_select_child`: the sum of the visits of the valid
children (the loop skips every child whose `valid()` is false). -/
def parentvisits (children : List UCTNode) : Int :=
  (children.filter (fun child => child.m_valid)).foldl
    (fun parentvisits child => parentvisits + child.m_visits) 0

/-- The quantity `value` of the selection loop for one child:
`winrate + cfg_puct * psa * (numerator / denom)`. -/
def uct_value (cfg : Config) (color : Int) (numerator : ℚ) (child : UCTNode) : ℚ :=
  let winrate := child.get_eval color
  let psa := child.m_score
  let denom : ℚ := 1 + (child.m_visits : ℚ)
  let puct := cfg.cfg_puct * psa * (numerator / denom)
  winrate + puct

/-- The body of the selection loop for the child at position `i`: the state is
`(best, best_value)`; an invalid child is skipped. -/
def select_step (cfg : Config) (color : Int) (numerator : ℚ)
    (st : Option Nat × ℚ) (ic : Nat × UCTNode) : Option Nat × ℚ :=
  if ic.2.m_valid then
    let value := uct_value cfg color numerator ic.2
    if value > st.2 then (some ic.1, value) else st
  else st

/-- The method `UCTNode::uct_select_child`.  The result is the position of the
returned child in the child list, `none` for `nullptr`.  The method assigns to
no member of the node or of its children, so the node is not part of the
result. -/
def UCTNode.uct_select_child (n : UCTNode) (cfg : Config) (color : Int) : Option Nat :=
  let numerator := cfg.sqrt (parentvisits n.m_children)
  if n.m_children.all (fun child => !child.m_valid) then none
  else (n.m_children.enum.foldl (select_step cfg color numerator) (none, -1000)).1

/-! ## UCTNode.cpp: `create_children` and `link_nodelist` -/

/-- The type `Network::scored_node`: a prior and a move. -/
abbrev scored_node := ℚ × Int

/-- The constant `std::numeric_limits<float>::min()`, `2 ^ (-126)`. -/
def FLT_MIN : ℚ := 1 / 2 ^ 126

/-- The order `operator<` of `std::pair<float, int>` (as `≤`), which
`std::sort` uses on the node list. -/
def scored_node_le (a b : scored_node) : Prop :=
  a.1 < b.1 ∨ (a.1 = b.1 ∧ a.2 ≤ b.2)

instance : DecidableRel scored_node_le := fun a b =>
  inferInstanceAs (Decidable (a.1 < b.1 ∨ (a.1 = b.1 ∧ a.2 ≤ b.2)))

/-- The method `UCTNode::link_nodelist`: the node and the node count after it.
An empty `nodelist` returns at once. -/
def UCTNode.link_nodelist (n : UCTNode) (nodecount : Int) (nodelist : List scored_node)
    (init_eval : ℚ) : UCTNode × Int :=
  let totalchildren := nodelist.length
  if totalchildren = 0 then (n, nodecount)
  else
    let nodelist := nodelist.insertionSort scored_node_le
    let legal_sum := nodelist.foldl (fun legal_sum node => legal_sum + node.1) 0
    let legal_sum := if legal_sum < FLT_MIN then 1 else legal_sum
    let st := nodelist.foldl
      (fun (st : UCTNode × Int) node =>
        if node.2 = PASS then st
        else
          let vtx := UCTNode.new node.2 (node.1 / legal_sum) init_eval
          (st.1.link_child vtx, st.2 + 1))
      (n, 0)
    ({ st.1 with m_has_children := true }, nodecount + st.2)

/-- What `create_children` leaves behind: the returned `bool`, the node, the
node count and the value written to `eval` (`none` when nothing is written). -/
structure Expansion where
  success : Bool
  node : UCTNode
  nodecount : Int
  eval : Option ℚ

/-- The method `UCTNode::create_children`.  `raw_netlist` is the value
`Network::get_scored_moves` returns for `state`; it is read only after the three
early returns.  The parameter `noise` of the source is never read or written. -/
def UCTNode.create_children (n : UCTNode) (nodecount : Int) (state : GameState)
    (raw_netlist : List scored_node × ℚ) : Expansion :=
  if n.m_has_children then ⟨false, n, nodecount, none⟩
  else if state.m_passes ≥ 2 then ⟨false, n, nodecount, none⟩
  else if n.m_has_children then ⟨false, n, nodecount, none⟩
  else if n.m_is_expanding then ⟨false, n, nodecount, none⟩
  else
    let n := { n with m_is_expanding := true }
    let netlist := raw_netlist.1.map (fun node => if node.2 = PASS then (0, node.2) else node)
    let net_eval := raw_netlist.2
    let to_move := state.board.m_tomove
    let net_eval := if to_move = square_t.WHITE.toInt then 1 - net_eval else net_eval
    let nodelist := netlist
    let linked := n.link_nodelist nodecount nodelist net_eval
    ⟨true, linked.1, linked.2, some net_eval⟩

/-! ## UCTNode.cpp: `dirichlet_noise` -/

/-- The last loop of `dirichlet_noise`: each child's score becomes
`score * (1 - epsilon) + epsilon * eta_a`, `eta_a` being the entry of the
vector at the child's position. -/
def noise_children (epsilon : ℚ) : List UCTNode → List ℚ → List UCTNode
  | [], _ => []
  | child :: rest, [] => child :: rest
  | child :: rest, eta_a :: etas =>
    { child with m_score := child.m_score * (1 - epsilon) + epsilon * eta_a }
      :: noise_children epsilon rest etas

/-- The method `UCTNode::dirichlet_noise`.  `gamma i` is the `i`-th value drawn
from `std::gamma_distribution<float>(alpha, 1.0f)`. -/
def UCTNode.dirichlet_noise (n : UCTNode) (epsilon _alpha : ℚ) (gamma : Nat → ℚ) : UCTNode :=
  let child_cnt := n.m_children.length
  let dirichlet_vector := (List.range child_cnt).map gamma
  let sample_sum := dirichlet_vector.foldl (fun s v => s + v) 0
  if sample_sum < FLT_MIN then n
  else
    let dirichlet_vector := dirichlet_vector.map (fun v => v / sample_sum)
    { n with m_children := noise_children epsilon n.m_children dirichlet_vector }

/-! ## The pattern tallies as the specification words them -/

/-- The square at `t` steps from `pos` along the direction `d`. -/
def line_square (pos d : Int × Int) (t : Int) : Int × Int :=
  (pos.1 + t * d.1, pos.2 + t * d.2)

/-- A square of the 19x19 board. -/
def on_board (p : Int × Int) : Prop :=
  0 ≤ p.1 ∧ p.1 < 19 ∧ 0 ≤ p.2 ∧ p.2 < 19

instance (p : Int × Int) : Decidable (on_board p) :=
  inferInstanceAs (Decidable (0 ≤ p.1 ∧ p.1 < 19 ∧ 0 ≤ p.2 ∧ p.2 < 19))

/-- An own square: the vertex `v` itself, or a board square that holds `C`. -/
def own_square (board : FastBoard) (v : Int × Int) (C : square_t) (p : Int × Int) : Bool :=
  decide (p = v ∨ (on_board p ∧ board.get_square_xy p.1 p.2 = C))

/-- An empty square: a board square other than `v` that is empty.  A square off
the board or of the other colour is neither own nor empty. -/
def empty_square (board : FastBoard) (v : Int × Int) (p : Int × Int) : Bool :=
  decide (p ≠ v ∧ on_board p ∧ board.get_square_xy p.1 p.2 = square_t.EMPTY)

/-- The five squares of the `w`-th length-5 window through `v` on the axis with
direction `d` (`w = 0 .. 4`): it starts `4 - w` steps before `v`. -/
def window_squares (v d : Int × Int) (w : Nat) : List (Int × Int) :=
  (List.range 5).map (fun (i : Nat) => line_square v d ((w : Int) - 4 + (i : Int)))

/-- The count `own` of a window. -/
def spec_own (board : FastBoard) (v : Int × Int) (C : square_t) (d : Int × Int) (w : Nat) : Nat :=
  (window_squares v d w).countP (own_square board v C)

/-- The count `empty` of a window. -/
def spec_empty (board : FastBoard) (v : Int × Int) (d : Int × Int) (w : Nat) : Nat :=
  (window_squares v d w).countP (empty_square board v)

/-- The four axes through a vertex, each by one of its two directions:
horizontal, vertical and the two diagonals. -/
def axes : List (Int × Int) := [(1, 0), (0, 1), (1, 1), (-1, 1)]

/-- The tally `fives`: the number of (axis, window) pairs with five own squares. -/
def spec_fives (board : FastBoard) (v : Int × Int) (C : square_t) : Nat :=
  (axes.map (fun d => (List.range 5).countP (fun w => decide (spec_own board v C d w = 5)))).sum

/-- The tally `fours`: the number of (axis, window) pairs with four own squares
and one empty square. -/
def spec_fours (board : FastBoard) (v : Int × Int) (C : square_t) : Nat :=
  (axes.map (fun d => (List.range 5).countP
    (fun w => decide (spec_own board v C d w = 4 ∧ spec_empty board v d w = 1)))).sum

/-! ## The selection value as the specification words it -/

/-- The sum `P` of the visits of the valid children. -/
def valid_visits (children : List UCTNode) : Int :=
  ((children.filter (fun c => c.m_valid)).map (fun c => c.m_visits)).sum

/-- The selection value of a child `c`:
`get_eval_c(colour) + c_puct * prior_c * sqrt(P) / (1 + visits_c)`. -/
def puct_value (cfg : Config) (color : Int) (children : List UCTNode) (c : UCTNode) : ℚ :=
  c.get_eval color
    + cfg.cfg_puct * c.m_score * cfg.sqrt (valid_visits children) / (1 + (c.m_visits : ℚ))

/-! ## Operations on a node, for statements about every later operation -/

/-- One operation on a node, with its arguments. -/
inductive NodeOp where
  | update (eval : ℚ)
  | virtual_loss
  | virtual_loss_undo
  | invalidate
  | uct_select_child (color : Int)
  | sort_root_children (color : Int)
  | randomize_first_proportionally
  | dirichlet_noise (epsilon alpha : ℚ) (gamma : Nat → ℚ)
  | create_children (nodecount : Int) (state : GameState) (raw_netlist : List scored_node × ℚ)

/-- The node after one operation. -/
def UCTNode.apply_op (cfg : Config) (n : UCTNode) : NodeOp → UCTNode
  | .update eval => n.update eval
  | .virtual_loss => n.virtual_loss cfg
  | .virtual_loss_undo => n.virtual_loss_undo cfg
  | .invalidate => n.invalidate
  | .uct_select_child _ => n
  | .sort_root_children color => n.sort_root_children color
  | .randomize_first_proportionally => n.randomize_first_proportionally cfg.randuint32
  | .dirichlet_noise epsilon alpha gamma => n.dirichlet_noise epsilon alpha gamma
  | .create_children nodecount state raw_netlist =>
    (n.create_children nodecount state raw_netlist).node

/-- The node after a sequence of operations. -/
def UCTNode.apply_ops (cfg : Config) (n : UCTNode) (ops : List NodeOp) : UCTNode :=
  ops.foldl (UCTNode.apply_op cfg) n

/-- The number of entries of an oracle move list whose move is not `PASS`. -/
def nonpass_count (L : List scored_node) : Nat :=
  L.countP (fun e => decide (e.2 ≠ PASS))

/-- The sum of the priors of the entries whose move is not `PASS`. -/
def nonpass_prior_sum (L : List scored_node) : ℚ :=
  ((L.filter (fun e => decide (e.2 ≠ PASS))).map (fun e => e.1)).sum

/-- A node as the constructor leaves it, used in examples. -/
def fresh_node : UCTNode := UCTNode.new 0 0 (1 / 2)

/-- A game state with an empty board position record, used in examples: no
stone anywhere, black to move, no pass yet. -/
def start_state : GameState :=
  { board :=
      { m_boardsize := 19, m_tomove := 0,
        get_vertex := fun x y => (y + 1) * 21 + (x + 1),
        get_square := fun _ => square_t.EMPTY,
        get_square_xy := fun _ _ => square_t.EMPTY,
        is_eye := fun _ _ => false },
    m_movenum := 0, m_lastmove := 0, m_passes := 0, final_score := 0 }

/-! ## The scan as a table of tallies (used to evaluate it) -/

/-- One row of the table: a vertex, a colour and the colour's tallies `five`
and `four` there. -/
abbrev tally_row := Int × square_t × Nat × Nat

/-- The row of the scan at `(x, y)` for one colour, when `five > 0` or
`four >= 1`. -/
def color_tally (board : FastBoard) (x y : Int) (color : square_t) : Option tally_row :=
  let ff := scan_tally board (x, y) color
  if ff.1 > 0 ∨ ff.2 ≥ 1 then some (board.get_vertex x y, color, ff.1, ff.2)
  else none

/-- The rows of the scan at `(x, y)`: none for an occupied vertex, the rows of
the two colours for an empty one. -/
def vertex_tallies (board : FastBoard) (x y : Int) : List tally_row :=
  if board.get_square (board.get_vertex x y) ≠ square_t.EMPTY then []
  else [square_t.BLACK, square_t.WHITE].filterMap (color_tally board x y)

/-- The rows of the whole scan, in scan order. -/
def scan_tallies (board : FastBoard) : List tally_row :=
  (List.range 19).flatMap (fun (x : Nat) =>
    (List.range 19).flatMap (fun (y : Nat) => vertex_tallies board (x : Int) (y : Int)))

/-- The candidate the scan compares for a row: the vertex, whether the colour
is the side to move, and the winrate. -/
def candidate_of (children : List UCTNode) (to_move : Int) (row : tally_row) :
    Int × Bool × ℚ :=
  (row.1, decide (row.2.1.toInt = to_move),
    pattern_winrate (init_point (rank_of row.1 children)) row.2.2.1 row.2.2.2)

/-- The comparison the scan makes for one candidate. -/
def best_update (best : Best) (c : Int × Bool × ℚ) : Best :=
  if c.2.1 then
    if best.best_mine_winrate < c.2.2 then
      { best with best_mine_move := c.1, best_mine_winrate := c.2.2 }
    else best
  else
    if best.best_enemy_winrate < c.2.2 then
      { best with best_enemy_move := c.1, best_enemy_winrate := c.2.2 }
    else best

/-! ## Example positions -/

/-- The bit that stands for the square `(x, y)` in a stone mask: the board sits
in a grid of rows of 32 bits with a margin of 4 on every side. -/
def bit_key (x y : Nat) : Nat := (y + 4) * 32 + (x + 4)

/-- The stone mask of a list of squares. -/
def mask_of (stones : List (Nat × Nat)) : Nat :=
  stones.foldl (fun m s => m ||| (1 <<< bit_key s.1 s.2)) 0

/-- A 19x19 board given by the masks of its black and white stones, with the
vertex numbering `(y + 1) * 21 + (x + 1)`. -/
def board_of_masks (black white : Nat) (tomove : Int) : FastBoard :=
  { m_boardsize := 19, m_tomove := tomove,
    get_vertex := fun x y => (y + 1) * 21 + (x + 1),
    get_square_xy := fun x y =>
      if 0 ≤ x ∧ x < 19 ∧ 0 ≤ y ∧ y < 19 then
        if black.testBit (bit_key x.toNat y.toNat) then square_t.BLACK
        else if white.testBit (bit_key x.toNat y.toNat) then square_t.WHITE
        else square_t.EMPTY
      else square_t.INVAL,
    get_square := fun v =>
      if 0 ≤ v % 21 - 1 ∧ v % 21 - 1 < 19 ∧ 0 ≤ v / 21 - 1 ∧ v / 21 - 1 < 19 then
        if black.testBit (bit_key (v % 21 - 1).toNat (v / 21 - 1).toNat) then square_t.BLACK
        else if white.testBit (bit_key (v % 21 - 1).toNat (v / 21 - 1).toNat) then square_t.WHITE
        else square_t.EMPTY
      else square_t.INVAL,
    is_eye := fun _ _ => false }

/-- A 19x19 board given by the lists of its black and white stones. -/
def board_of_stones (black white : List (Nat × Nat)) (tomove : Int) : FastBoard :=
  board_of_masks (mask_of black) (mask_of white) tomove

/-- The stones of `B` seen `k` steps ahead along an axis of bit distance `s`:
bit `i` of the result is bit `i + k * s` of `B`. -/
def mask_ahead (B s k : Nat) : Nat := B >>> (k * s)

/-- The stones of `B` seen `k` steps behind along an axis of bit distance `s`:
bit `i` of the result is bit `i - k * s` of `B`. -/
def mask_behind (B s k : Nat) : Nat := B <<< (k * s)

/-- The positions at which at least three of four masks have a bit. -/
def three_of_four (a b c d : Nat) : Nat :=
  (a &&& b &&& c) ||| (a &&& b &&& d) ||| (a &&& c &&& d) ||| (b &&& c &&& d)

/-- The squares at which some length-5 window on the axis of bit distance `s`
holds at least three stones of `B` besides the square itself. -/
def active_axis (B s : Nat) : Nat :=
  three_of_four (mask_behind B s 4) (mask_behind B s 3) (mask_behind B s 2) (mask_behind B s 1)
  ||| three_of_four (mask_behind B s 3) (mask_behind B s 2) (mask_behind B s 1) (mask_ahead B s 1)
  ||| three_of_four (mask_behind B s 2) (mask_behind B s 1) (mask_ahead B s 1) (mask_ahead B s 2)
  ||| three_of_four (mask_behind B s 1) (mask_ahead B s 1) (mask_ahead B s 2) (mask_ahead B s 3)
  ||| three_of_four (mask_ahead B s 1) (mask_ahead B s 2) (mask_ahead B s 3) (mask_ahead B s 4)

/-- The squares at which some window on one of the four axes holds at least
three stones of `B` besides the square itself: everywhere else the tallies of
the colour of `B` are zero. -/
def active_mask (B : Nat) : Nat :=
  active_axis B 1 ||| active_axis B 32 ||| active_axis B 33 ||| active_axis B 31

/-- The bit distance of each direction of `dir`, in the same order. -/
def dir_bits : List ((Int × Int) × Nat) :=
  [((1, 0), 1), ((0, 1), 32), ((1, 1), 33), ((-1, 1), 31)]

/-- The squares of the board in scan order. -/
def scan_squares : List (Nat × Nat) :=
  (List.range 19).flatMap (fun (x : Nat) => (List.range 19).map (fun (y : Nat) => (x, y)))

/-- Eighteen stones around the empty centre `(9, 9)`: on the row, the column
and the main diagonal through it, three stones at distance 2 to 4 before it and
three at distance 1 to 3 after it (`X X X . v X X X .`). -/
def star_stones : List (Nat × Nat) :=
  [(5, 9), (6, 9), (7, 9), (10, 9), (11, 9), (12, 9),
   (9, 5), (9, 6), (9, 7), (9, 10), (9, 11), (9, 12),
   (5, 5), (6, 6), (7, 7), (10, 10), (11, 11), (12, 12)]

/-- Six stones of the other colour that close the outer ends of the three lines
of `star_stones`. -/
def star_caps : List (Nat × Nat) :=
  [(4, 9), (14, 9), (9, 4), (9, 14), (4, 4), (14, 14)]

/-- Four stones in a row on the bottom edge; `(4, 0)` completes five. -/
def edge_row : List (Nat × Nat) := [(0, 0), (1, 0), (2, 0), (3, 0)]

/-- Three stones in a row with both ends open; `(4, 2)` makes an open four. -/
def open_three : List (Nat × Nat) := [(1, 2), (2, 2), (3, 2)]

/-- Scattered stones, no three of them in one window of five squares. -/
def scattered : List (Nat × Nat) :=
  [(1, 16), (4, 16), (7, 16), (10, 16), (13, 16), (16, 16),
   (1, 18), (4, 18), (7, 18), (10, 18), (13, 18), (16, 18),
   (17, 1), (17, 3), (17, 6)]

/-- A child as the expansion creates it, for the move `vertex`. -/
def example_child (vertex : Int) : UCTNode := UCTNode.new vertex 1 (1 / 2)

/-- A configuration for the examples: no randomisation of the first move. -/
def example_cfg : Config :=
  { cfg_puct := 4 / 5, cfg_random_cnt := 0, cfg_dumbpass := false, cfg_resignpct := 10,
    VIRTUAL_LOSS_COUNT := 3, randuint32 := fun _ => 0, sqrt := fun q => q }

/-- The start of the scan's running variables. -/
def best_init : Best :=
  { best_mine_winrate := 0, best_mine_move := -1, best_enemy_winrate := 0, best_enemy_move := -1 }

/-- The result of the scan computed from a table of tallies. -/
def best_of_table (children : List UCTNode) (to_move : Int) (table : List tally_row) : Best :=
  (table.map (candidate_of children to_move)).foldl best_update best_init

/-- The active squares of a position given by stone lists, in scan order. -/
def active_squares (black white : List (Nat × Nat)) : List (Nat × Nat) :=
  scan_squares.filter (fun p =>
    (active_mask (mask_of black) ||| active_mask (mask_of white)).testBit (bit_key p.1 p.2))

/-- Position 1, black to move: black has four in a row on the edge (a five at
`(4, 0)`) and the eighteen `star_stones`; white has as many stones. -/
def position1 : FastBoard :=
  board_of_stones (star_stones ++ edge_row) (star_caps ++ [(5, 0)] ++ scattered) 0

/-- Position 2, black to move: white has four in a row on the edge (a five at
`(4, 0)`), black has the eighteen `star_stones` and no five. -/
def position2 : FastBoard :=
  board_of_stones (star_stones ++ [(5, 0)]) (edge_row ++ star_caps ++ scattered.take 9) 0

/-- Position 3, black to move: no five for either colour; black has an open
three (an open four at `(4, 2)`), white has the eighteen `star_stones`. -/
def position3 : FastBoard :=
  board_of_stones (open_three ++ star_caps ++ scattered.take 9) star_stones 0

/-- The game state at a position after `movenum` moves. -/
def state_at (board : FastBoard) (movenum : Nat) : GameState :=
  { board := board, m_movenum := movenum, m_lastmove := 0, m_passes := 0, final_score := 0 }

/-- A root whose children are the given moves, as the expansion creates them. -/
def root_with (moves : List Int) : UCTNode :=
  { UCTNode.new 0 0 (1 / 2) with m_has_children := true, m_children := moves.map example_child }

/-- A node with three children for the examples of the selection: the first is
invalid, the second and the third are valid and visited. -/
def select_node : UCTNode :=
  { UCTNode.new 0 0 (1 / 2) with
    m_has_children := true,
    m_children :=
      [{ UCTNode.new 60 (1 / 2) (1 / 2) with m_valid := false, m_visits := 5, m_blackevals := 4 },
       { UCTNode.new 61 (1 / 4) (1 / 2) with m_visits := 3, m_blackevals := 2 },
       { UCTNode.new 62 (1 / 4) (1 / 2) with m_visits := 1, m_blackevals := 1 / 2 }] }

/-- An oracle answer for the examples of the expansion: two moves and `PASS`. -/
def example_netlist : List scored_node × ℚ :=
  ([(1 / 4, 60), (3 / 4, 61), (1 / 2, PASS)], 1 / 2)

/-! ## The order of the root children as the specification words it -/

/-- A child is visited when its visit counter is not zero (the test
`if (visits)` of `sort_root_children`). -/
def UCTNode.visited (c : UCTNode) : Prop := c.m_visits ≠ 0

/-- The order "best first" between a child `c` and a child `d` that stands
somewhere after it: an unvisited child is followed by unvisited children only;
of two visited children the later one has no more visits, and with equal visits
no higher winrate; of two unvisited children the later one has no higher prior. -/
def best_first (color : Int) (c d : UCTNode) : Prop :=
  (d.visited → c.visited) ∧
  (c.visited → d.visited →
    d.m_visits ≤ c.m_visits ∧ (d.m_visits = c.m_visits → d.get_eval color ≤ c.get_eval color)) ∧
  (¬ c.visited → ¬ d.visited → d.m_score ≤ c.m_score)

/-- Two children tie under `NodeComp`: neither is better than the other. -/
def tied (color : Int) (c d : UCTNode) : Prop :=
  NodeComp (sort_entry color c) (sort_entry color d) = false ∧
  NodeComp (sort_entry color d) (sort_entry color c) = false

/-- Two children that tie: both unvisited with the same prior. -/
def tie_first : UCTNode := UCTNode.new 60 (1 / 2) (1 / 2)

/-- The second of the two children that tie. -/
def tie_second : UCTNode := UCTNode.new 61 (1 / 2) (1 / 2)

/-- A root whose two children tie. -/
def tie_root : UCTNode :=
  { UCTNode.new 0 0 (1 / 2) with m_has_children := true, m_children := [tie_first, tie_second] }

/-- A child with a given move and visit count. -/
def visited_child (vertex visits : Int) : UCTNode :=
  { UCTNode.new vertex (1 / 3) (1 / 2) with m_visits := visits }

/-- A root whose three children have `10`, `30` and `60` visits. -/
def visits_root : UCTNode :=
  { UCTNode.new 0 0 (1 / 2) with
    m_has_children := true
    m_children := [visited_child 60 10, visited_child 61 30, visited_child 62 60] }

/-! ## UCTSearch.cpp: `play_simulation` -/

/-- The method `UCTNode::eval_state`: the oracle's value for the state, from
Black's point of view.  `raw_netlist` is the value `Network::get_scored_moves`
returns for `state`. -/
def UCTNode.eval_state (_n : UCTNode) (state : GameState)
    (raw_netlist : List scored_node × ℚ) : ℚ :=
  let net_eval := raw_netlist.2
  if state.board.m_tomove = square_t.WHITE.toInt then 1 - net_eval else net_eval

/-- Modelled from the spec: the class `SearchResult` (`SearchResult.h` is not
among the sources) is a tagged value, either valid with a value from Black's
point of view or invalid; `none` is the invalid result `SearchResult{}`. -/
abbrev SearchResult := Option ℚ

/-- Modelled from the spec: `SearchResult::valid`. -/
def SearchResult.valid (r : SearchResult) : Bool := r.isSome

/-- Modelled from the spec: `SearchResult::from_eval`, the valid result with
the given value. -/
def SearchResult.from_eval (eval : ℚ) : SearchResult := some eval

/-- Modelled from the spec: `SearchResult::from_score`, the valid result whose
value comes from the sign of the final score (win `1`, loss `0`, tie `1/2`). -/
def SearchResult.from_score (score : ℚ) : SearchResult :=
  if score > 0 then some 1 else if score < 0 then some 0 else some (1 / 2)

/-- What `play_simulation` calls outside these sources: the constant
`MAX_TREE_SIZE`, the oracle `Network::get_scored_moves`, the moves and the
superko test of `GameState`, and the two calls on the transposition table
`TTable::sync` and `TTable::update`, with the table's contents of type `TT`.
The table's key (`hash`, `komi`) is read from the state at the entry of the
call, so the two calls take that state. -/
structure SearchEnv (TT : Type) where
  MAX_TREE_SIZE : Int
  get_scored_moves : GameState → List scored_node × ℚ
  play_move : GameState → Int → GameState
  play_pass : GameState → GameState
  superko : GameState → Bool
  sync : TT → GameState → UCTNode → UCTNode
  update : TT → GameState → UCTNode → TT

/-- What one call of `play_simulation` leaves behind: the returned result, the
node, the state `currstate` (passed by reference), the counter `m_nodes` and
the transposition table. -/
structure Simulation (TT : Type) where
  result : SearchResult
  node : UCTNode
  currstate : GameState
  m_nodes : Int
  table : TT

/-- The block `if (!node->has_children())` of `play_simulation`: the terminal
score, the expansion, or the evaluation of the leaf at the tree size cap.  The
result is `(result, node, m_nodes)`.  The variable `eval` is read only after a
successful `create_children`, which has written it. -/
def expand_leaf {TT : Type} (env : SearchEnv TT) (m_nodes : Int) (currstate : GameState)
    (node : UCTNode) : SearchResult × UCTNode × Int :=
  if !node.m_has_children then
    if currstate.m_passes ≥ 2 then
      let score := currstate.final_score
      (SearchResult.from_score score, node, m_nodes)
    else if m_nodes < env.MAX_TREE_SIZE then
      let created := node.create_children m_nodes currstate (env.get_scored_moves currstate)
      if created.success then
        (SearchResult.from_eval (created.eval.getD 0), created.node, created.nodecount)
      else (none, created.node, created.nodecount)
    else
      let eval := node.eval_state currstate (env.get_scored_moves currstate)
      (SearchResult.from_eval eval, node, m_nodes)
  else (none, node, m_nodes)

/-- The end of `play_simulation`: the update on a valid result, the undo of the
virtual loss and the update of the transposition table under the key of the
state `key`. -/
def back_up {TT : Type} (cfg : Config) (env : SearchEnv TT) (key : GameState)
    (s : Simulation TT) : Simulation TT :=
  let node := match s.result with
    | some eval => s.node.update eval
    | none => s.node
  let node := node.virtual_loss_undo cfg
  { s with node := node, table := env.update s.table key node }

/-- The method `UCTSearch::play_simulation`.  The recursion of the source is
bounded here by `fuel`, the number of nested calls allowed; `none` means the
bound was reached.  The child `next` is the child at position `index`; what the
recursive call leaves of it is put back at that position. -/
def play_simulation {TT : Type} (cfg : Config) (env : SearchEnv TT) :
    Nat → TT → Int → GameState → UCTNode → Option (Simulation TT)
  | 0, _, _, _, _ => none
  | fuel + 1, table, m_nodes, currstate, node =>
    let color := currstate.board.m_tomove
    let key := currstate
    let node := env.sync table key node
    let node := node.virtual_loss cfg
    let expanded := expand_leaf env m_nodes currstate node
    let result := expanded.1
    let node := expanded.2.1
    let m_nodes := expanded.2.2
    let descended : Option (Simulation TT) :=
      if node.m_has_children && !SearchResult.valid result then
        match node.uct_select_child cfg color with
        | none => some ⟨result, node, currstate, m_nodes, table⟩
        | some index =>
          match node.m_children[index]? with
          | none => some ⟨result, node, currstate, m_nodes, table⟩
          | some next =>
            let move := next.m_move
            if move ≠ PASS then
              let currstate := env.play_move currstate move
              if !env.superko currstate then
                (play_simulation cfg env fuel table m_nodes currstate next).map
                  (fun s => { s with
                    node := { node with m_children := node.m_children.set index s.node } })
              else
                some ⟨result,
                  { node with m_children := node.m_children.set index next.invalidate },
                  currstate, m_nodes, table⟩
            else
              let currstate := env.play_pass currstate
              (play_simulation cfg env fuel table m_nodes currstate next).map
                (fun s => { s with
                  node := { node with m_children := node.m_children.set index s.node } })
      else some ⟨result, node, currstate, m_nodes, table⟩
    descended.map (back_up cfg env key)

/-! ## Naming the nodes of a tree -/

/-- The node a path leads to.  Each step of the path is the position of a child
counted from the end of the sibling list, which `link_child` (linking at the
head) leaves as it is. -/
def UCTNode.descend (n : UCTNode) : List Nat → Option UCTNode
  | [] => some n
  | i :: rest =>
    match n.m_children.reverse[i]? with
    | none => none
    | some child => child.descend rest

/-- The statistics of a node: visits and value sum. -/
def UCTNode.stats (n : UCTNode) : Int × ℚ := (n.m_visits, n.m_blackevals)

/-- Every node of the tree `a` is a node of the tree `b`, at the same path,
with the same value of `f`. -/
def keeps {α : Type} (f : UCTNode → α) (a b : UCTNode) : Prop :=
  ∀ (path : List Nat) (n0 : UCTNode), a.descend path = some n0 →
    ∃ n1, b.descend path = some n1 ∧ f n1 = f n0

/-- Every node of the tree `b` that is not a node of the tree `a` has the
virtual loss counter `0`. -/
def new_loss_zero (a b : UCTNode) : Prop :=
  ∀ (path : List Nat) (n1 : UCTNode), b.descend path = some n1 → a.descend path = none →
    n1.m_virtual_loss = 0

/-! ## An environment for the examples of `play_simulation` -/

/-- An environment whose oracle always answers `example_netlist`, whose moves
count the move number and the passes and change the side to move, where no
move repeats a position and the transposition table stores nothing. -/
def example_env : SearchEnv Unit :=
  { MAX_TREE_SIZE := 1000
    get_scored_moves := fun _ => example_netlist
    play_move := fun s move =>
      { s with board := { s.board with m_tomove := 1 - s.board.m_tomove }
               m_movenum := s.m_movenum + 1, m_lastmove := move, m_passes := 0 }
    play_pass := fun s =>
      { s with board := { s.board with m_tomove := 1 - s.board.m_tomove }
               m_movenum := s.m_movenum + 1, m_lastmove := PASS, m_passes := s.m_passes + 1 }
    superko := fun _ => false
    sync := fun _ _ n => n
    update := fun table _ _ => table }

/-- The environment `example_env` with the tree size cap `0`: the tree is at
capacity from the start. -/
def full_env : SearchEnv Unit :=
  { example_env with MAX_TREE_SIZE := 0 }

/-! ## The parts of `get_best_move` -/

/-- The root of `get_best_move` after `sort_root_children` and, early in the
game, `randomize_first_proportionally`. -/
def sorted_root (cfg : Config) (m_root : UCTNode) (m_rootstate : GameState) : UCTNode :=
  let to_move := m_rootstate.board.m_tomove
  let root := m_root.sort_root_children to_move
  let movenum : Int := m_rootstate.m_movenum
  if movenum < cfg.cfg_random_cnt then root.randomize_first_proportionally cfg.randuint32
  else root

/-- The part of `get_best_move` after the override rules, the network choice:
the first child's move when that child has no visit, and else the move the pass
policy and the resign policy make of it. -/
def network_choice (cfg : Config) (root : UCTNode) (m_rootstate : GameState) (passflag : Nat)
    (first : UCTNode) : Int :=
  let to_move := m_rootstate.board.m_tomove
  let bestmove := first.m_move
  if first.first_visit then bestmove
  else
    let bestscore := first.get_eval to_move
    let best := pass_policy cfg root m_rootstate passflag to_move bestmove bestscore
    resign_policy cfg root m_rootstate passflag best.1 best.2

/-- The empty board, black to move. -/
def empty_board : FastBoard := board_of_stones [] [] 0

/-- A child with a given move, prior, visit count and value sum. -/
def stat_child (vertex : Int) (score : ℚ) (visits : Int) (blackevals : ℚ) : UCTNode :=
  { UCTNode.new vertex score 0 with m_visits := visits, m_blackevals := blackevals }

/-- A root with `501` visits and the given children. -/
def busy_root (children : List UCTNode) : UCTNode :=
  { UCTNode.new 0 0 (1 / 2) with
    m_visits := 501, m_has_children := true, m_children := children }

/-- Position 4, black to move: white has three in a row on the edge, black has
no stone.  The empty vertex `(4, 0)` gives white two fours. -/
def position4 : FastBoard :=
  board_of_stones [] [(1, 0), (2, 0), (3, 0)] 0

/-! ## The pattern scan with the table of directions as a parameter -/

/-- The loop over the directions of the pattern scan, with the table `dir` of
the source replaced by the list `dirs`. -/
def scan_tally_dirs (board : FastBoard) (pos : Int × Int) (color : square_t)
    (dirs : List (Int × Int)) : Nat × Nat :=
  dirs.foldl (fun ff d => count_windows (fill_stones board pos color d) ff) (0, 0)

/-- The rotation of a direction by 90 degrees: `(dx, dy)` becomes `(-dy, dx)`. -/
def rotate90 (d : Int × Int) : Int × Int := (-d.2, d.1)

/-- The opposite direction. -/
def opposite (d : Int × Int) : Int × Int := (-d.1, -d.2)

/-! ## UCTNode.cpp: the pattern scan of `create_children` (under `#if 0`) -/

/-- The body of the window loop of the scan in `create_children` for the window
`stones[j .. j + DK_num_stone - 1]`: it adds to `(five, four, three)`.  The
block is under `#if 0` in the source. -/
def expansion_window (stones : List Nat) (fft : Nat × Nat × Nat) (j : Nat) : Nat × Nat × Nat :=
  let c := window_counts stones j
  if c.1 = DK_num_stone then (fft.1 + 1, fft.2.1, fft.2.2)
  else if c.1 = DK_num_stone - 1 ∧ c.2 = 1 then (fft.1, fft.2.1 + 1, fft.2.2)
  else if c.1 = DK_num_stone - 2 ∧ c.2 = 2 then
    if stones.getD j 0 = 0 ∨ stones.getD (j + DK_num_stone - 1) 0 = 0 then
      (fft.1, fft.2.1, fft.2.2 + 1)
    else fft
  else fft

/-- The window loop of the scan in `create_children` for one direction. -/
def count_windows_expansion (stones : List Nat) (fft : Nat × Nat × Nat) : Nat × Nat × Nat :=
  (List.range DK_num_stone).foldl (expansion_window stones) fft

/-- The loop over the four directions of the scan in `create_children`:
`(five, four, three)` for a stone of `color` at `pos`. -/
def expansion_tally (board : FastBoard) (pos : Int × Int) (color : square_t) :
    Nat × Nat × Nat :=
  dir.foldl (fun fft d => count_windows_expansion (fill_stones board pos color d) fft)
    (0, 0, 0)

/-- A board with the two black stones `(5, 0)` and `(6, 0)`, black to move. -/
def three_board : FastBoard := board_of_stones [(5, 0), (6, 0)] [] 0

/-! ## Sequences of `create_children` calls on one node -/

/-- A sequence of `create_children` calls on one node, one after the other,
each with its own state and oracle answer: the returned values in call order,
and the node and the node count after the last call. -/
def create_children_calls (n : UCTNode) (nodecount : Int) :
    List (GameState × (List scored_node × ℚ)) → List Bool × UCTNode × Int
  | [] => ([], n, nodecount)
  | call :: rest =>
    let created := n.create_children nodecount call.1 call.2
    let later := create_children_calls created.node created.nodecount rest
    (created.success :: later.1, later.2.1, later.2.2)

/-! ## UCTSearch.cpp: the main loop of `think` -/

/-- What the main loop of `think` reads after one simulation: the clock
(`centiseconds_elapsed`), the flag `is_running()` and the value of
`playout_limit_reached()`. -/
structure Reading where
  centiseconds_elapsed : Int
  is_running : Bool
  playout_limit_reached : Bool

/-- The `do ... while (keeprunning)` loop of `think`, given what it reads after
each simulation: the number of simulations it runs before it stops, `none` when
the readings end before the loop does.  `last_update` is `0` at the start. -/
def think_loop (time_for_move : Int) : Int → List Reading → Option Nat
  | _, [] => none
  | last_update, r :: rest =>
    if r.centiseconds_elapsed - last_update > 250 then
      -- last_update = centiseconds_elapsed; dump_analysis(...); break;
      some 1
    else
      let keeprunning := r.is_running
      let keeprunning := keeprunning && decide (r.centiseconds_elapsed < time_for_move)
      let keeprunning := keeprunning && !r.playout_limit_reached
      if keeprunning then (think_loop time_for_move last_update rest).map (fun k => k + 1)
      else some 1

/-- A reading at the given time with the run flag set and the playout limit
not reached. -/
def quiet_reading (centiseconds : Int) : Reading :=
  { centiseconds_elapsed := centiseconds, is_running := true, playout_limit_reached := false }

/-! ## The buffer `stones` with checked indices -/

/-- The fill loop of the pattern scan with the index of every store checked
against the size of the buffer: `none` when a store is outside the buffer. -/
def fill_stones_checked (board : FastBoard) (pos : Int × Int) (color : square_t)
    (d : Int × Int) : Option (List Nat) :=
  ((List.range (DK_num_stone * 2)).foldl
    (fun (st : Option (List Nat) × (Int × Int)) j =>
      (st.1.bind (fun stones =>
          if j < stones.length then some (stones.set j (stone_code board pos color st.2))
          else none),
        (st.2.1 + d.1, st.2.2 + d.2)))
    (some (List.replicate (DK_num_stone * 2 - 1) 0),
      (pos.1 + d.1 * -((DK_num_stone : Int) - 1),
       pos.2 + d.2 * -((DK_num_stone : Int) - 1)))).1

/-- The indices the window loops read: `stones[k]` for `k = j .. j + 4` with
`j = 0 .. 4`. -/
def window_indices : List Nat :=
  (List.range DK_num_stone).flatMap (fun j => List.range' j DK_num_stone)

/-! ## UCTNode.cpp: `get_best_root_child` -/

/-- The helper `get_sortnode`: the tuple of a child, with the winrate `0` when
the child has no visit. -/
def get_sortnode (color : Int) (child : UCTNode) : sortnode_t :=
  let visits := child.m_visits
  (if visits = 0 then 0 else child.get_eval color, visits, child.m_score, child)

/-- The method `UCTNode::get_best_root_child`: `best_child` starts as the tuple
of the first child and is replaced by the tuple of a child that `NodeComp` puts
before it.  The source asserts that there is a first child; `none` is returned
for the empty list. -/
def UCTNode.get_best_root_child (n : UCTNode) (color : Int) : Option UCTNode :=
  match n.m_children with
  | [] => none
  | child :: _ =>
    let best_child := n.m_children.foldl
      (fun best_child child =>
        let test := get_sortnode color child
        if NodeComp test best_child then test else best_child)
      (get_sortnode color child)
    some best_child.2.2.2

/-! ## FastBoard.h: `win` -/

/-- The table `dir` of `FastBoard::win`: for each of the four axes, its two
directions. -/
def win_dir : List ((Int × Int) × (Int × Int)) :=
  [((-1, 0), (1, 0)), ((0, -1), (0, 1)), ((-1, -1), (1, 1)), ((-1, 1), (1, -1))]

/-- The `while` loop of `win` in the direction `d`: from `tpos` it counts the
squares of the board that hold `color`, until it leaves the board or meets
another content.  Each iteration costs one unit of fuel; `none` when the fuel
runs out. -/
def win_while (board : FastBoard) (color : square_t) (d : Int × Int) :
    Nat → Int × Int → Nat → Option Nat
  | 0, _, _ => none
  | fuel + 1, tpos, count =>
    if tpos.1 ≥ 0 ∧ tpos.1 < MAXBOARDSIZE ∧ tpos.2 ≥ 0 ∧ tpos.2 < MAXBOARDSIZE then
      let tcolor := board.get_square_xy tpos.1 tpos.2
      if tcolor ≠ color then some count
      else win_while board color d fuel (tpos.1 + d.1, tpos.2 + d.2) (count + 1)
    else some count

/-- The loop over `j` of `win` for one axis: `count` starts at `1` and each of
the two directions adds its run, starting one step from `pos`. -/
def win_count (board : FastBoard) (pos : Int × Int) (color : square_t) (fuel : Nat)
    (axis : (Int × Int) × (Int × Int)) : Option Nat :=
  [axis.1, axis.2].foldl
    (fun count d =>
      count.bind (fun c => win_while board color d fuel (pos.1 + d.1, pos.2 + d.2) c))
    (some 1)

/-- The loop over `i` of `win`: `true` at the first axis whose count reaches
`DK_num_stone`, `false` when there is none. -/
def win_axes (board : FastBoard) (pos : Int × Int) (color : square_t) (fuel : Nat) :
    List ((Int × Int) × (Int × Int)) → Option Bool
  | [] => some false
  | axis :: rest =>
    match win_count board pos color fuel axis with
    | none => none
    | some count =>
      if count ≥ DK_num_stone then some true
      else win_axes board pos color fuel rest

/-- The member function `FastBoard::win`, with `pos` the value `get_xy(vertex)`
and `fuel` the bound on the iterations of each `while` loop.  The result is
`none` when the assertion on the colour of the square fails or a loop runs out
of fuel. -/
def FastBoard.win (board : FastBoard) (pos : Int × Int) (fuel : Nat) : Option Bool :=
  let color := board.get_square_xy pos.1 pos.2
  if color = square_t.BLACK ∨ color = square_t.WHITE then
    win_axes board pos color fuel win_dir
  else none

/-- A bound on the iterations the `while` loop of `win` still makes from the
board square `tpos` in the direction `d`: the distance to the edge along the
coordinate that `d` changes. -/
def steps_left (d tpos : Int × Int) : Nat :=
  Int.toNat (if d.1 = 1 then 19 - tpos.1 else if d.1 = -1 then tpos.1 + 1
    else if d.2 = 1 then 19 - tpos.2 else tpos.2 + 1)

/-- A direction of the board: a step of one square along an axis. -/
def unit_step (d : Int × Int) : Prop :=
  d.1 = 1 ∨ d.1 = -1 ∨ (d.1 = 0 ∧ (d.2 = 1 ∨ d.2 = -1))

/-- The board with a stone of colour `C` on the square `v`. -/
def with_stone (board : FastBoard) (v : Int × Int) (C : square_t) : FastBoard :=
  { board with
    get_square_xy := fun x y => if (x, y) = v then C else board.get_square_xy x y
    get_square := fun vertex =>
      if vertex = board.get_vertex v.1 v.2 then C else board.get_square vertex }

/-! # Theorems -/

/-! ## Lemmas on the loops -/

/-- A loop that counts two kinds of elements, the first kind taking precedence. -/
theorem foldl_count_two {α : Type} (p q : α → Prop) [DecidablePred p] [DecidablePred q]
    (l : List α) (c : Nat × Nat) :
    l.foldl (fun (c : Nat × Nat) k =>
        if p k then (c.1 + 1, c.2) else if q k then (c.1, c.2 + 1) else c) c
      = (c.1 + l.countP (fun k => decide (p k)),
         c.2 + l.countP (fun k => decide (¬ p k ∧ q k))) := by
  induction l generalizing c with
  | nil => simp
  | cons a l ih =>
    rw [List.foldl_cons, ih]
    by_cases hp : p a
    · simp [hp, List.countP_cons]; omega
    · by_cases hq : q a
      · simp [hp, hq, List.countP_cons]; omega
      · simp [hp, hq, List.countP_cons]

/-- The buffer after the fill loop: cell `j` holds the code of the square
`j - 4` steps from `pos`. -/
theorem fill_stones_eq (board : FastBoard) (pos : Int × Int) (color : square_t)
    (d : Int × Int) :
    fill_stones board pos color d
      = (List.range 9).map
          (fun (j : Nat) => stone_code board pos color (line_square pos d ((j : Int) - 4))) := by
  simp only [fill_stones, DK_num_stone, line_square]
  simp [List.range_succ, List.replicate]
  refine ⟨?_, ?_, ?_, ?_, ?_, ?_, ?_, ?_, ?_⟩ <;> congr 1 <;> ext <;> simp <;> ring

/-- The code `1` marks exactly the own squares. -/
theorem stone_code_eq_one (board : FastBoard) (pos : Int × Int) (color : square_t)
    (hpos : on_board pos) (p : Int × Int) :
    stone_code board pos color p = 1 ↔ own_square board pos color p = true := by
  unfold stone_code own_square on_board MAXBOARDSIZE
  unfold on_board at hpos
  by_cases hp : p = pos
  · subst hp
    have h : ¬ (p.1 < 0 ∨ p.1 ≥ 19 ∨ p.2 < 0 ∨ p.2 ≥ 19) := by omega
    simp [h]
  · by_cases hb : p.1 < 0 ∨ p.1 ≥ 19 ∨ p.2 < 0 ∨ p.2 ≥ 19
    · have h : ¬ (0 ≤ p.1 ∧ p.1 < 19 ∧ 0 ≤ p.2 ∧ p.2 < 19) := by omega
      simp [hb, hp, h]
    · have h : 0 ≤ p.1 ∧ p.1 < 19 ∧ 0 ≤ p.2 ∧ p.2 < 19 := by omega
      by_cases hc : board.get_square_xy p.1 p.2 = color
      · simp [hb, hp, h, hc]
      · by_cases he : board.get_square_xy p.1 p.2 = square_t.EMPTY
        · simp [hb, hp, h, hc, he]
        · simp [hb, hp, h, hc, he]

/-- The code `0` marks exactly the empty squares, for a colour that is not
`EMPTY`. -/
theorem stone_code_eq_zero (board : FastBoard) (pos : Int × Int) (color : square_t)
    (hcolor : color ≠ square_t.EMPTY) (p : Int × Int) :
    stone_code board pos color p = 0 ↔ empty_square board pos p = true := by
  unfold stone_code empty_square on_board MAXBOARDSIZE
  by_cases hp : p = pos
  · subst hp
    by_cases hb : p.1 < 0 ∨ p.1 ≥ 19 ∨ p.2 < 0 ∨ p.2 ≥ 19 <;> simp [hb]
  · by_cases hb : p.1 < 0 ∨ p.1 ≥ 19 ∨ p.2 < 0 ∨ p.2 ≥ 19
    · have h : ¬ (0 ≤ p.1 ∧ p.1 < 19 ∧ 0 ≤ p.2 ∧ p.2 < 19) := by omega
      simp [hb, hp, h]
    · have h : 0 ≤ p.1 ∧ p.1 < 19 ∧ 0 ≤ p.2 ∧ p.2 < 19 := by omega
      by_cases hc : board.get_square_xy p.1 p.2 = color
      · have he : board.get_square_xy p.1 p.2 ≠ square_t.EMPTY := by
          rw [hc]; exact hcolor
        simp [hb, hp, h, hc, he, hcolor]
      · by_cases he : board.get_square_xy p.1 p.2 = square_t.EMPTY
        · have hc2 : ¬ square_t.EMPTY = color := fun h => hcolor h.symm
          simp [hb, hp, h, hc, he, hc2]
        · simp [hb, hp, h, hc, he]

/-- The counts of one window of the buffer are the counts `own` and `empty` of
the window's squares. -/
theorem window_counts_eq (board : FastBoard) (pos : Int × Int) (color : square_t)
    (hpos : on_board pos) (hcolor : color ≠ square_t.EMPTY) (d : Int × Int)
    (j : Nat) (hj : j < 5) :
    window_counts (fill_stones board pos color d) j
      = (spec_own board pos color d j, spec_empty board pos d j) := by
  unfold window_counts
  rw [foldl_count_two (fun k => (fill_stones board pos color d).getD k 0 = 1)
    (fun k => (fill_stones board pos color d).getD k 0 = 0)]
  simp only [spec_own, spec_empty, window_squares, DK_num_stone, List.countP_map,
    List.range'_eq_map_range, Nat.zero_add]
  have hget : ∀ i ∈ List.range 5, (fill_stones board pos color d).getD (j + i) 0
      = stone_code board pos color (line_square pos d ((j : Int) - 4 + (i : Int))) := by
    intro i hi
    have hi5 : i < 5 := List.mem_range.mp hi
    rw [fill_stones_eq]
    have hlt : j + i < 9 := by omega
    have hcast : (((j + i : Nat)) : Int) - 4 = (j : Int) - 4 + (i : Int) := by
      push_cast; ring
    rw [List.getD_eq_getElem _ _ (by simpa using hlt)]
    simp only [List.getElem_map, List.getElem_range, hcast]
  congr 1
  · apply List.countP_congr
    intro i hi
    simp only [Function.comp, decide_eq_true_eq]
    rw [hget i hi]
    exact stone_code_eq_one board pos color hpos _
  · apply List.countP_congr
    intro i hi
    simp only [Function.comp, decide_eq_true_eq, Bool.and_eq_true, Bool.not_eq_true',
      decide_eq_false_iff_not]
    rw [hget i hi, stone_code_eq_zero board pos color hcolor]
    constructor
    · intro h; exact h.2
    · intro h
      refine ⟨?_, h⟩
      intro h1
      have := (stone_code_eq_zero board pos color hcolor _).mpr h
      omega

/-- The window loop for one direction adds the direction's numbers of fives
and fours, counted on the squares. -/
theorem count_windows_eq (board : FastBoard) (pos : Int × Int) (color : square_t)
    (hpos : on_board pos) (hcolor : color ≠ square_t.EMPTY) (d : Int × Int)
    (ff : Nat × Nat) :
    count_windows (fill_stones board pos color d) ff
      = (ff.1 + (List.range 5).countP (fun w => decide (spec_own board pos color d w = 5)),
         ff.2 + (List.range 5).countP
           (fun w => decide (spec_own board pos color d w = 4 ∧ spec_empty board pos d w = 1))) := by
  unfold count_windows
  rw [foldl_count_two
    (fun j => (window_counts (fill_stones board pos color d) j).1 = DK_num_stone)
    (fun j => (window_counts (fill_stones board pos color d) j).1 = DK_num_stone - 1
      ∧ (window_counts (fill_stones board pos color d) j).2 = 1)]
  simp only [DK_num_stone, Prod.mk.injEq, Nat.add_left_cancel_iff]
  constructor
  · apply List.countP_congr
    intro j hj
    rw [window_counts_eq board pos color hpos hcolor d j (List.mem_range.mp hj)]
  · apply List.countP_congr
    intro j hj
    rw [window_counts_eq board pos color hpos hcolor d j (List.mem_range.mp hj)]
    simp only [decide_eq_true_eq]
    constructor
    · intro h; exact h.2
    · intro h; exact ⟨by omega, h⟩

/-- A loop that adds a pair of numbers per element. -/
theorem foldl_add_pair {α : Type} (f : Nat × Nat → α → Nat × Nat) (a b : α → Nat)
    (hf : ∀ ff x, f ff x = (ff.1 + a x, ff.2 + b x)) (l : List α) (ff : Nat × Nat) :
    l.foldl f ff = (ff.1 + (l.map a).sum, ff.2 + (l.map b).sum) := by
  induction l generalizing ff with
  | nil => simp
  | cons x l ih =>
    rw [List.foldl_cons, ih, hf]
    simp only [List.map_cons, List.sum_cons]
    congr 1 <;> omega

/-- The tallies of the scan are the tallies counted on the squares. -/
theorem scan_tally_counts (board : FastBoard) (x y : Int) (color : square_t)
    (hx : 0 ≤ x ∧ x < 19) (hy : 0 ≤ y ∧ y < 19)
    (hcolor : color = square_t.BLACK ∨ color = square_t.WHITE) :
    scan_tally board (x, y) color
      = (spec_fives board (x, y) color, spec_fours board (x, y) color) := by
  have hpos : on_board (x, y) := ⟨hx.1, hx.2, hy.1, hy.2⟩
  have hne : color ≠ square_t.EMPTY := by
    rcases hcolor with h | h <;> simp [h]
  unfold scan_tally spec_fives spec_fours
  rw [foldl_add_pair (fun ff d => count_windows (fill_stones board (x, y) color d) ff)
    (fun d => (List.range 5).countP (fun w => decide (spec_own board (x, y) color d w = 5)))
    (fun d => (List.range 5).countP
      (fun w => decide (spec_own board (x, y) color d w = 4 ∧ spec_empty board (x, y) d w = 1)))
    (fun ff d => count_windows_eq board (x, y) color hpos hne d ff)]
  simp only [Nat.zero_add]
  rfl

/-- C3. For every 19x19 board, every vertex `(x, y)` of the board and each
colour `C` (black or white), the root pattern scan computes `fives` = the
number of (axis, window) pairs, over the 4 axes and the 5 length-5 windows per
axis that contain the vertex, in which all 5 squares are the vertex itself or
hold `C`, and `fours` = the number of such windows with exactly 4 own squares
and exactly 1 empty square; off-board and opposite-colour squares count as
neither own nor empty. -/
theorem scan_tally_eq_spec (board : FastBoard) (x y : Int) (color : square_t)
    (hx : 0 ≤ x ∧ x < 19) (hy : 0 ≤ y ∧ y < 19)
    (hcolor : color = square_t.BLACK ∨ color = square_t.WHITE) :
    scan_tally board (x, y) color
      = (spec_fives board (x, y) color, spec_fours board (x, y) color) :=
  scan_tally_counts board x y color hx hy hcolor

/-- The selection loop from any start state `(b, bv)` over children numbered
from `s`: either no valid child beats `bv` and the state is unchanged, or the
state holds the first valid child of largest value. -/
theorem select_fold_spec (cfg : Config) (color : Int) (numerator : ℚ)
    (cs : List UCTNode) (s : Nat) (b : Option Nat) (bv : ℚ) :
    (((cs.enumFrom s).foldl (select_step cfg color numerator) (b, bv) = (b, bv))
        ∧ ∀ c ∈ cs, c.m_valid = true → uct_value cfg color numerator c ≤ bv)
    ∨ ∃ k, ∃ hk : k < cs.length,
        (cs.enumFrom s).foldl (select_step cfg color numerator) (b, bv)
            = (some (s + k), uct_value cfg color numerator cs[k])
        ∧ cs[k].m_valid = true
        ∧ bv < uct_value cfg color numerator cs[k]
        ∧ (∀ c ∈ cs, c.m_valid = true →
            uct_value cfg color numerator c ≤ uct_value cfg color numerator cs[k])
        ∧ (∀ j, ∀ hj : j < cs.length, j < k → cs[j].m_valid = true →
            uct_value cfg color numerator cs[j] < uct_value cfg color numerator cs[k]) := by
  induction cs generalizing s b bv with
  | nil => left; simp
  | cons a l ih =>
    simp only [List.enumFrom_cons, List.foldl_cons]
    by_cases hup : a.m_valid = true ∧ uct_value cfg color numerator a > bv
    · have hstep : select_step cfg color numerator (b, bv) (s, a)
          = (some s, uct_value cfg color numerator a) := by
        simp [select_step, hup.1, hup.2]
      rw [hstep]
      rcases ih (s + 1) (some s) (uct_value cfg color numerator a) with ⟨h1, h2⟩ | ⟨k, hk, h1, h2, h3, h4, h5⟩
      · right
        refine ⟨0, by simp, ?_, ?_, ?_, ?_, ?_⟩
        · simpa using h1
        · simpa using hup.1
        · simpa using hup.2
        · intro c hc hv
          rcases List.mem_cons.mp hc with rfl | hc
          · simp
          · simpa using h2 c hc hv
        · intro j hj hj0; omega
      · right
        refine ⟨k + 1, by simpa using hk, ?_, ?_, ?_, ?_, ?_⟩
        · rw [h1]; simp; omega
        · simpa using h2
        · simp only [List.getElem_cons_succ]; exact lt_trans hup.2 h3
        · intro c hc hv
          simp only [List.getElem_cons_succ]
          rcases List.mem_cons.mp hc with rfl | hc
          · exact le_of_lt h3
          · exact h4 c hc hv
        · intro j hj hjk hv
          simp only [List.getElem_cons_succ]
          cases j with
          | zero => simpa using h3
          | succ j =>
            simp only [List.getElem_cons_succ] at hv ⊢
            exact h5 j (by simpa using hj) (by omega) hv
    · have hstep : select_step cfg color numerator (b, bv) (s, a) = (b, bv) := by
        unfold select_step
        by_cases hv : a.m_valid = true
        · have : ¬ uct_value cfg color numerator a > bv := fun h => hup ⟨hv, h⟩
          simp [hv, this]
        · simp [hv]
      have ha : a.m_valid = true → uct_value cfg color numerator a ≤ bv := by
        intro hv
        exact not_lt.mp (fun h => hup ⟨hv, h⟩)
      rw [hstep]
      rcases ih (s + 1) b bv with ⟨h1, h2⟩ | ⟨k, hk, h1, h2, h3, h4, h5⟩
      · left
        refine ⟨h1, ?_⟩
        intro c hc hv
        rcases List.mem_cons.mp hc with rfl | hc
        · exact ha hv
        · exact h2 c hc hv
      · right
        refine ⟨k + 1, by simpa using hk, ?_, ?_, ?_, ?_, ?_⟩
        · rw [h1]; simp; omega
        · simpa using h2
        · simpa using h3
        · intro c hc hv
          simp only [List.getElem_cons_succ]
          rcases List.mem_cons.mp hc with rfl | hc
          · exact le_trans (ha hv) (le_of_lt h3)
          · exact h4 c hc hv
        · intro j hj hjk hv
          simp only [List.getElem_cons_succ]
          cases j with
          | zero =>
            simp only [List.getElem_cons_zero] at hv ⊢
            exact lt_of_le_of_lt (ha hv) h3
          | succ j =>
            simp only [List.getElem_cons_succ] at hv ⊢
            exact h5 j (by simpa using hj) (by omega) hv

/-- The first loop of `uct_select_child` computes the sum of the visits of the
valid children. -/
theorem parentvisits_eq (children : List UCTNode) :
    parentvisits children = valid_visits children := by
  unfold parentvisits valid_visits
  generalize children.filter (fun c => c.m_valid) = l
  have h : ∀ (a : Int), l.foldl (fun parentvisits child => parentvisits + child.m_visits) a
      = a + (l.map (fun c => c.m_visits)).sum := by
    induction l with
    | nil => intro a; simp
    | cons c l ih => intro a; simp only [List.foldl_cons, ih, List.map_cons, List.sum_cons]; ring
  rw [h 0]; simp

/-- The value of the selection loop is the specification's value. -/
theorem uct_value_eq (cfg : Config) (color : Int) (children : List UCTNode) (c : UCTNode) :
    uct_value cfg color (cfg.sqrt (parentvisits children)) c
      = puct_value cfg color children c := by
  unfold uct_value puct_value
  rw [parentvisits_eq]
  simp only [mul_div_assoc]

/-- With a valid child and every valid child's value above `-1000`, the method
returns the first valid child of largest value. -/
theorem uct_select_child_some (n : UCTNode) (cfg : Config) (color : Int)
    (hvalid : ∃ c ∈ n.m_children, c.m_valid = true)
    (hassert : ∀ c ∈ n.m_children, c.m_valid = true →
      -1000 < puct_value cfg color n.m_children c) :
    ∃ i, ∃ hi : i < n.m_children.length,
      n.uct_select_child cfg color = some i
      ∧ n.m_children[i].m_valid = true
      ∧ (∀ c ∈ n.m_children, c.m_valid = true →
          puct_value cfg color n.m_children c ≤ puct_value cfg color n.m_children n.m_children[i])
      ∧ (∀ j, ∀ hj : j < n.m_children.length, j < i → n.m_children[j].m_valid = true →
          puct_value cfg color n.m_children n.m_children[j]
            < puct_value cfg color n.m_children n.m_children[i]) := by
  obtain ⟨c0, hc0, hv0⟩ := hvalid
  have hall : n.m_children.all (fun child => !child.m_valid) = false := by
    rw [Bool.eq_false_iff]
    intro h
    rw [List.all_eq_true] at h
    have := h c0 hc0
    simp [hv0] at this
  unfold UCTNode.uct_select_child
  simp only [hall, Bool.false_eq_true, if_false, List.enum]
  rcases select_fold_spec cfg color (cfg.sqrt (parentvisits n.m_children)) n.m_children 0
      none (-1000) with ⟨_, h2⟩ | ⟨k, hk, h1, h2, h3, h4, h5⟩
  · exfalso
    have h := h2 c0 hc0 hv0
    rw [uct_value_eq] at h
    exact absurd (hassert c0 hc0 hv0) (not_lt.mpr h)
  · refine ⟨k, hk, ?_, h2, ?_, ?_⟩
    · rw [h1]; simp
    · intro c hc hv
      have := h4 c hc hv
      rwa [uct_value_eq, uct_value_eq] at this
    · intro j hj hjk hv
      have := h5 j hj hjk hv
      rwa [uct_value_eq, uct_value_eq] at this

/-- Without a valid child the method returns `nullptr`. -/
theorem uct_select_child_no_valid (n : UCTNode) (cfg : Config) (color : Int)
    (h : ∀ c ∈ n.m_children, c.m_valid = false) :
    n.uct_select_child cfg color = none := by
  unfold UCTNode.uct_select_child
  have hall : n.m_children.all (fun child => !child.m_valid) = true := by
    rw [List.all_eq_true]
    intro c hc
    simp [h c hc]
  simp [hall]

/-- C6. For every node with at least one valid child and every colour,
`uct_select_child` returns a valid child that maximises
`get_eval(colour) + c_puct * prior * sqrt(P) / (1 + visits)` over the valid
children, where `P` is the sum of the visits of the valid children only; among
several maximisers it returns the first in child-list order (every valid child
before it has a strictly smaller value).  The hypothesis `hassert` is the
assertion `value > -1000.0f` of the source. -/
theorem uct_select_child_argmax (n : UCTNode) (cfg : Config) (color : Int)
    (hvalid : ∃ c ∈ n.m_children, c.m_valid = true)
    (hassert : ∀ c ∈ n.m_children, c.m_valid = true →
      -1000 < puct_value cfg color n.m_children c) :
    ∃ i, ∃ hi : i < n.m_children.length,
      n.uct_select_child cfg color = some i
      ∧ n.m_children[i].m_valid = true
      ∧ (∀ c ∈ n.m_children, c.m_valid = true →
          puct_value cfg color n.m_children c ≤ puct_value cfg color n.m_children n.m_children[i])
      ∧ (∀ j, ∀ hj : j < n.m_children.length, j < i → n.m_children[j].m_valid = true →
          puct_value cfg color n.m_children n.m_children[j]
            < puct_value cfg color n.m_children n.m_children[i]) :=
  uct_select_child_some n cfg color hvalid hassert

/-- C7. For every node, `uct_select_child` returns no child (`nullptr`) if and
only if the child list contains no valid child, and a child it does return is a
member of the node's child list whose valid flag is true.  The method has no
output other than the returned child: it assigns to no member, so the tree
after the call is the tree before it.  The hypothesis `hassert` is the
assertion `value > -1000.0f` of the source. -/
theorem uct_select_child_none_iff (n : UCTNode) (cfg : Config) (color : Int)
    (hassert : ∀ c ∈ n.m_children, c.m_valid = true →
      -1000 < puct_value cfg color n.m_children c) :
    (n.uct_select_child cfg color = none ↔ ∀ c ∈ n.m_children, c.m_valid = false)
    ∧ ∀ i, n.uct_select_child cfg color = some i →
        ∃ hi : i < n.m_children.length, n.m_children[i].m_valid = true := by
  by_cases hvalid : ∃ c ∈ n.m_children, c.m_valid = true
  · obtain ⟨i, hi, hsel, hv, _, _⟩ := uct_select_child_some n cfg color hvalid hassert
    constructor
    · constructor
      · intro h; rw [hsel] at h; cases h
      · intro h
        obtain ⟨c, hc, hcv⟩ := hvalid
        rw [h c hc] at hcv; cases hcv
    · intro i' hi'
      rw [hsel] at hi'
      cases hi'
      exact ⟨hi, hv⟩
  · have hno : ∀ c ∈ n.m_children, c.m_valid = false := by
      intro c hc
      cases hcv : c.m_valid with
      | false => rfl
      | true => exact absurd ⟨c, hc, hcv⟩ hvalid
    have hsel := uct_select_child_no_valid n cfg color hno
    constructor
    · exact ⟨fun _ => hno, fun _ => hsel⟩
    · intro i hi'
      rw [hsel] at hi'; cases hi'

/-- The linking loop of `link_nodelist`: the new children, last linked first,
stand before the old ones; the counter grows by their number; no other member
changes. -/
theorem link_loop_spec (legal_sum init_eval : ℚ) (l : List scored_node) (m : UCTNode)
    (k : Int) :
    l.foldl
      (fun (st : UCTNode × Int) node =>
        if node.2 = PASS then st
        else (st.1.link_child (UCTNode.new node.2 (node.1 / legal_sum) init_eval), st.2 + 1))
      (m, k)
    = ({ m with m_children :=
          ((l.filter (fun e => decide (e.2 ≠ PASS))).map
            (fun e => UCTNode.new e.2 (e.1 / legal_sum) init_eval)).reverse ++ m.m_children },
       k + (nonpass_count l : Int)) := by
  induction l generalizing m k with
  | nil => cases m; simp [nonpass_count]
  | cons a l ih =>
    rw [List.foldl_cons]
    by_cases ha : a.2 = PASS
    · simp only [ha, if_true]
      rw [ih]
      simp [ha, nonpass_count]
    · simp only [ha, if_false]
      rw [ih]
      simp [ha, nonpass_count, UCTNode.link_child]
      ring

/-- The sum loop of `link_nodelist`. -/
theorem legal_sum_loop (l : List scored_node) (a : ℚ) :
    l.foldl (fun legal_sum node => legal_sum + node.1) a = a + (l.map (fun e => e.1)).sum := by
  induction l generalizing a with
  | nil => simp
  | cons x l ih => simp only [List.foldl_cons, ih, List.map_cons, List.sum_cons]; ring

/-- Sorting the node list keeps its entries. -/
theorem sorted_nodelist_perm (l : List scored_node) :
    (l.insertionSort scored_node_le).Perm l :=
  List.perm_insertionSort scored_node_le l

/-- The number of non-`PASS` entries does not depend on the order. -/
theorem nonpass_count_perm {l₁ l₂ : List scored_node} (h : l₁.Perm l₂) :
    nonpass_count l₁ = nonpass_count l₂ := by
  unfold nonpass_count
  exact h.countP_eq _

/-- The prior sum of the non-`PASS` entries does not depend on the order. -/
theorem nonpass_prior_sum_perm {l₁ l₂ : List scored_node} (h : l₁.Perm l₂) :
    nonpass_prior_sum l₁ = nonpass_prior_sum l₂ := by
  unfold nonpass_prior_sum
  exact ((h.filter _).map _).sum_eq

/-- Setting the prior of `PASS` to zero keeps the number of non-`PASS` entries. -/
theorem nonpass_count_zero_pass (L : List scored_node) :
    nonpass_count (L.map (fun node => if node.2 = PASS then (0, node.2) else node))
      = nonpass_count L := by
  unfold nonpass_count
  induction L with
  | nil => rfl
  | cons a L ih =>
    by_cases ha : a.2 = PASS
    · simp only [List.map_cons, ha, if_true, List.countP_cons, ih]
    · simp only [List.map_cons, ha, if_false, List.countP_cons, ih]

/-- Setting the prior of `PASS` to zero keeps the prior sum of the non-`PASS`
entries. -/
theorem nonpass_prior_sum_zero_pass (L : List scored_node) :
    nonpass_prior_sum (L.map (fun node => if node.2 = PASS then (0, node.2) else node))
      = nonpass_prior_sum L := by
  unfold nonpass_prior_sum
  induction L with
  | nil => rfl
  | cons a L ih =>
    by_cases ha : a.2 = PASS
    · simp only [List.map_cons, ha, if_true, List.filter_cons]
      simpa using ih
    · simp only [List.map_cons, ha, if_false, List.filter_cons]
      simpa [ha] using ih

/-- Once the prior of `PASS` is zero, the sum of all priors is the prior sum of
the non-`PASS` entries. -/
theorem prior_sum_zero_pass (L : List scored_node) :
    ((L.map (fun node => if node.2 = PASS then (0, node.2) else node)).map (fun e => e.1)).sum
      = nonpass_prior_sum L := by
  unfold nonpass_prior_sum
  induction L with
  | nil => rfl
  | cons a L ih =>
    by_cases ha : a.2 = PASS
    · simp only [List.map_cons, ha, if_true, List.filter_cons, List.sum_cons, ih]
      simp
    · simp only [List.map_cons, ha, if_false, List.filter_cons, List.sum_cons, ih]
      simp [ha]

/-- The value of `legal_sum` that divides the priors in `link_nodelist`. -/
theorem link_nodelist_spec (n : UCTNode) (nodecount : Int) (nodelist : List scored_node)
    (init_eval : ℚ) (hne : nodelist ≠ []) :
    n.link_nodelist nodecount nodelist init_eval
      = ({ n with
            m_children :=
              (((nodelist.insertionSort scored_node_le).filter
                  (fun e => decide (e.2 ≠ PASS))).map
                (fun e => UCTNode.new e.2
                  (e.1 / (if (nodelist.map (fun e => e.1)).sum < FLT_MIN then 1
                          else (nodelist.map (fun e => e.1)).sum)) init_eval)).reverse
              ++ n.m_children,
            m_has_children := true },
         nodecount + (nonpass_count nodelist : Int)) := by
  have hlen : ¬ nodelist.length = 0 := by
    intro h; exact hne (List.length_eq_zero.mp h)
  have hsum : ((nodelist.insertionSort scored_node_le).map (fun e => e.1)).sum
      = (nodelist.map (fun e => e.1)).sum :=
    ((sorted_nodelist_perm nodelist).map _).sum_eq
  unfold UCTNode.link_nodelist
  simp only [hlen, if_false]
  rw [legal_sum_loop, link_loop_spec, nonpass_count_perm (sorted_nodelist_perm nodelist)]
  simp only [zero_add, hsum]

/-- A successful `create_children` passed the three guards, reserved the
expansion and ran `link_nodelist` on the oracle's list with the prior of `PASS`
set to zero. -/
theorem create_children_success (n : UCTNode) (nodecount : Int) (state : GameState)
    (raw_netlist : List scored_node × ℚ)
    (h : (n.create_children nodecount state raw_netlist).success = true) :
    n.m_has_children = false ∧ n.m_is_expanding = false ∧
    (n.create_children nodecount state raw_netlist).node
      = (({ n with m_is_expanding := true } : UCTNode).link_nodelist nodecount
          (raw_netlist.1.map (fun node => if node.2 = PASS then (0, node.2) else node))
          (if state.board.m_tomove = square_t.WHITE.toInt then 1 - raw_netlist.2
           else raw_netlist.2)).1 ∧
    (n.create_children nodecount state raw_netlist).nodecount
      = (({ n with m_is_expanding := true } : UCTNode).link_nodelist nodecount
          (raw_netlist.1.map (fun node => if node.2 = PASS then (0, node.2) else node))
          (if state.board.m_tomove = square_t.WHITE.toInt then 1 - raw_netlist.2
           else raw_netlist.2)).2 := by
  unfold UCTNode.create_children at h ⊢
  by_cases h1 : n.m_has_children = true
  · simp [h1] at h
  · by_cases h2 : state.m_passes ≥ 2
    · simp [h1, h2] at h
    · by_cases h3 : n.m_is_expanding = true
      · simp [h1, h2, h3] at h
      · simp [h1, h2, h3]

/-- The children of a node after `create_children` succeeded on a non-empty
oracle list. -/
theorem create_children_children (n : UCTNode) (nodecount : Int) (state : GameState)
    (raw_netlist : List scored_node × ℚ)
    (h : (n.create_children nodecount state raw_netlist).success = true)
    (hne : raw_netlist.1 ≠ []) :
    (n.create_children nodecount state raw_netlist).node.m_children
      = ((((raw_netlist.1.map (fun node => if node.2 = PASS then (0, node.2) else node)).insertionSort
            scored_node_le).filter (fun e => decide (e.2 ≠ PASS))).map
          (fun e => UCTNode.new e.2
            (e.1 / (if nonpass_prior_sum raw_netlist.1 < FLT_MIN then 1
                    else nonpass_prior_sum raw_netlist.1))
            (if state.board.m_tomove = square_t.WHITE.toInt then 1 - raw_netlist.2
             else raw_netlist.2))).reverse
        ++ n.m_children
    ∧ (n.create_children nodecount state raw_netlist).node.m_has_children = true := by
  obtain ⟨_, _, hnode, _⟩ := create_children_success n nodecount state raw_netlist h
  have hne2 : raw_netlist.1.map (fun node => if node.2 = PASS then (0, node.2) else node) ≠ [] := by
    simpa using hne
  rw [hnode, link_nodelist_spec _ _ _ _ hne2, prior_sum_zero_pass]
  exact ⟨rfl, rfl⟩

/-- The method `sort_root_children` keeps the flag `m_has_children`. -/
theorem sort_root_children_has_children (n : UCTNode) (color : Int) :
    (n.sort_root_children color).m_has_children = n.m_has_children := by
  unfold UCTNode.sort_root_children
  have h : ∀ (l : List sortnode_t) (m : UCTNode),
      (l.foldl (fun (node : UCTNode) sortnode => node.link_child sortnode.2.2.2) m).m_has_children
        = m.m_has_children := by
    intro l
    induction l with
    | nil => intro m; rfl
    | cons a l ih => intro m; rw [List.foldl_cons, ih]; rfl
  rw [h]

/-- Every operation keeps a true flag `m_has_children`. -/
theorem apply_op_has_children (cfg : Config) (n : UCTNode) (op : NodeOp)
    (h : n.m_has_children = true) : (n.apply_op cfg op).m_has_children = true := by
  cases op with
  | update eval => exact h
  | virtual_loss => exact h
  | virtual_loss_undo => exact h
  | invalidate => exact h
  | uct_select_child color => exact h
  | sort_root_children color =>
    simp only [UCTNode.apply_op]
    rw [sort_root_children_has_children]; exact h
  | randomize_first_proportionally =>
    simp only [UCTNode.apply_op, UCTNode.randomize_first_proportionally]
    split
    · exact h
    · split
      · exact h
      · exact h
  | dirichlet_noise epsilon alpha gamma =>
    simp only [UCTNode.apply_op, UCTNode.dirichlet_noise]
    split
    · exact h
    · exact h
  | create_children nodecount state raw_netlist =>
    simp [UCTNode.apply_op, UCTNode.create_children, h]

/-- Every sequence of operations keeps a true flag `m_has_children`. -/
theorem apply_ops_has_children (cfg : Config) (ops : List NodeOp) (n : UCTNode)
    (h : n.m_has_children = true) : (n.apply_ops cfg ops).m_has_children = true := by
  unfold UCTNode.apply_ops
  induction ops generalizing n with
  | nil => exact h
  | cons op ops ih =>
    rw [List.foldl_cons]
    exact ih _ (apply_op_has_children cfg n op h)

/-- C8, as amended. For every successful expansion (`create_children` returns
true) with oracle move list `L`, the number of children linked under the node
equals the number of entries of `L` whose move is not `PASS`, whatever their
priors; the node count grows by the same number. -/
theorem create_children_links_nonpass (n : UCTNode) (nodecount : Int) (state : GameState)
    (raw_netlist : List scored_node × ℚ)
    (h : (n.create_children nodecount state raw_netlist).success = true) :
    (n.create_children nodecount state raw_netlist).node.m_children.length
        = n.m_children.length + nonpass_count raw_netlist.1
    ∧ (n.create_children nodecount state raw_netlist).nodecount
        = nodecount + (nonpass_count raw_netlist.1 : Int) := by
  obtain ⟨_, _, hnode, hcount⟩ := create_children_success n nodecount state raw_netlist h
  by_cases hne : raw_netlist.1 = []
  · rw [hnode, hcount]
    simp [hne, UCTNode.link_nodelist, nonpass_count]
  · have hne2 : raw_netlist.1.map (fun node => if node.2 = PASS then (0, node.2) else node)
        ≠ [] := by simpa using hne
    constructor
    · rw [(create_children_children n nodecount state raw_netlist h hne).1]
      rw [List.length_append, List.length_reverse, List.length_map, ← List.countP_eq_length_filter]
      have hc : List.countP (fun e => decide (e.2 ≠ PASS))
          ((raw_netlist.1.map (fun node => if node.2 = PASS then (0, node.2) else node)).insertionSort
            scored_node_le) = nonpass_count raw_netlist.1 := by
        have := nonpass_count_perm (sorted_nodelist_perm
          (raw_netlist.1.map (fun node => if node.2 = PASS then (0, node.2) else node)))
        rw [nonpass_count_zero_pass] at this
        exact this
      rw [hc]
      omega
    · rw [hcount, link_nodelist_spec _ _ _ _ hne2, nonpass_count_zero_pass]

/-- C8, the claim as stated fails: an oracle list with one move of prior zero
that is not `PASS` links one child, and no entry of the list has a non-zero
prior. -/
theorem create_children_links_zero_prior :
    (fresh_node.create_children 0 start_state ([(0, 60)], 1 / 2)).success = true
    ∧ (fresh_node.create_children 0 start_state ([(0, 60)], 1 / 2)).node.m_children.length = 1
    ∧ ([((0 : ℚ), (60 : Int))].countP (fun e => decide (e.1 ≠ 0 ∧ e.2 ≠ PASS))) = 0 := by
  refine ⟨rfl, ?_, ?_⟩
  · simp [UCTNode.create_children, fresh_node, UCTNode.new, start_state, UCTNode.link_nodelist,
      UCTNode.link_child, PASS]
  · simp

/-- C9, as amended. For every node and every oracle answer whose move list is
not empty, after `create_children` returns true the node's `has_children` flag
is true, and it stays true under every later sequence of operations on the node
(update, virtual loss and its undo, invalidate, select, sort, randomise, noise,
further `create_children` calls). -/
theorem has_children_after_create_children (cfg : Config) (n : UCTNode) (nodecount : Int)
    (state : GameState) (raw_netlist : List scored_node × ℚ)
    (h : (n.create_children nodecount state raw_netlist).success = true)
    (hne : raw_netlist.1 ≠ []) :
    (n.create_children nodecount state raw_netlist).node.m_has_children = true
    ∧ ∀ ops : List NodeOp,
      ((n.create_children nodecount state raw_netlist).node.apply_ops cfg ops).m_has_children
        = true := by
  have h1 := (create_children_children n nodecount state raw_netlist h hne).2
  exact ⟨h1, fun ops => apply_ops_has_children cfg ops _ h1⟩

/-- C9, the claim as stated fails: on an empty oracle move list
`create_children` returns true and leaves `has_children` false. -/
theorem create_children_empty_list :
    (fresh_node.create_children 0 start_state ([], 1 / 2)).success = true
    ∧ (fresh_node.create_children 0 start_state ([], 1 / 2)).node.m_has_children = false := by
  refine ⟨rfl, ?_⟩
  simp [UCTNode.create_children, fresh_node, UCTNode.new, start_state, UCTNode.link_nodelist]

/-- C10. For every expansion in which the priors of the oracle's non-`PASS`
moves have a sum of at least the float minimum, the priors of the created
children (the children the call puts before the old ones, one per non-`PASS`
move) sum to exactly 1 in exact arithmetic, whatever prior the oracle gave to
`PASS`. -/
theorem created_priors_sum_one (n : UCTNode) (nodecount : Int) (state : GameState)
    (raw_netlist : List scored_node × ℚ)
    (h : (n.create_children nodecount state raw_netlist).success = true)
    (hsum : FLT_MIN ≤ nonpass_prior_sum raw_netlist.1) :
    ∃ created : List UCTNode,
      (n.create_children nodecount state raw_netlist).node.m_children = created ++ n.m_children
      ∧ created.length = nonpass_count raw_netlist.1
      ∧ (created.map (fun c => c.m_score)).sum = 1 := by
  have hpos : (0 : ℚ) < nonpass_prior_sum raw_netlist.1 :=
    lt_of_lt_of_le (by unfold FLT_MIN; positivity) hsum
  have hne : raw_netlist.1 ≠ [] := by
    intro h0
    rw [h0] at hpos
    simp [nonpass_prior_sum] at hpos
  have hlt : ¬ nonpass_prior_sum raw_netlist.1 < FLT_MIN := not_lt.mpr hsum
  have hperm := sorted_nodelist_perm
    (raw_netlist.1.map (fun node => if node.2 = PASS then (0, node.2) else node))
  refine ⟨_, (create_children_children n nodecount state raw_netlist h hne).1, ?_, ?_⟩
  · rw [List.length_reverse, List.length_map, ← List.countP_eq_length_filter]
    have := nonpass_count_perm hperm
    rw [nonpass_count_zero_pass] at this
    exact this
  · have hs := nonpass_prior_sum_perm hperm
    rw [nonpass_prior_sum_zero_pass] at hs
    unfold nonpass_prior_sum at hs
    simp only [hlt, if_false, List.map_reverse, List.sum_reverse, List.map_map]
    have hdiv : ∀ (l : List scored_node) (s : ℚ),
        (l.map ((fun c : UCTNode => c.m_score) ∘ fun e : scored_node =>
          UCTNode.new e.2 (e.1 / s)
            (if state.board.m_tomove = square_t.WHITE.toInt then 1 - raw_netlist.2
             else raw_netlist.2))).sum
          = (l.map (fun e => e.1)).sum / s := by
      intro l s
      induction l with
      | nil => simp
      | cons a l ih =>
        rw [List.map_cons, List.sum_cons, ih, List.map_cons, List.sum_cons]
        simp only [Function.comp, UCTNode.new]
        ring
    rw [hdiv, hs]
    exact div_self (ne_of_gt hpos)

/-! ## The scan as a table of tallies -/

/-- A loop over the elements of lists produced per element is the loop over
the concatenation. -/
theorem foldl_flatMap_eq {α β γ : Type} (f : γ → β → γ) (g : α → List β) (l : List α) (c : γ) :
    (l.flatMap g).foldl f c = l.foldl (fun acc a => (g a).foldl f acc) c := by
  induction l generalizing c with
  | nil => rfl
  | cons a l ih => simp [List.flatMap_cons, List.foldl_append, ih]

/-- A loop that acts only on the elements a partial function keeps is the loop
over the kept values. -/
theorem foldl_filterMap_eq {α β γ : Type} (f : γ → β → γ) (g : α → Option β)
    (h : γ → α → γ) (hh : ∀ c a, h c a = (g a).elim c (f c)) (l : List α) (c : γ) :
    l.foldl h c = (l.filterMap g).foldl f c := by
  induction l generalizing c with
  | nil => rfl
  | cons a l ih =>
    rw [List.foldl_cons, ih, hh]
    cases hg : g a with
    | none => rw [List.filterMap_cons_none hg]; rfl
    | some b => rw [List.filterMap_cons_some hg, List.foldl_cons]; rfl

/-- The body of the loop over the colours makes the comparison of the colour's
row of the table. -/
theorem scan_color_eq (board : FastBoard) (children : List UCTNode) (to_move : Int)
    (x y : Int) (b : Best) (color : square_t) :
    scan_color board children to_move (x, y) (board.get_vertex x y) b color
      = (color_tally board x y color).elim b
          (fun row => best_update b (candidate_of children to_move row)) := by
  unfold scan_color color_tally
  generalize scan_tally board (x, y) color = ff
  by_cases hc : ff.1 > 0 ∨ ff.2 ≥ 1
  · by_cases hm : color.toInt = to_move
    · simp only [if_pos hc, best_update, candidate_of, hm, decide_True, if_true, Option.elim]
    · simp only [if_pos hc, best_update, candidate_of, hm, decide_False, if_false,
        Bool.false_eq_true, Option.elim]
  · simp only [if_neg hc, Option.elim]

/-- The body of the scan at one vertex makes the comparisons of the vertex's
rows. -/
theorem scan_vertex_eq (board : FastBoard) (children : List UCTNode) (to_move : Int)
    (best : Best) (x y : Int) :
    scan_vertex board children to_move best x y
      = (vertex_tallies board x y).foldl
          (fun b row => best_update b (candidate_of children to_move row)) best := by
  unfold scan_vertex vertex_tallies
  by_cases he : board.get_square (board.get_vertex x y) ≠ square_t.EMPTY
  · rw [if_pos he, if_pos he, List.foldl_nil]
  · rw [if_neg he, if_neg he]
    exact foldl_filterMap_eq (fun b row => best_update b (candidate_of children to_move row))
      (color_tally board x y) (scan_color board children to_move (x, y) (board.get_vertex x y))
      (scan_color_eq board children to_move x y) _ best

/-- The scan makes the comparisons of the rows of the table, in scan order. -/
theorem root_scan_eq (board : FastBoard) (children : List UCTNode) (to_move : Int) :
    root_scan board children to_move = best_of_table children to_move (scan_tallies board) := by
  unfold root_scan best_of_table scan_tallies best_init
  rw [List.foldl_map, foldl_flatMap_eq]
  have h : (fun (best : Best) (x : Nat) =>
        (List.range 19).foldl
          (fun best (y : Nat) => scan_vertex board children to_move best (x : Int) (y : Int)) best)
      = (fun (acc : Best) (x : Nat) =>
        ((List.range 19).flatMap (fun (y : Nat) => vertex_tallies board (x : Int) (y : Int))).foldl
          (fun b row => best_update b (candidate_of children to_move row)) acc) := by
    funext best x
    rw [foldl_flatMap_eq]
    have h2 : (fun best (y : Nat) => scan_vertex board children to_move best (x : Int) (y : Int))
        = (fun (acc : Best) (y : Nat) =>
          (vertex_tallies board (x : Int) (y : Int)).foldl
            (fun b row => best_update b (candidate_of children to_move row)) acc) := by
      funext best y
      exact scan_vertex_eq board children to_move best x y
    rw [h2]
  rw [h]

/-- Every non-zero tally at an empty vertex of the board is a row of the
table. -/
theorem scan_tallies_complete (board : FastBoard) (x y : Nat) (hx : x < 19) (hy : y < 19)
    (color : square_t) (hcolor : color = square_t.BLACK ∨ color = square_t.WHITE)
    (hempty : board.get_square (board.get_vertex (x : Int) (y : Int)) = square_t.EMPTY)
    (h : (scan_tally board ((x : Int), (y : Int)) color).1 > 0
      ∨ (scan_tally board ((x : Int), (y : Int)) color).2 ≥ 1) :
    (board.get_vertex (x : Int) (y : Int), color,
      (scan_tally board ((x : Int), (y : Int)) color).1,
      (scan_tally board ((x : Int), (y : Int)) color).2) ∈ scan_tallies board := by
  unfold scan_tallies
  rw [List.mem_flatMap]
  refine ⟨x, List.mem_range.mpr hx, ?_⟩
  rw [List.mem_flatMap]
  refine ⟨y, List.mem_range.mpr hy, ?_⟩
  unfold vertex_tallies
  rw [if_neg (by simp [hempty])]
  rw [List.mem_filterMap]
  refine ⟨color, ?_, ?_⟩
  · rcases hcolor with rfl | rfl <;> simp
  · unfold color_tally
    simp only [if_pos h]

/-- When the randomisation is off and the override fires, `get_best_move`
returns the override's move. -/
theorem get_best_move_of_override (cfg : Config) (m_root : UCTNode) (m_rootstate : GameState)
    (passflag : Nat) (first : UCTNode) (rest : List UCTNode) (move : Int)
    (hne : m_root.m_children.isEmpty = false)
    (hrand : ¬ ((m_rootstate.m_movenum : Int) < cfg.cfg_random_cnt))
    (hsort : (m_root.sort_root_children m_rootstate.board.m_tomove).m_children = first :: rest)
    (hov : tactical_override
      (root_scan m_rootstate.board (first :: rest) m_rootstate.board.m_tomove) = some move) :
    get_best_move cfg m_root m_rootstate passflag = move := by
  unfold get_best_move
  simp only [hne, Bool.false_eq_true, if_false, hrand, hsort, hov]

/-- Three of four masks have the bit when three of four conditions hold, each
condition giving the bit of its mask. -/
theorem three_of_four_testBit (a b c d i : Nat) (x y z w : Bool)
    (hx : x = true → a.testBit i = true) (hy : y = true → b.testBit i = true)
    (hz : z = true → c.testBit i = true) (hw : w = true → d.testBit i = true)
    (h : 3 ≤ x.toNat + y.toNat + z.toNat + w.toNat) :
    (three_of_four a b c d).testBit i = true := by
  unfold three_of_four
  simp only [Nat.testBit_or, Nat.testBit_and]
  cases x <;> cases y <;> cases z <;> cases w <;> simp at h hx hy hz hw <;> simp [*]

/-- An own square `k` steps ahead of the vertex along a direction shows in the
stone mask moved `k` steps, and likewise behind. -/
theorem own_square_testBit (board : FastBoard) (color : square_t) (B : Nat)
    (hB : ∀ x y : Nat, x < 19 → y < 19 →
      board.get_square_xy (x : Int) (y : Int) = color → B.testBit (bit_key x y) = true)
    (px py : Nat) (hpx : px < 19) (hpy : py < 19) (d : Int × Int) (s : Nat)
    (hd : (d, s) ∈ dir_bits) (k : Nat) (hk1 : 1 ≤ k) (hk4 : k ≤ 4) :
    (own_square board ((px : Int), (py : Int)) color
        (line_square ((px : Int), (py : Int)) d (k : Int)) = true →
      (mask_ahead B s k).testBit (bit_key px py) = true)
    ∧ (own_square board ((px : Int), (py : Int)) color
        (line_square ((px : Int), (py : Int)) d (-(k : Int))) = true →
      (mask_behind B s k).testBit (bit_key px py) = true) := by
  have key : ∀ (t : Int) (qx qy : Nat), qx < 19 → qy < 19 →
      line_square ((px : Int), (py : Int)) d t = ((qx : Int), (qy : Int)) →
      own_square board ((px : Int), (py : Int)) color
        (line_square ((px : Int), (py : Int)) d t) = true →
      (qx, qy) ≠ (px, py) → B.testBit (bit_key qx qy) = true := by
    intro t qx qy hqx hqy hline hown hne
    rw [hline] at hown
    unfold own_square at hown
    simp only [decide_eq_true_eq] at hown
    rcases hown with h | ⟨_, h⟩
    · exfalso
      apply hne
      simp only [Prod.mk.injEq] at h ⊢
      omega
    · exact hB qx qy hqx hqy h
  unfold dir_bits at hd
  simp only [List.mem_cons, Prod.mk.injEq, List.mem_singleton, List.not_mem_nil, or_false] at hd
  constructor
  · intro hown
    have hon : on_board (line_square ((px : Int), (py : Int)) d (k : Int)) := by
      unfold own_square at hown
      simp only [decide_eq_true_eq] at hown
      rcases hown with h | ⟨h, _⟩
      · rw [h]; unfold on_board; simp only; omega
      · exact h
    unfold on_board line_square at hon
    simp only at hon
    unfold mask_ahead
    rw [Nat.testBit_shiftRight]
    rcases hd with ⟨rfl, rfl⟩ | ⟨rfl, rfl⟩ | ⟨rfl, rfl⟩ | ⟨rfl, rfl⟩
    · have := key k (px + k) py (by omega) hpy
        (by unfold line_square; simp only [Prod.mk.injEq]; constructor <;> push_cast <;> ring) hown
        (by simp only [ne_eq, Prod.mk.injEq]; omega)
      have e : k * 1 + bit_key px py = bit_key (px + k) py := by unfold bit_key; omega
      rw [e]; exact this
    · have := key k px (py + k) hpx (by omega)
        (by unfold line_square; simp only [Prod.mk.injEq]; constructor <;> push_cast <;> ring) hown
        (by simp only [ne_eq, Prod.mk.injEq]; omega)
      have e : k * 32 + bit_key px py = bit_key px (py + k) := by unfold bit_key; omega
      rw [e]; exact this
    · have := key k (px + k) (py + k) (by omega) (by omega)
        (by unfold line_square; simp only [Prod.mk.injEq]; constructor <;> push_cast <;> ring) hown
        (by simp only [ne_eq, Prod.mk.injEq]; omega)
      have e : k * 33 + bit_key px py = bit_key (px + k) (py + k) := by unfold bit_key; omega
      rw [e]; exact this
    · have hle : k ≤ px := by omega
      have := key k (px - k) (py + k) (by omega) (by omega)
        (by unfold line_square; simp only [Prod.mk.injEq]; constructor <;> push_cast [hle] <;> ring)
        hown (by simp only [ne_eq, Prod.mk.injEq]; omega)
      have e : k * 31 + bit_key px py = bit_key (px - k) (py + k) := by unfold bit_key; omega
      rw [e]; exact this
  · intro hown
    have hon : on_board (line_square ((px : Int), (py : Int)) d (-(k : Int))) := by
      unfold own_square at hown
      simp only [decide_eq_true_eq] at hown
      rcases hown with h | ⟨h, _⟩
      · rw [h]; unfold on_board; simp only; omega
      · exact h
    unfold on_board line_square at hon
    simp only at hon
    unfold mask_behind
    rw [Nat.testBit_shiftLeft]
    rcases hd with ⟨rfl, rfl⟩ | ⟨rfl, rfl⟩ | ⟨rfl, rfl⟩ | ⟨rfl, rfl⟩
    · have hle : k ≤ px := by omega
      have := key (-(k : Int)) (px - k) py (by omega) hpy
        (by unfold line_square; simp only [Prod.mk.injEq]; constructor <;> push_cast [hle] <;> ring)
        hown (by simp only [ne_eq, Prod.mk.injEq]; omega)
      have e : bit_key px py - k * 1 = bit_key (px - k) py := by unfold bit_key; omega
      have g : bit_key px py ≥ k * 1 := by unfold bit_key; omega
      rw [e, this]; simpa using g
    · have hle : k ≤ py := by omega
      have := key (-(k : Int)) px (py - k) hpx (by omega)
        (by unfold line_square; simp only [Prod.mk.injEq]; constructor <;> push_cast [hle] <;> ring)
        hown (by simp only [ne_eq, Prod.mk.injEq]; omega)
      have e : bit_key px py - k * 32 = bit_key px (py - k) := by unfold bit_key; omega
      have g : bit_key px py ≥ k * 32 := by unfold bit_key; omega
      rw [e, this]; simpa using g
    · have hle : k ≤ px := by omega
      have hle2 : k ≤ py := by omega
      have := key (-(k : Int)) (px - k) (py - k) (by omega) (by omega)
        (by unfold line_square; simp only [Prod.mk.injEq]; constructor <;> push_cast [hle, hle2] <;> ring)
        hown (by simp only [ne_eq, Prod.mk.injEq]; omega)
      have e : bit_key px py - k * 33 = bit_key (px - k) (py - k) := by unfold bit_key; omega
      have g : bit_key px py ≥ k * 33 := by unfold bit_key; omega
      rw [e, this]; simpa using g
    · have hle2 : k ≤ py := by omega
      have := key (-(k : Int)) (px + k) (py - k) (by omega) (by omega)
        (by unfold line_square; simp only [Prod.mk.injEq]; constructor <;> push_cast [hle2] <;> ring)
        hown (by simp only [ne_eq, Prod.mk.injEq]; omega)
      have e : bit_key px py - k * 31 = bit_key (px + k) (py - k) := by unfold bit_key; omega
      have g : bit_key px py ≥ k * 31 := by unfold bit_key; omega
      rw [e, this]; simpa using g

/-- The vertex itself is an own square. -/
theorem own_square_self (board : FastBoard) (v : Int × Int) (color : square_t) (d : Int × Int) :
    own_square board v color (line_square v d 0) = true := by
  unfold own_square line_square
  simp

/-- A window with at least four own squares makes the vertex active on the
window's axis. -/
theorem window_active (board : FastBoard) (color : square_t) (B : Nat)
    (hB : ∀ x y : Nat, x < 19 → y < 19 →
      board.get_square_xy (x : Int) (y : Int) = color → B.testBit (bit_key x y) = true)
    (px py : Nat) (hpx : px < 19) (hpy : py < 19) (d : Int × Int) (s : Nat)
    (hd : (d, s) ∈ dir_bits) (w : Nat) (hw : w < 5)
    (h : 4 ≤ spec_own board ((px : Int), (py : Int)) color d w) :
    (active_axis B s).testBit (bit_key px py) = true := by
  have h1 := own_square_testBit board color B hB px py hpx hpy d s hd 1 (by omega) (by omega)
  have h2 := own_square_testBit board color B hB px py hpx hpy d s hd 2 (by omega) (by omega)
  have h3 := own_square_testBit board color B hB px py hpx hpy d s hd 3 (by omega) (by omega)
  have h4 := own_square_testBit board color B hB px py hpx hpy d s hd 4 (by omega) (by omega)
  simp only [Nat.cast_ofNat, Nat.cast_one] at h1 h2 h3 h4
  have h0 := own_square_self board ((px : Int), (py : Int)) color d
  have hr : List.range 5 = [0, 1, 2, 3, 4] := rfl
  unfold spec_own window_squares at h
  rw [hr] at h
  simp only [List.map_cons, List.map_nil, List.countP_cons, List.countP_nil] at h
  unfold active_axis
  simp only [Nat.testBit_or, Bool.or_eq_true]
  interval_cases w
  · norm_num at h
    simp only [h0, if_true] at h
    left; left; left; left
    refine three_of_four_testBit _ _ _ _ _ _ _ _ _ h4.2 h3.2 h2.2 h1.2 ?_
    revert h
    cases own_square board ((px : Int), (py : Int)) color
        (line_square ((px : Int), (py : Int)) d (-4)) <;>
      cases own_square board ((px : Int), (py : Int)) color
        (line_square ((px : Int), (py : Int)) d (-3)) <;>
      cases own_square board ((px : Int), (py : Int)) color
        (line_square ((px : Int), (py : Int)) d (-2)) <;>
      cases own_square board ((px : Int), (py : Int)) color
        (line_square ((px : Int), (py : Int)) d (-1)) <;> simp
  · norm_num at h
    simp only [h0, if_true] at h
    left; left; left; right
    refine three_of_four_testBit _ _ _ _ _ _ _ _ _ h3.2 h2.2 h1.2 h1.1 ?_
    revert h
    cases own_square board ((px : Int), (py : Int)) color
        (line_square ((px : Int), (py : Int)) d (-3)) <;>
      cases own_square board ((px : Int), (py : Int)) color
        (line_square ((px : Int), (py : Int)) d (-2)) <;>
      cases own_square board ((px : Int), (py : Int)) color
        (line_square ((px : Int), (py : Int)) d (-1)) <;>
      cases own_square board ((px : Int), (py : Int)) color
        (line_square ((px : Int), (py : Int)) d 1) <;> simp
  · norm_num at h
    simp only [h0, if_true] at h
    left; left; right
    refine three_of_four_testBit _ _ _ _ _ _ _ _ _ h2.2 h1.2 h1.1 h2.1 ?_
    revert h
    cases own_square board ((px : Int), (py : Int)) color
        (line_square ((px : Int), (py : Int)) d (-2)) <;>
      cases own_square board ((px : Int), (py : Int)) color
        (line_square ((px : Int), (py : Int)) d (-1)) <;>
      cases own_square board ((px : Int), (py : Int)) color
        (line_square ((px : Int), (py : Int)) d 1) <;>
      cases own_square board ((px : Int), (py : Int)) color
        (line_square ((px : Int), (py : Int)) d 2) <;> simp
  · norm_num at h
    simp only [h0, if_true] at h
    left; right
    refine three_of_four_testBit _ _ _ _ _ _ _ _ _ h1.2 h1.1 h2.1 h3.1 ?_
    revert h
    cases own_square board ((px : Int), (py : Int)) color
        (line_square ((px : Int), (py : Int)) d (-1)) <;>
      cases own_square board ((px : Int), (py : Int)) color
        (line_square ((px : Int), (py : Int)) d 1) <;>
      cases own_square board ((px : Int), (py : Int)) color
        (line_square ((px : Int), (py : Int)) d 2) <;>
      cases own_square board ((px : Int), (py : Int)) color
        (line_square ((px : Int), (py : Int)) d 3) <;> simp
  · norm_num at h
    simp only [h0, if_true] at h
    right
    refine three_of_four_testBit _ _ _ _ _ _ _ _ _ h1.1 h2.1 h3.1 h4.1 ?_
    revert h
    cases own_square board ((px : Int), (py : Int)) color
        (line_square ((px : Int), (py : Int)) d 1) <;>
      cases own_square board ((px : Int), (py : Int)) color
        (line_square ((px : Int), (py : Int)) d 2) <;>
      cases own_square board ((px : Int), (py : Int)) color
        (line_square ((px : Int), (py : Int)) d 3) <;>
      cases own_square board ((px : Int), (py : Int)) color
        (line_square ((px : Int), (py : Int)) d 4) <;> simp

/-- Away from the active squares of a colour the tallies of that colour are
zero. -/
theorem scan_tally_quiet (board : FastBoard) (color : square_t) (B : Nat)
    (hcolor : color = square_t.BLACK ∨ color = square_t.WHITE)
    (hB : ∀ x y : Nat, x < 19 → y < 19 →
      board.get_square_xy (x : Int) (y : Int) = color → B.testBit (bit_key x y) = true)
    (px py : Nat) (hpx : px < 19) (hpy : py < 19)
    (hq : (active_mask B).testBit (bit_key px py) = false) :
    scan_tally board ((px : Int), (py : Int)) color = (0, 0) := by
  have hlow : ∀ d s, (d, s) ∈ dir_bits → ∀ w ∈ List.range 5,
      spec_own board ((px : Int), (py : Int)) color d w < 4 := by
    intro d s hd w hw
    by_contra hge
    have hbit := window_active board color B hB px py hpx hpy d s hd w (List.mem_range.mp hw)
      (not_lt.mp hge)
    have hact : (active_mask B).testBit (bit_key px py) = true := by
      unfold active_mask
      simp only [Nat.testBit_or, Bool.or_eq_true]
      unfold dir_bits at hd
      simp only [List.mem_cons, Prod.mk.injEq, List.mem_singleton, List.not_mem_nil,
        or_false] at hd
      rcases hd with ⟨_, rfl⟩ | ⟨_, rfl⟩ | ⟨_, rfl⟩ | ⟨_, rfl⟩
      · left; left; left; exact hbit
      · left; left; right; exact hbit
      · left; right; exact hbit
      · right; exact hbit
    rw [hq] at hact
    cases hact
  have hfive : ∀ d s, (d, s) ∈ dir_bits →
      (List.range 5).countP
        (fun w => decide (spec_own board ((px : Int), (py : Int)) color d w = 5)) = 0 := by
    intro d s hd
    rw [List.countP_eq_zero]
    intro w hw
    have := hlow d s hd w hw
    simp only [decide_eq_true_eq]
    omega
  have hfour : ∀ d s, (d, s) ∈ dir_bits →
      (List.range 5).countP
        (fun w => decide (spec_own board ((px : Int), (py : Int)) color d w = 4
          ∧ spec_empty board ((px : Int), (py : Int)) d w = 1)) = 0 := by
    intro d s hd
    rw [List.countP_eq_zero]
    intro w hw
    have := hlow d s hd w hw
    simp only [decide_eq_true_eq, not_and]
    omega
  rw [scan_tally_counts board px py color ⟨by omega, by omega⟩ ⟨by omega, by omega⟩ hcolor]
  unfold spec_fives spec_fours axes
  simp only [List.map_cons, List.map_nil, List.sum_cons, List.sum_nil]
  rw [hfive (1, 0) 1 (by simp [dir_bits]), hfive (0, 1) 32 (by simp [dir_bits]),
    hfive (1, 1) 33 (by simp [dir_bits]), hfive (-1, 1) 31 (by simp [dir_bits]),
    hfour (1, 0) 1 (by simp [dir_bits]), hfour (0, 1) 32 (by simp [dir_bits]),
    hfour (1, 1) 33 (by simp [dir_bits]), hfour (-1, 1) 31 (by simp [dir_bits])]
  rfl

/-- A square that is active for neither colour gives no row. -/
theorem vertex_tallies_quiet (board : FastBoard) (black white : Nat)
    (hblack : ∀ x y : Nat, x < 19 → y < 19 →
      board.get_square_xy (x : Int) (y : Int) = square_t.BLACK →
      black.testBit (bit_key x y) = true)
    (hwhite : ∀ x y : Nat, x < 19 → y < 19 →
      board.get_square_xy (x : Int) (y : Int) = square_t.WHITE →
      white.testBit (bit_key x y) = true)
    (px py : Nat) (hpx : px < 19) (hpy : py < 19)
    (hq : (active_mask black ||| active_mask white).testBit (bit_key px py) = false) :
    vertex_tallies board (px : Int) (py : Int) = [] := by
  rw [Nat.testBit_or, Bool.or_eq_false_iff] at hq
  have hb := scan_tally_quiet board square_t.BLACK black (Or.inl rfl) hblack px py hpx hpy hq.1
  have hw := scan_tally_quiet board square_t.WHITE white (Or.inr rfl) hwhite px py hpx hpy hq.2
  unfold vertex_tallies
  split
  · rfl
  · have h1 : color_tally board (px : Int) (py : Int) square_t.BLACK = none := by
      unfold color_tally; rw [hb]; simp
    have h2 : color_tally board (px : Int) (py : Int) square_t.WHITE = none := by
      unfold color_tally; rw [hw]; simp
    rw [List.filterMap_cons_none h1, List.filterMap_cons_none h2, List.filterMap_nil]

/-- Elements that produce nothing can be left out of a concatenation. -/
theorem flatMap_filter_nil {α β : Type} (f : α → List β) (p : α → Bool) (l : List α)
    (h : ∀ a ∈ l, p a = false → f a = []) :
    l.flatMap f = (l.filter p).flatMap f := by
  induction l with
  | nil => rfl
  | cons a l ih =>
    have ih' := ih (fun b hb => h b (List.mem_cons_of_mem a hb))
    cases hp : p a with
    | false =>
      rw [List.flatMap_cons, List.filter_cons_of_neg (by simp [hp]), h a (List.mem_cons_self a l) hp,
        List.nil_append, ih']
    | true =>
      rw [List.flatMap_cons, List.filter_cons_of_pos hp, List.flatMap_cons, ih']

/-- The table of the scan, square by square. -/
theorem scan_tallies_squares (board : FastBoard) :
    scan_tallies board
      = scan_squares.flatMap (fun p => vertex_tallies board (p.1 : Int) (p.2 : Int)) := by
  unfold scan_tallies scan_squares
  rw [List.flatMap_assoc]
  congr 1

/-- The squares of the scan are on the board. -/
theorem scan_squares_bound (p : Nat × Nat) (hp : p ∈ scan_squares) : p.1 < 19 ∧ p.2 < 19 := by
  unfold scan_squares at hp
  simp only [List.mem_flatMap, List.mem_range, List.mem_map] at hp
  obtain ⟨x, hx, y, hy, rfl⟩ := hp
  exact ⟨hx, hy⟩

/-- On a board given by masks, a black square has its bit in the black mask and
a white square has its bit in the white mask. -/
theorem board_of_masks_bits (black white : Nat) (tomove : Int) :
    (∀ x y : Nat, x < 19 → y < 19 →
      (board_of_masks black white tomove).get_square_xy (x : Int) (y : Int) = square_t.BLACK →
      black.testBit (bit_key x y) = true)
    ∧ (∀ x y : Nat, x < 19 → y < 19 →
      (board_of_masks black white tomove).get_square_xy (x : Int) (y : Int) = square_t.WHITE →
      white.testBit (bit_key x y) = true) := by
  constructor
  · intro x y hx hy h
    unfold board_of_masks at h
    simp only [Int.toNat_ofNat] at h
    have hon : (0 : Int) ≤ x ∧ (x : Int) < 19 ∧ (0 : Int) ≤ y ∧ (y : Int) < 19 := by omega
    rw [if_pos hon] at h
    by_cases hb : black.testBit (bit_key x y) = true
    · exact hb
    · rw [if_neg hb] at h
      by_cases hw : white.testBit (bit_key x y) = true
      · rw [if_pos hw] at h; cases h
      · rw [if_neg hw] at h; cases h
  · intro x y hx hy h
    unfold board_of_masks at h
    simp only [Int.toNat_ofNat] at h
    have hon : (0 : Int) ≤ x ∧ (x : Int) < 19 ∧ (0 : Int) ≤ y ∧ (y : Int) < 19 := by omega
    rw [if_pos hon] at h
    by_cases hb : black.testBit (bit_key x y) = true
    · rw [if_pos hb] at h; cases h
    · rw [if_neg hb] at h
      by_cases hw : white.testBit (bit_key x y) = true
      · exact hw
      · rw [if_neg hw] at h; cases h

/-- The table of a position given by stone lists comes from its active squares
only. -/
theorem board_of_stones_tallies (black white : List (Nat × Nat)) (tomove : Int) :
    scan_tallies (board_of_stones black white tomove)
      = (active_squares black white).flatMap
          (fun p => vertex_tallies (board_of_stones black white tomove) (p.1 : Int) (p.2 : Int)) := by
  rw [scan_tallies_squares]
  unfold active_squares
  apply flatMap_filter_nil
  intro p hp hq
  obtain ⟨h1, h2⟩ := scan_squares_bound p hp
  exact vertex_tallies_quiet _ (mask_of black) (mask_of white)
    (board_of_masks_bits _ _ _).1 (board_of_masks_bits _ _ _).2 p.1 p.2 h1 h2 hq

/-! ## Position 1 -/

set_option maxRecDepth 1000000 in
/-- The active squares of position 1. -/
theorem position1_active :
    active_squares (star_stones ++ edge_row) (star_caps ++ [(5, 0)] ++ scattered)
      = [(0, 0), (1, 0), (2, 0), (3, 0), (3, 3), (3, 9), (4, 0), (4, 4), (4, 9), (5, 0), (6, 8),
         (7, 13), (8, 6), (8, 8), (8, 9), (8, 12), (9, 3), (9, 4), (9, 8), (9, 9), (9, 13),
         (9, 14), (12, 8), (13, 7), (13, 9), (13, 13), (14, 9), (14, 14)] := by
  decide!

set_option maxRecDepth 1000000 in
/-- The table of tallies of position 1. -/
theorem position1_table :
    scan_tallies position1
      = [(26, square_t.BLACK, 1, 0), (196, square_t.BLACK, 0, 1), (302, square_t.BLACK, 0, 1),
         (156, square_t.BLACK, 0, 1), (198, square_t.BLACK, 0, 4), (219, square_t.BLACK, 0, 4),
         (282, square_t.BLACK, 0, 2), (199, square_t.BLACK, 0, 4), (220, square_t.BLACK, 0, 15),
         (304, square_t.BLACK, 0, 1), (202, square_t.BLACK, 0, 2), (182, square_t.BLACK, 0, 1),
         (224, square_t.BLACK, 0, 1), (308, square_t.BLACK, 0, 1)] := by
  unfold position1
  rw [board_of_stones_tallies, position1_active]
  decide!

/-- The root of the examples keeps its one child under the sort. -/
theorem root_with_one_sorted (move : Int) (color : Int) :
    ((root_with [move]).sort_root_children color).m_children = [example_child move] := by
  simp [root_with, UCTNode.sort_root_children, stable_sort, sort_entry, UCTNode.link_child,
    example_child, UCTNode.new]

set_option maxRecDepth 1000000 in
/-- C1, on the code. In position 1 black is to move and the empty vertex
`(4, 0)` completes a black five, but `get_best_move` returns the vertex of
`(9, 9)`, where black's tally is no five and fifteen fours: the fifteen fours
are worth `0.99 + 15/1000`, more than the `1 + 1/1000` of the five. -/
theorem get_best_move_position1 :
    position1.get_square (position1.get_vertex 4 0) = square_t.EMPTY
    ∧ scan_tally position1 (4, 0) square_t.BLACK = (1, 0)
    ∧ get_best_move example_cfg (root_with [26]) (state_at position1 44) 0
        = position1.get_vertex 9 9
    ∧ scan_tally position1 (9, 9) square_t.BLACK = (0, 15) := by
  refine ⟨by decide!, by decide!, ?_, by decide!⟩
  apply get_best_move_of_override example_cfg (root_with [26]) (state_at position1 44) 0
    (example_child 26) []
  · rfl
  · decide
  · exact root_with_one_sorted 26 _
  · rw [root_scan_eq]
    show tactical_override (best_of_table [example_child 26] 0 (scan_tallies position1)) = _
    rw [position1_table]
    decide!

/-- A table without a five of a colour: no empty vertex of the board gives
that colour a five. -/
theorem no_five_of_table (board : FastBoard) (color : square_t)
    (hcolor : color = square_t.BLACK ∨ color = square_t.WHITE)
    (h : ∀ row ∈ scan_tallies board, row.2.1 = color → row.2.2.1 = 0)
    (x y : Nat) (hx : x < 19) (hy : y < 19)
    (hempty : board.get_square (board.get_vertex (x : Int) (y : Int)) = square_t.EMPTY) :
    (scan_tally board ((x : Int), (y : Int)) color).1 = 0 := by
  have hc := scan_tallies_complete board x y hx hy color hcolor hempty
  generalize scan_tally board ((x : Int), (y : Int)) color = ff at hc ⊢
  by_contra hne
  have hmem := hc (Or.inl (Nat.pos_of_ne_zero hne))
  have h0 := h _ hmem
  simp only [true_implies] at h0
  exact hne h0

/-! ## Position 2 -/

set_option maxRecDepth 1000000 in
/-- The active squares of position 2. -/
theorem position2_active :
    active_squares (star_stones ++ [(5, 0)]) (edge_row ++ star_caps ++ scattered.take 9)
      = [(0, 0), (1, 0), (2, 0), (3, 0), (3, 3), (3, 9), (4, 0), (4, 4), (4, 9), (5, 0), (6, 8),
         (7, 13), (8, 6), (8, 8), (8, 9), (8, 12), (9, 3), (9, 4), (9, 8), (9, 9), (9, 13),
         (9, 14), (12, 8), (13, 7), (13, 9), (13, 13), (14, 9), (14, 14)] := by
  decide!

set_option maxRecDepth 1000000 in
/-- The table of tallies of position 2. -/
theorem position2_table :
    scan_tallies position2
      = [(26, square_t.WHITE, 1, 0), (196, square_t.BLACK, 0, 1), (302, square_t.BLACK, 0, 1),
         (156, square_t.BLACK, 0, 1), (198, square_t.BLACK, 0, 4), (219, square_t.BLACK, 0, 4),
         (282, square_t.BLACK, 0, 2), (199, square_t.BLACK, 0, 4), (220, square_t.BLACK, 0, 15),
         (304, square_t.BLACK, 0, 1), (202, square_t.BLACK, 0, 2), (182, square_t.BLACK, 0, 1),
         (224, square_t.BLACK, 0, 1), (308, square_t.BLACK, 0, 1)] := by
  unfold position2
  rw [board_of_stones_tallies, position2_active]
  decide!

set_option maxRecDepth 1000000 in
/-- C2, on the code. In position 2 black is to move, no empty vertex gives
black a five and the empty vertex `(4, 0)` completes a white five, but
`get_best_move` returns the vertex of `(9, 9)`, where white has no five: black's
fifteen fours there are worth `0.99 + 15/1000`, which passes the test
`best_mine_winrate >= 1.0f` meant for a five of the side to move. -/
theorem get_best_move_position2 :
    (∀ x y : Nat, x < 19 → y < 19 →
      position2.get_square (position2.get_vertex (x : Int) (y : Int)) = square_t.EMPTY →
      (scan_tally position2 ((x : Int), (y : Int)) square_t.BLACK).1 = 0)
    ∧ position2.get_square (position2.get_vertex 4 0) = square_t.EMPTY
    ∧ scan_tally position2 (4, 0) square_t.WHITE = (1, 0)
    ∧ get_best_move example_cfg (root_with [26]) (state_at position2 38) 0
        = position2.get_vertex 9 9
    ∧ scan_tally position2 (9, 9) square_t.WHITE = (0, 0) := by
  refine ⟨?_, by decide!, by decide!, ?_, by decide!⟩
  · apply no_five_of_table position2 square_t.BLACK (Or.inl rfl)
    rw [position2_table]
    decide
  · apply get_best_move_of_override example_cfg (root_with [26]) (state_at position2 38) 0
      (example_child 26) []
    · rfl
    · decide
    · exact root_with_one_sorted 26 _
    · rw [root_scan_eq]
      show tactical_override (best_of_table [example_child 26] 0 (scan_tallies position2)) = _
      rw [position2_table]
      decide!

/-! ## Position 3 -/

set_option maxRecDepth 1000000 in
/-- The active squares of position 3. -/
theorem position3_active :
    active_squares (open_three ++ star_caps ++ scattered.take 9) star_stones
      = [(0, 2), (3, 3), (3, 9), (4, 2), (4, 4), (4, 9), (5, 2), (6, 8), (7, 13), (8, 6), (8, 8),
         (8, 9), (8, 12), (9, 3), (9, 4), (9, 8), (9, 9), (9, 13), (9, 14), (12, 8), (13, 7),
         (13, 9), (13, 13), (14, 9), (14, 14)] := by
  decide!

set_option maxRecDepth 1000000 in
/-- The table of tallies of position 3. -/
theorem position3_table :
    scan_tallies position3
      = [(64, square_t.BLACK, 0, 1), (68, square_t.BLACK, 0, 2), (69, square_t.BLACK, 0, 1),
         (196, square_t.WHITE, 0, 1), (302, square_t.WHITE, 0, 1), (156, square_t.WHITE, 0, 1),
         (198, square_t.WHITE, 0, 4), (219, square_t.WHITE, 0, 4), (282, square_t.WHITE, 0, 2),
         (199, square_t.WHITE, 0, 4), (220, square_t.WHITE, 0, 15), (304, square_t.WHITE, 0, 1),
         (202, square_t.WHITE, 0, 2), (182, square_t.WHITE, 0, 1), (224, square_t.WHITE, 0, 1),
         (308, square_t.WHITE, 0, 1)] := by
  unfold position3
  rw [board_of_stones_tallies, position3_active]
  decide!

set_option maxRecDepth 1000000 in
/-- C5, on the code. In position 3 black is to move, no empty vertex gives
either colour a five and the empty vertex `(4, 2)` gives black two fours, but
`get_best_move` returns the vertex of `(9, 9)`, where black has no four at all:
white's fifteen fours there are worth `0.99 + 15/1000`, which passes the test
`best_enemy_winrate >= 1.0f` meant for a five of the opponent. -/
theorem get_best_move_position3 :
    (∀ color : square_t, color = square_t.BLACK ∨ color = square_t.WHITE →
      ∀ x y : Nat, x < 19 → y < 19 →
      position3.get_square (position3.get_vertex (x : Int) (y : Int)) = square_t.EMPTY →
      (scan_tally position3 ((x : Int), (y : Int)) color).1 = 0)
    ∧ position3.get_square (position3.get_vertex 4 2) = square_t.EMPTY
    ∧ scan_tally position3 (4, 2) square_t.BLACK = (0, 2)
    ∧ get_best_move example_cfg (root_with [68]) (state_at position3 36) 0
        = position3.get_vertex 9 9
    ∧ scan_tally position3 (9, 9) square_t.BLACK = (0, 0) := by
  refine ⟨?_, by decide!, by decide!, ?_, by decide!⟩
  · intro color hcolor
    apply no_five_of_table position3 color hcolor
    rw [position3_table]
    rcases hcolor with rfl | rfl <;> decide
  · apply get_best_move_of_override example_cfg (root_with [68]) (state_at position3 36) 0
      (example_child 68) []
    · rfl
    · decide
    · exact root_with_one_sorted 68 _
    · rw [root_scan_eq]
      show tactical_override (best_of_table [example_child 68] 0 (scan_tallies position3)) = _
      rw [position3_table]
      decide!

/-- C4, on the code. At the vertex `(9, 9)` of position 1, of rank 1 in the
child list, black's tally is no five and fifteen fours, and the winrate computed
for it is `1.00536`: not below `1.0`, although `fives = 0` and `fours > 1`. -/
theorem pattern_winrate_fifteen_fours :
    scan_tally position1 (9, 9) square_t.BLACK = (0, 15)
    ∧ rank_of (position1.get_vertex 9 9) [example_child 26] = 1
    ∧ pattern_winrate (init_point 1) 0 15 = 100536 / 100000
    ∧ ¬ (pattern_winrate (init_point 1) 0 15 < 1) := by
  refine ⟨by decide!, by decide!, by decide!, by decide!⟩

/-! ## The theorems at concrete inputs -/

/-- C3 at the centre of position 1, for black. -/
theorem scan_tally_eq_spec_witness :
    scan_tally position1 (9, 9) square_t.BLACK
      = (spec_fives position1 (9, 9) square_t.BLACK, spec_fours position1 (9, 9) square_t.BLACK) :=
  scan_tally_eq_spec position1 9 9 square_t.BLACK (by decide) (by decide) (Or.inl rfl)

/-- The assertion of the source holds at `select_node`. -/
theorem select_node_assert (color : Int) :
    ∀ c ∈ select_node.m_children, c.m_valid = true →
      -1000 < puct_value example_cfg color select_node.m_children c := by
  intro c hc _
  simp only [select_node, UCTNode.new, List.mem_cons, List.mem_singleton, List.not_mem_nil,
    or_false] at hc
  rcases hc with rfl | rfl | rfl <;>
    · unfold puct_value valid_visits UCTNode.get_eval select_node example_cfg UCTNode.new
      simp
      split <;> norm_num

/-- C6 at `select_node`, for black. -/
theorem uct_select_child_argmax_witness :
    ∃ i, ∃ hi : i < select_node.m_children.length,
      select_node.uct_select_child example_cfg 0 = some i
      ∧ select_node.m_children[i].m_valid = true
      ∧ (∀ c ∈ select_node.m_children, c.m_valid = true →
          puct_value example_cfg 0 select_node.m_children c
            ≤ puct_value example_cfg 0 select_node.m_children select_node.m_children[i])
      ∧ (∀ j, ∀ hj : j < select_node.m_children.length, j < i →
          select_node.m_children[j].m_valid = true →
          puct_value example_cfg 0 select_node.m_children select_node.m_children[j]
            < puct_value example_cfg 0 select_node.m_children select_node.m_children[i]) :=
  uct_select_child_argmax select_node example_cfg 0
    ⟨{ UCTNode.new 61 (1 / 4) (1 / 2) with m_visits := 3, m_blackevals := 2 }, by
      simp [select_node, UCTNode.new]⟩
    (select_node_assert 0)

/-- C7 at `select_node`, for white. -/
theorem uct_select_child_none_iff_witness :
    (select_node.uct_select_child example_cfg 1 = none
        ↔ ∀ c ∈ select_node.m_children, c.m_valid = false)
    ∧ ∀ i, select_node.uct_select_child example_cfg 1 = some i →
        ∃ hi : i < select_node.m_children.length, select_node.m_children[i].m_valid = true :=
  uct_select_child_none_iff select_node example_cfg 1 (select_node_assert 1)

/-- C8 (as amended) at a fresh node and `example_netlist`. -/
theorem create_children_links_nonpass_witness :
    (fresh_node.create_children 0 start_state example_netlist).node.m_children.length
        = fresh_node.m_children.length + nonpass_count example_netlist.1
    ∧ (fresh_node.create_children 0 start_state example_netlist).nodecount
        = 0 + (nonpass_count example_netlist.1 : Int) :=
  create_children_links_nonpass fresh_node 0 start_state example_netlist rfl

/-- C9 (as amended) at a fresh node and `example_netlist`. -/
theorem has_children_after_create_children_witness :
    (fresh_node.create_children 0 start_state example_netlist).node.m_has_children = true
    ∧ ∀ ops : List NodeOp,
      ((fresh_node.create_children 0 start_state example_netlist).node.apply_ops
        example_cfg ops).m_has_children = true :=
  has_children_after_create_children example_cfg fresh_node 0 start_state example_netlist rfl
    (by simp [example_netlist])

/-- C10 at a fresh node and `example_netlist`: the two created children have
the priors `1/4` and `3/4`. -/
theorem created_priors_sum_one_witness :
    ∃ created : List UCTNode,
      (fresh_node.create_children 0 start_state example_netlist).node.m_children
        = created ++ fresh_node.m_children
      ∧ created.length = nonpass_count example_netlist.1
      ∧ (created.map (fun c => c.m_score)).sum = 1 :=
  created_priors_sum_one fresh_node 0 start_state example_netlist rfl
    (by norm_num [nonpass_prior_sum, example_netlist, FLT_MIN, PASS])

/-! ## The early returns of `create_children` -/

/-- C11. Whenever `has_children` is already true, or the state has two or more
consecutive passes, or `is_expanding` is already set, `create_children` returns
false, leaves the node and the node counter as they were and writes no
evaluation; the outcome is the same whatever the oracle would answer. -/
theorem create_children_early_return (n : UCTNode) (nodecount : Int) (state : GameState)
    (raw_netlist : List scored_node × ℚ)
    (h : n.m_has_children = true ∨ 2 ≤ state.m_passes ∨ n.m_is_expanding = true) :
    n.create_children nodecount state raw_netlist = ⟨false, n, nodecount, none⟩ := by
  unfold UCTNode.create_children
  by_cases h1 : n.m_has_children = true
  · simp [h1]
  · by_cases h2 : state.m_passes ≥ 2
    · simp [h1, h2]
    · by_cases h3 : n.m_is_expanding = true
      · simp [h1, h2, h3]
      · rcases h with h | h | h
        · exact absurd h h1
        · exact absurd h h2
        · exact absurd h h3

/-! ## The statistics of a node -/

/-- C12. The value `get_eval(colour)` is `black_value_sum / visits` when
`visits > 0` and `init_value` when `visits = 0`, and in both cases one minus
that value when the colour is `WHITE`. -/
theorem get_eval_formula (n : UCTNode) (color : Int) :
    (0 < n.m_visits → n.get_eval color =
      if color = square_t.WHITE.toInt then 1 - n.m_blackevals / (n.m_visits : ℚ)
      else n.m_blackevals / (n.m_visits : ℚ)) ∧
    (n.m_visits = 0 → n.get_eval color =
      if color = square_t.WHITE.toInt then 1 - n.m_init_eval else n.m_init_eval) := by
  constructor
  · intro h
    simp [UCTNode.get_eval, h]
  · intro h
    simp [UCTNode.get_eval, h]

/-- C13. For every node, visited or not, the values for the two colours add up
to one: `get_eval(BLACK) + get_eval(WHITE) = 1`. -/
theorem get_eval_black_add_white (n : UCTNode) :
    n.get_eval square_t.BLACK.toInt + n.get_eval square_t.WHITE.toInt = 1 := by
  unfold UCTNode.get_eval
  by_cases h : n.m_visits > 0
  · simp [h, square_t.toInt]
  · simp [h, square_t.toInt]

/-- A run of updates adds its length to the visits and its sum to the value sum. -/
theorem foldl_update_stats (vs : List ℚ) (n : UCTNode) :
    (vs.foldl UCTNode.update n).m_visits = n.m_visits + (vs.length : Int) ∧
    (vs.foldl UCTNode.update n).m_blackevals = n.m_blackevals + vs.sum := by
  induction vs generalizing n with
  | nil => simp
  | cons v vs ih =>
    rw [List.foldl_cons]
    obtain ⟨h1, h2⟩ := ih (n.update v)
    rw [h1, h2]
    simp only [UCTNode.update, List.length_cons, List.sum_cons, Nat.cast_add, Nat.cast_one]
    constructor <;> ring

/-- C14. The call `update(v)` adds one to the visits and `v` to the value sum
and leaves every other member of the node as it was; after `n` updates of a
freshly constructed node the visits are `n` and the value sum is the sum of the
`n` values. -/
theorem update_frame (n : UCTNode) (v : ℚ) :
    ((n.update v).m_visits = n.m_visits + 1 ∧
     (n.update v).m_blackevals = n.m_blackevals + v ∧
     (n.update v).m_move = n.m_move ∧
     (n.update v).m_score = n.m_score ∧
     (n.update v).m_init_eval = n.m_init_eval ∧
     (n.update v).m_must = n.m_must ∧
     (n.update v).m_virtual_loss = n.m_virtual_loss ∧
     (n.update v).m_valid = n.m_valid ∧
     (n.update v).m_has_children = n.m_has_children ∧
     (n.update v).m_is_expanding = n.m_is_expanding ∧
     (n.update v).m_children = n.m_children) ∧
    ∀ (vs : List ℚ) (vertex : Int) (score init_eval : ℚ),
      (vs.foldl UCTNode.update (UCTNode.new vertex score init_eval)).m_visits = (vs.length : Int) ∧
      (vs.foldl UCTNode.update (UCTNode.new vertex score init_eval)).m_blackevals = vs.sum := by
  refine ⟨⟨rfl, rfl, rfl, rfl, rfl, rfl, rfl, rfl, rfl, rfl, rfl⟩, ?_⟩
  intro vs vertex score init_eval
  obtain ⟨h1, h2⟩ := foldl_update_stats vs (UCTNode.new vertex score init_eval)
  rw [h1, h2]
  simp [UCTNode.new]

/-- C15, as stated, fails: after the single update `update(0)` of a fresh node
the value sum is `0` and the visits are `1`. -/
theorem visits_zero_iff_fails :
    ¬ ∀ (vs : List ℚ) (vertex : Int) (score init_eval : ℚ),
        (∀ v ∈ vs, 0 ≤ v ∧ v ≤ 1) →
        ((vs.foldl UCTNode.update (UCTNode.new vertex score init_eval)).m_visits = 0 ↔
         (vs.foldl UCTNode.update (UCTNode.new vertex score init_eval)).m_blackevals = 0) := by
  intro h
  have h0 := h [0] 0 0 (1 / 2) (by simp)
  simp [UCTNode.update, UCTNode.new] at h0

/-- C15, amended. For a node reached from a freshly constructed node by updates
with values in `[0, 1]`, `visits = 0` implies `black_value_sum = 0`; the
converse holds when every value is positive. -/
theorem visits_zero_imp_sum_zero (vs : List ℚ) (vertex : Int) (score init_eval : ℚ)
    (hv : ∀ v ∈ vs, 0 ≤ v ∧ v ≤ 1) :
    ((vs.foldl UCTNode.update (UCTNode.new vertex score init_eval)).m_visits = 0 →
      (vs.foldl UCTNode.update (UCTNode.new vertex score init_eval)).m_blackevals = 0) ∧
    ((∀ v ∈ vs, 0 < v) →
      (vs.foldl UCTNode.update (UCTNode.new vertex score init_eval)).m_blackevals = 0 →
      (vs.foldl UCTNode.update (UCTNode.new vertex score init_eval)).m_visits = 0) := by
  obtain ⟨h1, h2⟩ := foldl_update_stats vs (UCTNode.new vertex score init_eval)
  rw [h1, h2]
  simp only [UCTNode.new, zero_add]
  constructor
  · intro h
    have hl : vs.length = 0 := by exact_mod_cast h
    rw [List.length_eq_zero.mp hl]
    rfl
  · intro hpos hsum
    cases vs with
    | nil => rfl
    | cons v rest =>
      exfalso
      have h0 : 0 < v := hpos v (by simp)
      have hrest : 0 ≤ rest.sum :=
        List.sum_nonneg (fun x hx => (hv x (by simp [hx])).1)
      rw [List.sum_cons] at hsum
      linarith

/-- The early returns of `create_children` at a node that already has children. -/
theorem create_children_early_return_witness :
    ({ fresh_node with m_has_children := true } : UCTNode).m_has_children = true ∧
    ({ fresh_node with m_has_children := true } : UCTNode).create_children 7 start_state
        example_netlist
      = ⟨false, { fresh_node with m_has_children := true }, 7, none⟩ :=
  ⟨rfl, create_children_early_return _ 7 start_state example_netlist (Or.inl rfl)⟩

/-- The amended C15 after the updates `1/2, 0, 1`. -/
theorem visits_zero_imp_sum_zero_witness :
    (∀ v ∈ [(1 / 2 : ℚ), 0, 1], 0 ≤ v ∧ v ≤ 1) ∧
    (([(1 / 2 : ℚ), 0, 1].foldl UCTNode.update (UCTNode.new 0 0 (1 / 2))).m_visits = 0 →
      ([(1 / 2 : ℚ), 0, 1].foldl UCTNode.update (UCTNode.new 0 0 (1 / 2))).m_blackevals = 0) :=
  ⟨by norm_num, (visits_zero_imp_sum_zero [1 / 2, 0, 1] 0 0 (1 / 2) (by norm_num)).1⟩

/-! ## `sort_root_children` -/

/-- Linking a run of entries one by one puts their children, in reversed order,
before the children already there. -/
theorem foldl_link_child_children (l : List sortnode_t) (m : UCTNode) :
    (l.foldl (fun (node : UCTNode) sortnode => node.link_child sortnode.2.2.2) m).m_children
      = (l.map (fun e => e.2.2.2)).reverse ++ m.m_children := by
  induction l generalizing m with
  | nil => simp
  | cons a l ih =>
    rw [List.foldl_cons, ih]
    simp [UCTNode.link_child]

/-- The child list after `sort_root_children`: the children of the entries,
stably sorted from the reversed entry list. -/
theorem sort_root_children_children (n : UCTNode) (color : Int) :
    (n.sort_root_children color).m_children
      = (stable_sort NodeComp (n.m_children.map (sort_entry color)).reverse).map
          (fun e => e.2.2.2) := by
  unfold UCTNode.sort_root_children
  simp only [foldl_link_child_children, List.map_reverse, List.reverse_reverse, List.append_nil]

/-- The entry of a child carries the child. -/
theorem sort_entry_child (color : Int) (c : UCTNode) : (sort_entry color c).2.2.2 = c := by
  unfold sort_entry
  by_cases h : c.m_visits = 0
  · simp [h]
  · simp [h]

/-- The entry of a child carries its visits. -/
theorem sort_entry_visits (color : Int) (c : UCTNode) : (sort_entry color c).2.1 = c.m_visits := by
  unfold sort_entry
  by_cases h : c.m_visits = 0
  · simp [h]
  · simp [h]

/-- Of two entries at least one is not strictly before the other. -/
theorem NodeComp_total (a b : sortnode_t) : NodeComp b a = false ∨ NodeComp a b = false := by
  obtain ⟨wa, va, sa, ca⟩ := a
  obtain ⟨wb, vb, sb, cb⟩ := b
  unfold NodeComp
  simp only []
  by_cases ha : va = 0 <;> by_cases hb : vb = 0
  · subst ha; subst hb
    simp only [ne_eq, not_true_eq_false, and_false, and_self, if_false, if_true,
      decide_eq_false_iff_not, not_lt]
    exact le_total _ _
  · simp [ha, hb]
  · simp [ha, hb]
  · by_cases hab : va = vb
    · subst hab
      simp only [ha, false_and, and_false, if_false, if_true,
        decide_eq_false_iff_not, not_lt]
      exact le_total _ _
    · have hba : ¬ vb = va := fun h => hab h.symm
      simp only [ha, hb, hab, hba, false_and, and_false, if_false,
        decide_eq_false_iff_not, not_lt]
      exact le_total _ _

/-- Being not strictly after is transitive. -/
theorem NodeComp_trans (a b c : sortnode_t) (hab : NodeComp b a = false)
    (hbc : NodeComp c b = false) : NodeComp c a = false := by
  obtain ⟨wa, va, sa, ca⟩ := a
  obtain ⟨wb, vb, sb, cb⟩ := b
  obtain ⟨wc, vc, sc, cc⟩ := c
  unfold NodeComp at *
  simp only [] at *
  by_cases ha : va = 0 <;> by_cases hb : vb = 0 <;> by_cases hc : vc = 0 <;>
    simp only [ha, hb, hc, ne_eq, not_true_eq_false, not_false_eq_true, and_false, and_self,
      false_and, and_true, true_and, if_false, if_true, decide_eq_false_iff_not, not_lt,
      Bool.true_eq_false, Bool.false_eq_true] at * <;>
    try linarith
  by_cases h1 : vb = va <;> by_cases h2 : vc = vb
  · subst h1; subst h2
    simp only [if_true, decide_eq_false_iff_not, not_lt] at *
    linarith
  · subst h1
    simpa only [h2, if_false, if_true] using hbc
  · subst h2
    simpa only [h1, if_false, if_true] using hab
  · simp only [h1, h2, if_false, decide_eq_false_iff_not, not_lt] at hab hbc
    have h3 : ¬ vc = va := by omega
    simp only [h3, if_false, decide_eq_false_iff_not, not_lt]
    omega

/-- An entry list sorted by `stable_sort NodeComp` has no entry strictly before
an earlier one. -/
theorem stable_sort_sorted (l : List sortnode_t) :
    (stable_sort NodeComp l).Pairwise (fun a b => NodeComp b a = false) := by
  haveI : IsTotal sortnode_t (fun a b => NodeComp b a = false) :=
    ⟨fun a b => NodeComp_total a b⟩
  haveI : IsTrans sortnode_t (fun a b => NodeComp b a = false) :=
    ⟨fun a b c hab hbc => NodeComp_trans a b c hab hbc⟩
  exact List.sorted_insertionSort (fun a b => NodeComp b a = false) l

/-- When the entry of `d` is not strictly before the entry of `c`, the child
`c` may stand before `d` in the order the specification words. -/
theorem best_first_of_NodeComp (color : Int) (c d : UCTNode)
    (h : NodeComp (sort_entry color d) (sort_entry color c) = false) : best_first color c d := by
  unfold best_first UCTNode.visited
  unfold NodeComp sort_entry at h
  by_cases hc : c.m_visits = 0 <;> by_cases hd : d.m_visits = 0
  · simp only [hc, hd, ne_eq, not_true_eq_false, if_false, and_false, and_self, if_true,
      decide_eq_false_iff_not, not_lt] at h
    simp [hc, hd, h]
  · simp [hc, hd] at h
  · simp [hc, hd]
  · by_cases hcd : d.m_visits = c.m_visits
    · simp only [hc, hd, hcd, ne_eq, not_false_eq_true, if_true, false_and, and_false, if_false,
        decide_eq_false_iff_not, not_lt] at h
      simp [hc, hd, hcd, h]
    · simp only [hc, hd, hcd, ne_eq, not_false_eq_true, if_true, false_and, and_false, if_false,
        decide_eq_false_iff_not, not_lt] at h
      simp [hc, hd, hcd, h]

/-- C18. After `sort_root_children` the child list is a permutation of the
children before it and is ordered best first: visited children stand before
unvisited ones; among visited children more visits come first and equal visits
are ordered by higher winrate; among unvisited children a higher prior comes
first. -/
theorem sort_root_children_sorted (n : UCTNode) (color : Int) :
    (n.sort_root_children color).m_children.Perm n.m_children ∧
    (n.sort_root_children color).m_children.Pairwise (best_first color) := by
  rw [sort_root_children_children]
  have hperm : (stable_sort NodeComp (n.m_children.map (sort_entry color)).reverse).Perm
      (n.m_children.map (sort_entry color)) :=
    (List.perm_insertionSort _ _).trans (List.reverse_perm _)
  have hmap : (n.m_children.map (sort_entry color)).map (fun e => e.2.2.2) = n.m_children := by
    rw [List.map_map]
    conv_rhs => rw [← List.map_id n.m_children]
    exact List.map_congr_left (fun c _ => sort_entry_child color c)
  constructor
  · have h := hperm.map (fun e : sortnode_t => e.2.2.2)
    rwa [hmap] at h
  · rw [List.pairwise_map]
    refine (stable_sort_sorted _).imp_of_mem ?_
    intro a b ha hb hab
    obtain ⟨c, _, rfl⟩ := List.mem_map.mp (hperm.mem_iff.mp ha)
    obtain ⟨d, _, rfl⟩ := List.mem_map.mp (hperm.mem_iff.mp hb)
    rw [sort_entry_child, sort_entry_child]
    exact best_first_of_NodeComp color c d hab

/-- The sort does not keep the order of every tied pair: the two children of
`tie_root` tie, the first stands before the second, and after the sort the
second stands before the first. -/
theorem sort_root_children_reverses_tie :
    ¬ ∀ (n : UCTNode) (color : Int) (c d : UCTNode),
        List.Sublist [c, d] n.m_children → tied color c d →
        List.Sublist [c, d] (n.sort_root_children color).m_children := by
  intro h
  have h0 := h tie_root 0 tie_first tie_second (List.Sublist.refl _)
    (by simp [tied, NodeComp, sort_entry, tie_first, tie_second, UCTNode.new])
  have hs : (tie_root.sort_root_children 0).m_children = [tie_second, tie_first] := by
    simp [sort_root_children_children, tie_root, stable_sort, sort_entry, tie_first,
      tie_second, UCTNode.new, NodeComp, List.insertionSort, List.orderedInsert]
  rw [hs] at h0
  have hne : tie_first ≠ tie_second := by
    intro he
    have := congrArg UCTNode.m_move he
    simp [tie_first, tie_second, UCTNode.new] at this
  simp [List.cons_sublist_cons, List.sublist_cons_iff, hne] at h0

/-- The general form of the order among ties: two children that tie under
`NodeComp` stand after `sort_root_children` in the reverse of the order in
which they stood before it. -/
theorem sort_root_children_ties_reversed (n : UCTNode) (color : Int) (c d : UCTNode)
    (hsub : List.Sublist [c, d] n.m_children) (htie : tied color c d) :
    List.Sublist [d, c] (n.sort_root_children color).m_children := by
  rw [sort_root_children_children]
  have h1 : List.Sublist [sort_entry color c, sort_entry color d]
      (n.m_children.map (sort_entry color)) := hsub.map (sort_entry color)
  have h2 : List.Sublist [sort_entry color d, sort_entry color c]
      (n.m_children.map (sort_entry color)).reverse := by
    have := List.reverse_sublist.mpr h1
    simpa using this
  have h3 : List.Sublist [sort_entry color d, sort_entry color c]
      (stable_sort NodeComp (n.m_children.map (sort_entry color)).reverse) :=
    List.pair_sublist_insertionSort htie.1 h2
  have h4 := h3.map (fun e : sortnode_t => e.2.2.2)
  simpa [sort_entry_child] using h4

/-- The reversal at the root whose two children tie. -/
theorem sort_root_children_ties_reversed_witness :
    List.Sublist [tie_first, tie_second] tie_root.m_children ∧
    tied 0 tie_first tie_second ∧
    List.Sublist [tie_second, tie_first] (tie_root.sort_root_children 0).m_children :=
  ⟨List.Sublist.refl _,
   by simp [tied, NodeComp, sort_entry, tie_first, tie_second, UCTNode.new],
   sort_root_children_ties_reversed tie_root 0 tie_first tie_second (List.Sublist.refl _)
     (by simp [tied, NodeComp, sort_entry, tie_first, tie_second, UCTNode.new])⟩

/-- C19, on the code. The two children of `tie_root`, both without a visit and
with the same prior, tie under `NodeComp`; before the sort the first stands
before the second, after `sort_root_children` the second stands before the
first, and a second sort puts them back: the sort is not stable. -/
theorem sort_root_children_not_stable :
    tied 0 tie_first tie_second ∧
    tie_root.m_children = [tie_first, tie_second] ∧
    (tie_root.sort_root_children 0).m_children = [tie_second, tie_first] ∧
    ((tie_root.sort_root_children 0).sort_root_children 0).m_children
      = [tie_first, tie_second] ∧
    tie_first ≠ tie_second := by
  have hs : (tie_root.sort_root_children 0).m_children = [tie_second, tie_first] := by
    simp [sort_root_children_children, tie_root, stable_sort, sort_entry, tie_first,
      tie_second, UCTNode.new, NodeComp, List.insertionSort, List.orderedInsert]
  have hne : tie_first ≠ tie_second := by
    intro he
    have := congrArg UCTNode.m_move he
    simp [tie_first, tie_second, UCTNode.new] at this
  refine ⟨?_, rfl, hs, ?_, hne⟩
  · simp [tied, NodeComp, sort_entry, tie_first, tie_second, UCTNode.new]
  · rw [sort_root_children_children, hs]
    simp [stable_sort, sort_entry, tie_first, tie_second, UCTNode.new, NodeComp,
      List.insertionSort, List.orderedInsert]

/-! ## `randomize_first_proportionally` -/

/-- Without wrap-around the running sum advances by the child's visits. -/
theorem accum_step (a : Nat) (v : Int) (hv : 0 ≤ v) (h : (a : Int) + v < 2 ^ 32) :
    (((a : Int) + v) % 2 ^ 32).toNat = a + v.toNat := by
  have h0 : 0 ≤ (a : Int) + v := by omega
  rw [Int.emod_eq_of_lt h0 h]
  omega

/-- The sum of non-negative visits is non-negative. -/
theorem visits_sum_nonneg (cs : List UCTNode) (hnn : ∀ c ∈ cs, 0 ≤ c.m_visits) :
    0 ≤ (cs.map (fun c => c.m_visits)).sum :=
  List.sum_nonneg (by
    intro x hx
    obtain ⟨c, hc, rfl⟩ := List.mem_map.mp hx
    exact hnn c hc)

/-- A draw below the last running sum is below some running sum: the loop of
`randomize_first_proportionally` finds an index. -/
theorem findIdx_accum_lt (cs : List UCTNode) (a p : Nat)
    (hnn : ∀ c ∈ cs, 0 ≤ c.m_visits)
    (hwrap : (a : Int) + (cs.map (fun c => c.m_visits)).sum < 2 ^ 32)
    (hp : (p : Int) < (a : Int) + (cs.map (fun c => c.m_visits)).sum) (hap : a ≤ p) :
    (accum_vector a cs).findIdx (fun x => decide (p < x)) < (accum_vector a cs).length := by
  induction cs generalizing a with
  | nil => simp at hp; omega
  | cons c rest ih =>
    have hc : 0 ≤ c.m_visits := hnn c (by simp)
    have hrest : ∀ c ∈ rest, 0 ≤ c.m_visits := fun c hc => hnn c (by simp [hc])
    have hsum := visits_sum_nonneg rest hrest
    rw [List.map_cons, List.sum_cons] at hwrap hp
    have hstep := accum_step a c.m_visits hc (by omega)
    simp only [accum_vector, hstep, List.findIdx_cons, List.length_cons]
    by_cases hlt : p < a + c.m_visits.toNat
    · simp [hlt]
    · simp only [hlt, decide_False, cond_false, Nat.add_lt_add_iff_right]
      have hcast : ((a + c.m_visits.toNat : Nat) : Int) = (a : Int) + c.m_visits := by omega
      exact ih (a + c.m_visits.toNat) hrest (by rw [hcast]; omega) (by rw [hcast]; omega)
        (by omega)

/-- The loop stops at index `i` exactly for the draws from the running sum
before child `i` up to, and not including, the running sum at child `i`. -/
theorem findIdx_accum_eq (cs : List UCTNode) (a p i : Nat)
    (hnn : ∀ c ∈ cs, 0 ≤ c.m_visits)
    (hwrap : (a : Int) + (cs.map (fun c => c.m_visits)).sum < 2 ^ 32)
    (hap : a ≤ p) (hi : i < cs.length) :
    (accum_vector a cs).findIdx (fun x => decide (p < x)) = i ↔
      a + ((cs.take i).map (fun c => c.m_visits.toNat)).sum ≤ p ∧
      p < a + ((cs.take (i + 1)).map (fun c => c.m_visits.toNat)).sum := by
  induction cs generalizing a i with
  | nil => simp at hi
  | cons c rest ih =>
    have hc : 0 ≤ c.m_visits := hnn c (by simp)
    have hrest : ∀ c ∈ rest, 0 ≤ c.m_visits := fun c hc => hnn c (by simp [hc])
    have hsum := visits_sum_nonneg rest hrest
    rw [List.map_cons, List.sum_cons] at hwrap
    have hstep := accum_step a c.m_visits hc (by omega)
    simp only [accum_vector, hstep, List.findIdx_cons]
    have hcast : ((a + c.m_visits.toNat : Nat) : Int) = (a : Int) + c.m_visits := by omega
    cases i with
    | zero =>
      by_cases hlt : p < a + c.m_visits.toNat
      · simp [hlt, hap]
      · simp [hlt]
    | succ k =>
      have hk : k < rest.length := by simpa using hi
      by_cases hlt : p < a + c.m_visits.toNat
      · simp only [hlt, decide_True, cond_true, List.take_succ_cons, List.map_cons,
          List.sum_cons]
        constructor
        · intro h; omega
        · intro h; omega
      · simp only [hlt, decide_False, cond_false, Nat.add_right_cancel_iff,
          List.take_succ_cons, List.map_cons, List.sum_cons]
        rw [ih (a + c.m_visits.toNat) k hrest (by rw [hcast]; omega) (by omega) hk]
        constructor
        · intro h; omega
        · intro h; omega

/-- The length of the vector of running sums. -/
theorem accum_vector_length (cs : List UCTNode) (a : Nat) :
    (accum_vector a cs).length = cs.length := by
  induction cs generalizing a with
  | nil => rfl
  | cons c rest ih => simp [accum_vector, ih]

/-- The index the loop leaves is a position of the child list, or `0`. -/
theorem pick_index_lt (p : Nat) (cs : List UCTNode) (h : pick_index p (accum_vector 0 cs) ≠ 0) :
    pick_index p (accum_vector 0 cs) < cs.length := by
  unfold pick_index at h ⊢
  by_cases hlt : (accum_vector 0 cs).findIdx (fun a => decide (p < a)) < (accum_vector 0 cs).length
  · simp only [hlt, if_true]
    rwa [accum_vector_length] at hlt
  · simp [hlt] at h

/-- After `randomize_first_proportionally` with draw `p` the first child is the
child at the index the loop found. -/
theorem randomize_first_head (n : UCTNode) (p : Nat) :
    (n.randomize_first_proportionally (fun _ => p)).m_children.head?
      = n.m_children[pick_index p (accum_vector 0 n.m_children)]? := by
  unfold UCTNode.randomize_first_proportionally
  by_cases h0 : pick_index p (accum_vector 0 n.m_children) = 0
  · simp only [h0, if_true]
    exact List.head?_eq_getElem? _
  · have hlt := pick_index_lt p n.m_children h0
    simp only [h0, if_false]
    rw [List.drop_eq_getElem_cons hlt]
    simp [List.getElem?_eq_getElem hlt]

/-- Non-negative visits add up like their natural-number values. -/
theorem visits_sum_toNat (cs : List UCTNode) (hnn : ∀ c ∈ cs, 0 ≤ c.m_visits) :
    (cs.map (fun c => c.m_visits)).sum = ((cs.map (fun c => c.m_visits.toNat)).sum : Nat) := by
  induction cs with
  | nil => rfl
  | cons c rest ih =>
    have hc : 0 ≤ c.m_visits := hnn c (by simp)
    rw [List.map_cons, List.sum_cons, List.map_cons, List.sum_cons,
      ih (fun c hc => hnn c (by simp [hc]))]
    push_cast
    omega

/-- The sum over a prefix is at most the sum over the list. -/
theorem take_sum_le (l : List Nat) (i : Nat) : (l.take i).sum ≤ l.sum := by
  conv_rhs => rw [← List.take_append_drop i l, List.sum_append]
  exact Nat.le_add_right _ _

/-- For draws below the total, the index the loop leaves is `i` exactly for
the draws between the running sums around child `i`. -/
theorem pick_index_eq_iff (cs : List UCTNode) (p i : Nat)
    (hnn : ∀ c ∈ cs, 0 ≤ c.m_visits)
    (hwrap : (cs.map (fun c => c.m_visits)).sum < 2 ^ 32)
    (hp : p < Int.toNat (cs.map (fun c => c.m_visits)).sum) (hi : i < cs.length) :
    pick_index p (accum_vector 0 cs) = i ↔
      ((cs.take i).map (fun c => c.m_visits.toNat)).sum ≤ p ∧
      p < ((cs.take (i + 1)).map (fun c => c.m_visits.toNat)).sum := by
  have hfound := findIdx_accum_lt cs 0 p hnn (by simpa using hwrap) (by omega) (Nat.zero_le _)
  have heq := findIdx_accum_eq cs 0 p i hnn (by simpa using hwrap) (Nat.zero_le _) hi
  unfold pick_index
  simp only [hfound, if_true]
  simpa using heq

/-- C20. With non-negative visit counts whose total `T` stays below `2 ^ 32`
(the range of the `uint32` running sum), the first child after
`randomize_first_proportionally` is the child at the index the loop finds; the
number of draws `p` in `[0, T)` for which that index is `i` equals the visit
count of child `i`; and a child with zero visits is never selected. -/
theorem randomize_first_proportionally_counts (n : UCTNode) (i : Nat)
    (hi : i < n.m_children.length)
    (hnn : ∀ c ∈ n.m_children, 0 ≤ c.m_visits)
    (hwrap : (n.m_children.map (fun c => c.m_visits)).sum < 2 ^ 32) :
    (∀ p, (n.randomize_first_proportionally (fun _ => p)).m_children.head?
        = n.m_children[pick_index p (accum_vector 0 n.m_children)]?) ∧
    ((Finset.range (Int.toNat (n.m_children.map (fun c => c.m_visits)).sum)).filter
        (fun p => pick_index p (accum_vector 0 n.m_children) = i)).card
      = (n.m_children[i].m_visits).toNat ∧
    (n.m_children[i].m_visits = 0 →
      ∀ p < Int.toNat (n.m_children.map (fun c => c.m_visits)).sum,
        pick_index p (accum_vector 0 n.m_children) ≠ i) := by
  have htake : ((n.m_children.take (i + 1)).map (fun c => c.m_visits.toNat)).sum
      = ((n.m_children.take i).map (fun c => c.m_visits.toNat)).sum
        + (n.m_children[i].m_visits).toNat := by
    rw [List.take_succ, List.getElem?_eq_getElem hi, List.map_append, List.sum_append]
    simp
  have htot : ((n.m_children.take (i + 1)).map (fun c => c.m_visits.toNat)).sum
      ≤ Int.toNat (n.m_children.map (fun c => c.m_visits)).sum := by
    rw [visits_sum_toNat n.m_children hnn, Int.toNat_ofNat, List.map_take]
    exact take_sum_le _ _
  refine ⟨fun p => randomize_first_head n p, ?_, ?_⟩
  · have hset : (Finset.range (Int.toNat (n.m_children.map (fun c => c.m_visits)).sum)).filter
          (fun p => pick_index p (accum_vector 0 n.m_children) = i)
        = Finset.Ico (((n.m_children.take i).map (fun c => c.m_visits.toNat)).sum)
            (((n.m_children.take (i + 1)).map (fun c => c.m_visits.toNat)).sum) := by
      ext p
      simp only [Finset.mem_filter, Finset.mem_range, Finset.mem_Ico]
      constructor
      · rintro ⟨hp, hpick⟩
        exact (pick_index_eq_iff n.m_children p i hnn hwrap hp hi).mp hpick
      · rintro ⟨h1, h2⟩
        have hp : p < Int.toNat (n.m_children.map (fun c => c.m_visits)).sum := by omega
        exact ⟨hp, (pick_index_eq_iff n.m_children p i hnn hwrap hp hi).mpr ⟨h1, h2⟩⟩
    rw [hset, Nat.card_Ico, htake]
    omega
  · intro hzero p hp hpick
    have h := (pick_index_eq_iff n.m_children p i hnn hwrap hp hi).mp hpick
    rw [htake, hzero] at h
    simp at h
    omega

/-- C20 at the root with visits `10, 30, 60`: of the `100` draws, `30` select
the second child. -/
theorem randomize_first_proportionally_counts_witness :
    ((Finset.range 100).filter
        (fun p => pick_index p (accum_vector 0 visits_root.m_children) = 1)).card = 30 :=
  (randomize_first_proportionally_counts visits_root 1 (by decide)
    (by simp [visits_root, visited_child]) (by simp [visits_root, visited_child])).2.1

/-! ## `play_simulation` -/

/-- The empty path leads to the node itself. -/
theorem descend_nil (n : UCTNode) : n.descend [] = some n := rfl

/-- One step of a path. -/
theorem descend_cons (n : UCTNode) (i : Nat) (rest : List Nat) :
    n.descend (i :: rest) = (n.m_children.reverse[i]?).bind (fun child => child.descend rest) := by
  rw [UCTNode.descend]
  cases n.m_children.reverse[i]? <;> rfl

/-- A tree keeps what it has. -/
theorem keeps_refl {α : Type} (f : UCTNode → α) (a : UCTNode) : keeps f a a :=
  fun _ n0 h => ⟨n0, h, rfl⟩

/-- Keeping is transitive. -/
theorem keeps_trans {α : Type} (f : UCTNode → α) (a b c : UCTNode)
    (hab : keeps f a b) (hbc : keeps f b c) : keeps f a c := by
  intro path n0 h
  obtain ⟨n1, h1, e1⟩ := hab path n0 h
  obtain ⟨n2, h2, e2⟩ := hbc path n1 h1
  exact ⟨n2, h2, e2.trans e1⟩

/-- Children linked before the old ones leave every old node in place. -/
theorem keeps_of_append {α : Type} (f : UCTNode → α) (a b : UCTNode) (new : List UCTNode)
    (hf : f b = f a) (hc : b.m_children = new ++ a.m_children) : keeps f a b := by
  intro path n0 h
  cases path with
  | nil =>
    rw [descend_nil] at h
    cases h
    exact ⟨b, rfl, hf⟩
  | cons i rest =>
    rw [descend_cons] at h ⊢
    cases hi : a.m_children.reverse[i]? with
    | none => rw [hi] at h; simp at h
    | some child =>
      have hlt : i < a.m_children.reverse.length := by
        by_contra hge
        rw [List.getElem?_eq_none (by omega)] at hi
        cases hi
      rw [hc, List.reverse_append, List.getElem?_append_left hlt, hi]
      rw [hi] at h
      exact ⟨n0, h, rfl⟩

/-- A change of the node's own members leaves every node in place. -/
theorem keeps_of_children_eq {α : Type} (f : UCTNode → α) (a b : UCTNode)
    (hf : f b = f a) (hc : b.m_children = a.m_children) : keeps f a b :=
  keeps_of_append f a b [] hf (by simpa using hc)

/-- The child at a position from the end, after one child was replaced. -/
theorem getElem?_reverse_set (l : List UCTNode) (index i : Nat) (c : UCTNode)
    (hindex : index < l.length) :
    (l.set index c).reverse[i]?
      = if i = l.length - 1 - index then some c else l.reverse[i]? := by
  by_cases hi : i < l.length
  · rw [List.getElem?_reverse (by simpa using hi), List.getElem?_reverse hi, List.length_set,
      List.getElem?_set]
    by_cases he : i = l.length - 1 - index
    · have h1 : index = l.length - 1 - i := by omega
      rw [if_pos h1, if_pos hindex, if_pos he]
    · have h1 : ¬ index = l.length - 1 - i := by omega
      rw [if_neg h1, if_neg he]
  · have h1 : (l.set index c).reverse.length ≤ i := by
      rw [List.length_reverse, List.length_set]; omega
    have h2 : l.reverse.length ≤ i := by
      rw [List.length_reverse]; omega
    have he : ¬ i = l.length - 1 - index := by omega
    rw [List.getElem?_eq_none h1, List.getElem?_eq_none h2, if_neg he]

/-- The position from the end of the child at position `index`. -/
theorem getElem?_reverse_index (l : List UCTNode) (index : Nat) (c : UCTNode)
    (h : l[index]? = some c) : l.reverse[l.length - 1 - index]? = some c := by
  have hindex : index < l.length := by
    by_contra hge
    rw [List.getElem?_eq_none (by omega)] at h
    cases h
  rw [List.getElem?_reverse (by omega)]
  have : l.length - 1 - (l.length - 1 - index) = index := by omega
  rw [this, h]

/-- Replacing one child by a tree that keeps it leaves every node in place. -/
theorem keeps_of_set {α : Type} (f : UCTNode → α) (a b c c' : UCTNode) (index : Nat)
    (hf : f b = f a) (hidx : a.m_children[index]? = some c) (hcc : keeps f c c')
    (hc : b.m_children = a.m_children.set index c') : keeps f a b := by
  have hindex : index < a.m_children.length := by
    by_contra hge
    rw [List.getElem?_eq_none (by omega)] at hidx
    cases hidx
  intro path n0 h
  cases path with
  | nil =>
    rw [descend_nil] at h
    cases h
    exact ⟨b, rfl, hf⟩
  | cons i rest =>
    rw [descend_cons] at h ⊢
    rw [hc, getElem?_reverse_set _ _ _ _ hindex]
    by_cases he : i = a.m_children.length - 1 - index
    · rw [he, getElem?_reverse_index _ _ _ hidx] at h
      simp only [he, if_true, Option.some_bind] at h ⊢
      exact hcc rest n0 h
    · simp only [he, if_false]
      exact ⟨n0, h, rfl⟩

/-- A change of the node's own members brings no new node. -/
theorem new_loss_zero_of_children_eq (a b : UCTNode) (hc : b.m_children = a.m_children) :
    new_loss_zero a b := by
  intro path n1 h hnone
  cases path with
  | nil => rw [descend_nil] at hnone; cases hnone
  | cons i rest =>
    rw [descend_cons] at h hnone
    rw [hc, hnone] at h
    cases h

/-- Replacing one child by a tree whose new nodes have counter `0` gives a tree
whose new nodes have counter `0`. -/
theorem new_loss_zero_of_set (a b c c' : UCTNode) (index : Nat)
    (hidx : a.m_children[index]? = some c) (hcc : new_loss_zero c c')
    (hc : b.m_children = a.m_children.set index c') : new_loss_zero a b := by
  have hindex : index < a.m_children.length := by
    by_contra hge
    rw [List.getElem?_eq_none (by omega)] at hidx
    cases hidx
  intro path n1 h hnone
  cases path with
  | nil => rw [descend_nil] at hnone; cases hnone
  | cons i rest =>
    rw [descend_cons] at h hnone
    rw [hc, getElem?_reverse_set _ _ _ _ hindex] at h
    by_cases he : i = a.m_children.length - 1 - index
    · rw [he, getElem?_reverse_index _ _ _ hidx] at hnone
      simp only [he, if_true, Option.some_bind] at h hnone
      exact hcc rest n1 h hnone
    · simp only [he, if_false] at h
      rw [hnone] at h
      cases h

/-- Fresh leaves linked before the old children are the only new nodes. -/
theorem new_loss_zero_of_append (a b : UCTNode) (new : List UCTNode)
    (hnew : ∀ c ∈ new, c.m_virtual_loss = 0 ∧ c.m_children = [])
    (hc : b.m_children = new ++ a.m_children) : new_loss_zero a b := by
  intro path n1 h hnone
  cases path with
  | nil => rw [descend_nil] at hnone; cases hnone
  | cons i rest =>
    rw [descend_cons] at h hnone
    rw [hc, List.reverse_append] at h
    by_cases hlt : i < a.m_children.reverse.length
    · rw [List.getElem?_append_left hlt] at h
      rw [hnone] at h
      cases h
    · rw [List.getElem?_append_right (by omega)] at h
      cases hi : new.reverse[i - a.m_children.reverse.length]? with
      | none => rw [hi] at h; cases h
      | some child =>
        rw [hi] at h
        simp only [Option.some_bind] at h
        have hmem : child ∈ new := by
          have := List.getElem?_mem hi
          simpa using this
        obtain ⟨hv, hch⟩ := hnew child hmem
        cases rest with
        | nil =>
          rw [descend_nil] at h
          cases h
          exact hv
        | cons j rest' =>
          rw [descend_cons, hch] at h
          simp at h

/-- What `link_nodelist` leaves of the node: the counters as they were and
fresh leaves linked before the old children. -/
theorem link_nodelist_frame (n : UCTNode) (nodecount : Int) (nodelist : List scored_node)
    (init_eval : ℚ) :
    (n.link_nodelist nodecount nodelist init_eval).1.m_virtual_loss = n.m_virtual_loss ∧
    (n.link_nodelist nodecount nodelist init_eval).1.m_visits = n.m_visits ∧
    (n.link_nodelist nodecount nodelist init_eval).1.m_blackevals = n.m_blackevals ∧
    ∃ new : List UCTNode,
      (n.link_nodelist nodecount nodelist init_eval).1.m_children = new ++ n.m_children ∧
      ∀ c ∈ new, c.m_virtual_loss = 0 ∧ c.m_children = [] := by
  by_cases hne : nodelist = []
  · subst hne
    refine ⟨rfl, rfl, rfl, [], ?_, ?_⟩
    · simp [UCTNode.link_nodelist]
    · intro c hc; cases hc
  · rw [link_nodelist_spec n nodecount nodelist init_eval hne]
    refine ⟨rfl, rfl, rfl, _, rfl, ?_⟩
    intro c hc
    rw [List.mem_reverse, List.mem_map] at hc
    obtain ⟨e, _, rfl⟩ := hc
    exact ⟨rfl, rfl⟩

/-- What the block `if (!node->has_children())` leaves of the node: the
counters as they were, fresh leaves linked before the old children, and the
node itself when the result is invalid. -/
theorem expand_leaf_frame {TT : Type} (env : SearchEnv TT) (m_nodes : Int)
    (currstate : GameState) (node : UCTNode) :
    (expand_leaf env m_nodes currstate node).2.1.m_virtual_loss = node.m_virtual_loss ∧
    (expand_leaf env m_nodes currstate node).2.1.m_visits = node.m_visits ∧
    (expand_leaf env m_nodes currstate node).2.1.m_blackevals = node.m_blackevals ∧
    (∃ new : List UCTNode,
      (expand_leaf env m_nodes currstate node).2.1.m_children = new ++ node.m_children ∧
      ∀ c ∈ new, c.m_virtual_loss = 0 ∧ c.m_children = []) ∧
    ((expand_leaf env m_nodes currstate node).1 = none →
      (expand_leaf env m_nodes currstate node).2.1 = node) := by
  have hsame : ∃ new : List UCTNode, node.m_children = new ++ node.m_children ∧
      ∀ c ∈ new, c.m_virtual_loss = 0 ∧ c.m_children = [] :=
    ⟨[], rfl, fun c hc => by cases hc⟩
  by_cases h1 : node.m_has_children = true
  · have he : expand_leaf env m_nodes currstate node = (none, node, m_nodes) := by
      simp [expand_leaf, h1]
    rw [he]
    exact ⟨rfl, rfl, rfl, hsame, fun _ => rfl⟩
  · have h1f : node.m_has_children = false := by simpa using h1
    by_cases h2 : currstate.m_passes ≥ 2
    · have he : expand_leaf env m_nodes currstate node
          = (SearchResult.from_score currstate.final_score, node, m_nodes) := by
        simp [expand_leaf, h1f, h2]
      rw [he]
      exact ⟨rfl, rfl, rfl, hsame, fun _ => rfl⟩
    · by_cases h3 : m_nodes < env.MAX_TREE_SIZE
      · by_cases h4 : (node.create_children m_nodes currstate
            (env.get_scored_moves currstate)).success = true
        · have he : expand_leaf env m_nodes currstate node
              = (SearchResult.from_eval
                  ((node.create_children m_nodes currstate
                    (env.get_scored_moves currstate)).eval.getD 0),
                 (node.create_children m_nodes currstate (env.get_scored_moves currstate)).node,
                 (node.create_children m_nodes currstate
                    (env.get_scored_moves currstate)).nodecount) := by
            simp [expand_leaf, h1f, h2, h3, h4]
          rw [he]
          obtain ⟨_, _, hnode, _⟩ := create_children_success node m_nodes currstate
            (env.get_scored_moves currstate) h4
          simp only []
          rw [hnode]
          obtain ⟨e1, e2, e3, new, e4, e5⟩ :=
            link_nodelist_frame ({ node with m_is_expanding := true } : UCTNode) m_nodes
              ((env.get_scored_moves currstate).1.map
                (fun node => if node.2 = PASS then (0, node.2) else node))
              (if currstate.board.m_tomove = square_t.WHITE.toInt
                then 1 - (env.get_scored_moves currstate).2
                else (env.get_scored_moves currstate).2)
          refine ⟨e1, e2, e3, ⟨new, e4, e5⟩, ?_⟩
          intro h
          simp [SearchResult.from_eval] at h
        · have hfail : node.create_children m_nodes currstate (env.get_scored_moves currstate)
              = ⟨false, node, m_nodes, none⟩ := by
            unfold UCTNode.create_children at h4 ⊢
            by_cases h5 : node.m_is_expanding = true
            · simp [h1f, h2, h5]
            · simp [h1f, h2, h5] at h4
          have he : expand_leaf env m_nodes currstate node = (none, node, m_nodes) := by
            simp [expand_leaf, h1f, h2, h3, hfail]
          rw [he]
          exact ⟨rfl, rfl, rfl, hsame, fun _ => rfl⟩
      · have he : expand_leaf env m_nodes currstate node
            = (SearchResult.from_eval
                (node.eval_state currstate (env.get_scored_moves currstate)), node, m_nodes) := by
          simp [expand_leaf, h1f, h2, h3]
        rw [he]
        exact ⟨rfl, rfl, rfl, hsame, fun _ => rfl⟩

/-- A child is smaller than its parent. -/
theorem sizeOf_child_lt (n : UCTNode) (index : Nat) (c : UCTNode)
    (h : n.m_children[index]? = some c) : sizeOf c < sizeOf n := by
  have hmem : c ∈ n.m_children := List.getElem?_mem h
  have h1 := List.sizeOf_lt_of_mem hmem
  cases n
  simp only [UCTNode.mk.sizeOf_spec] at *
  omega


/-- What the end of `play_simulation` leaves: the result as it was, the virtual
loss undone, the children as they were, the statistics as they were when the
result is invalid. -/
theorem back_up_frame {TT : Type} (cfg : Config) (env : SearchEnv TT) (key : GameState)
    (s : Simulation TT) :
    (back_up cfg env key s).result = s.result ∧
    (back_up cfg env key s).node.m_virtual_loss
      = s.node.m_virtual_loss - cfg.VIRTUAL_LOSS_COUNT ∧
    (back_up cfg env key s).node.m_children = s.node.m_children ∧
    (s.result = none → (back_up cfg env key s).node.stats = s.node.stats) := by
  unfold back_up
  cases hr : s.result with
  | none => exact ⟨rfl, rfl, rfl, fun _ => rfl⟩
  | some eval =>
    refine ⟨rfl, rfl, rfl, ?_⟩
    intro h
    cases h

/-- The members `TTable::sync` does not write, when it writes at most the
visits and the value sum of the node. -/
theorem sync_frame {TT : Type} (env : SearchEnv TT)
    (hsync : ∀ table key n, env.sync table key n
      = { n with m_visits := (env.sync table key n).m_visits,
                 m_blackevals := (env.sync table key n).m_blackevals })
    (table : TT) (key : GameState) (n : UCTNode) :
    (env.sync table key n).m_children = n.m_children ∧
    (env.sync table key n).m_virtual_loss = n.m_virtual_loss := by
  constructor
  · rw [hsync]
  · rw [hsync]

/-- An invalid result is not valid. -/
theorem not_valid_iff (r : SearchResult) : (!SearchResult.valid r) = true ↔ r = none := by
  cases r <;> simp [SearchResult.valid]


/-- The end of a call that did not descend: the node carries the virtual loss of
the call and, possibly, fresh leaves before its old children. -/
theorem back_up_of_append {TT : Type} (cfg : Config) (env : SearchEnv TT) (key : GameState)
    (node : UCTNode) (new : List UCTNode) (s : Simulation TT)
    (hv : s.node.m_virtual_loss = node.m_virtual_loss + cfg.VIRTUAL_LOSS_COUNT)
    (hc : s.node.m_children = new ++ node.m_children)
    (hnew : ∀ c ∈ new, c.m_virtual_loss = 0 ∧ c.m_children = []) :
    keeps UCTNode.m_virtual_loss node (back_up cfg env key s).node ∧
    new_loss_zero node (back_up cfg env key s).node ∧
    (s.node.stats = node.stats → s.result = none →
      keeps UCTNode.stats node (back_up cfg env key s).node) := by
  obtain ⟨_, bv, bc, bs⟩ := back_up_frame cfg env key s
  refine ⟨?_, ?_, ?_⟩
  · exact keeps_of_append _ node _ new (by rw [bv, hv]; omega) (by rw [bc, hc])
  · exact new_loss_zero_of_append node _ new hnew (by rw [bc, hc])
  · intro hst hr
    exact keeps_of_append _ node _ new (by rw [bs hr, hst]) (by rw [bc, hc])

/-- The end of a call that descended into the child at `index`, or invalidated
it: the node carries the virtual loss of the call and the child is replaced. -/
theorem back_up_of_set {TT : Type} (cfg : Config) (env : SearchEnv TT) (key : GameState)
    (node next c' : UCTNode) (index : Nat) (s : Simulation TT)
    (hv : s.node.m_virtual_loss = node.m_virtual_loss + cfg.VIRTUAL_LOSS_COUNT)
    (hidx : node.m_children[index]? = some next)
    (hc : s.node.m_children = node.m_children.set index c')
    (h1 : keeps UCTNode.m_virtual_loss next c') (h2 : new_loss_zero next c') :
    keeps UCTNode.m_virtual_loss node (back_up cfg env key s).node ∧
    new_loss_zero node (back_up cfg env key s).node ∧
    (s.node.stats = node.stats → s.result = none → keeps UCTNode.stats next c' →
      keeps UCTNode.stats node (back_up cfg env key s).node) := by
  obtain ⟨_, bv, bc, bs⟩ := back_up_frame cfg env key s
  refine ⟨?_, ?_, ?_⟩
  · exact keeps_of_set _ node _ next c' index (by rw [bv, hv]; omega) hidx h1 (by rw [bc, hc])
  · exact new_loss_zero_of_set node _ next c' index hidx h2 (by rw [bc, hc])
  · intro hst hr h3
    exact keeps_of_set _ node _ next c' index (by rw [bs hr, hst]) hidx h3 (by rw [bc, hc])

/-- With enough fuel `play_simulation` returns; every node of the tree keeps
its virtual loss counter, every new node has the counter `0`, and when the
transposition table writes nothing to the node and the result is invalid every
node keeps its statistics. -/
theorem play_simulation_spec {TT : Type} (cfg : Config) (env : SearchEnv TT)
    (hsync : ∀ table key n, env.sync table key n
      = { n with m_visits := (env.sync table key n).m_visits,
                 m_blackevals := (env.sync table key n).m_blackevals }) :
    ∀ (k : Nat) (node : UCTNode), sizeOf node ≤ k → ∀ fuel, k ≤ fuel →
      ∀ (table : TT) (m_nodes : Int) (currstate : GameState),
        ∃ out, play_simulation cfg env fuel table m_nodes currstate node = some out ∧
          keeps UCTNode.m_virtual_loss node out.node ∧
          new_loss_zero node out.node ∧
          ((∀ table key n, env.sync table key n = n) → out.result = none →
            keeps UCTNode.stats node out.node) := by
  intro k
  induction k with
  | zero =>
    intro node h
    exfalso
    cases node
    simp only [UCTNode.mk.sizeOf_spec] at h
    omega
  | succ k ih =>
    intro node hsize fuel hfuel table m_nodes currstate
    obtain ⟨f, rfl⟩ : ∃ f, fuel = f + 1 := ⟨fuel - 1, by omega⟩
    obtain ⟨sc, sv⟩ := sync_frame env hsync table currstate node
    obtain ⟨ev, evis, ebe, ⟨new, enew, hnew⟩, enone⟩ :=
      expand_leaf_frame env m_nodes currstate ((env.sync table currstate node).virtual_loss cfg)
    have hv2 : ((env.sync table currstate node).virtual_loss cfg).m_virtual_loss
        = node.m_virtual_loss + cfg.VIRTUAL_LOSS_COUNT := by
      simp only [UCTNode.virtual_loss, sv]
    have hc2 : ((env.sync table currstate node).virtual_loss cfg).m_children
        = node.m_children := by
      simp only [UCTNode.virtual_loss, sc]
    rw [play_simulation]
    simp only []
    generalize hE : expand_leaf env m_nodes currstate
      ((env.sync table currstate node).virtual_loss cfg) = E at *
    obtain ⟨r, n', m'⟩ := E
    simp only [] at *
    have hv : n'.m_virtual_loss = node.m_virtual_loss + cfg.VIRTUAL_LOSS_COUNT := by
      rw [ev, hv2]
    have hst : (∀ table key n, env.sync table key n = n) → n'.stats = node.stats := by
      intro hid
      simp only [UCTNode.stats, evis, ebe, UCTNode.virtual_loss, hid]
    -- the calls that do not descend
    have hleaf : ∀ st : GameState,
        ∃ out, Option.map (back_up cfg env currstate)
            (some { result := r, node := n', currstate := st, m_nodes := m', table := table })
            = some out ∧
          keeps UCTNode.m_virtual_loss node out.node ∧
          new_loss_zero node out.node ∧
          ((∀ table key n, env.sync table key n = n) → out.result = none →
            keeps UCTNode.stats node out.node) := by
      intro st
      obtain ⟨a1, a2, a3⟩ := back_up_of_append cfg env currstate node new
        { result := r, node := n', currstate := st, m_nodes := m', table := table }
        hv (by rw [enew, hc2]) hnew
      refine ⟨_, rfl, a1, a2, ?_⟩
      intro hid hr
      rw [(back_up_frame cfg env currstate _).1] at hr
      exact a3 (hst hid) hr
    by_cases hcond : (n'.m_has_children && !SearchResult.valid r) = true
    · rw [if_pos hcond]
      have hr : r = none := by
        rw [Bool.and_eq_true] at hcond
        exact (not_valid_iff r).mp hcond.2
      have hn' : n'.m_children = node.m_children := by
        rw [enone hr, hc2]
      -- the calls that descend into `next`, with any state, and replace it
      have hrec : ∀ (index : Nat) (next : UCTNode) (st : GameState),
          n'.m_children[index]? = some next →
          ∃ out, Option.map (back_up cfg env currstate)
              (Option.map
                (fun s : Simulation TT =>
                  ({ result := s.result,
                     node := { n' with m_children := n'.m_children.set index s.node },
                     currstate := s.currstate, m_nodes := s.m_nodes, table := s.table }
                    : Simulation TT))
                (play_simulation cfg env f table m' st next))
              = some out ∧
            keeps UCTNode.m_virtual_loss node out.node ∧
            new_loss_zero node out.node ∧
            ((∀ table key n, env.sync table key n = n) → out.result = none →
              keeps UCTNode.stats node out.node) := by
        intro index next st hidx
        have hidx' : node.m_children[index]? = some next := by rw [← hn']; exact hidx
        have hlt := sizeOf_child_lt node index next hidx'
        obtain ⟨out', ho, b1, b2, b3⟩ := ih next (by omega) f (by omega) table m' st
        rw [ho]
        obtain ⟨a1, a2, a3⟩ := back_up_of_set cfg env currstate node next out'.node index
          { result := out'.result,
            node := { n' with m_children := n'.m_children.set index out'.node },
            currstate := out'.currstate, m_nodes := out'.m_nodes, table := out'.table }
          hv hidx' (by rw [← hn']) b1 b2
        refine ⟨_, rfl, a1, a2, ?_⟩
        intro hid hro
        rw [(back_up_frame cfg env currstate _).1] at hro
        exact a3 (hst hid) hro (b3 hid hro)
      cases hsel : n'.uct_select_child cfg currstate.board.m_tomove with
      | none => exact hleaf currstate
      | some index =>
        simp only []
        cases hidx : n'.m_children[index]? with
        | none => exact hleaf currstate
        | some next =>
          simp only []
          by_cases hmove : next.m_move ≠ PASS
          · rw [if_pos hmove]
            by_cases hko : (!env.superko (env.play_move currstate next.m_move)) = true
            · rw [if_pos hko]
              exact hrec index next _ hidx
            · rw [if_neg hko]
              have hidx' : node.m_children[index]? = some next := by rw [← hn']; exact hidx
              obtain ⟨a1, a2, a3⟩ := back_up_of_set cfg env currstate node next
                next.invalidate index
                { result := r,
                  node := { n' with m_children := n'.m_children.set index next.invalidate },
                  currstate := env.play_move currstate next.m_move, m_nodes := m',
                  table := table }
                hv hidx' (by rw [← hn'])
                (keeps_of_children_eq _ next next.invalidate rfl rfl)
                (new_loss_zero_of_children_eq next next.invalidate rfl)
              refine ⟨_, rfl, a1, a2, ?_⟩
              intro hid hro
              exact a3 (hst hid) hr (keeps_of_children_eq _ next next.invalidate rfl rfl)
          · rw [if_neg hmove]
            exact hrec index next _ hidx
    · rw [if_neg hcond]
      exact hleaf currstate

/-- C17. In sequential execution, with a transposition table that writes at
most the visits and the value sum of the node, `play_simulation` returns (given
enough fuel for its nested calls), with a valid or an invalid result, and then
every node of the tree is still there with the virtual loss counter it had
before the call, and every node the call created has the counter `0`; so when
all counters were `0` before the call, all counters are `0` after it. -/
theorem play_simulation_virtual_loss_balanced {TT : Type} (cfg : Config) (env : SearchEnv TT)
    (hsync : ∀ table key n, env.sync table key n
      = { n with m_visits := (env.sync table key n).m_visits,
                 m_blackevals := (env.sync table key n).m_blackevals })
    (table : TT) (m_nodes : Int) (currstate : GameState) (node : UCTNode) :
    ∃ fuel0, ∀ fuel, fuel0 ≤ fuel →
      ∃ out, play_simulation cfg env fuel table m_nodes currstate node = some out ∧
        (∀ (path : List Nat) (n0 : UCTNode), node.descend path = some n0 →
          ∃ n1, out.node.descend path = some n1 ∧ n1.m_virtual_loss = n0.m_virtual_loss) ∧
        (∀ (path : List Nat) (n1 : UCTNode), out.node.descend path = some n1 →
          node.descend path = none → n1.m_virtual_loss = 0) ∧
        ((∀ (path : List Nat) (n0 : UCTNode), node.descend path = some n0 →
            n0.m_virtual_loss = 0) →
          ∀ (path : List Nat) (n1 : UCTNode), out.node.descend path = some n1 →
            n1.m_virtual_loss = 0) := by
  refine ⟨sizeOf node, ?_⟩
  intro fuel hfuel
  obtain ⟨out, ho, h1, h2, _⟩ :=
    play_simulation_spec cfg env hsync (sizeOf node) node (le_refl _) fuel hfuel
      table m_nodes currstate
  refine ⟨out, ho, h1, h2, ?_⟩
  intro hzero path n1 hp
  cases hold : node.descend path with
  | none => exact h2 path n1 hp hold
  | some n0 =>
    obtain ⟨n1', hp', e⟩ := h1 path n0 hold
    rw [hp] at hp'
    cases hp'
    rw [e]
    exact hzero path n0 hold

/-- C17 at the fresh root: the first call expands it with the two moves of the
oracle and visits it once; all virtual loss counters are `0` afterwards. -/
theorem play_simulation_virtual_loss_balanced_witness :
    ((play_simulation example_cfg example_env 1 () 0 start_state fresh_node).map
        (fun s => (s.result, s.node.stats, s.node.m_virtual_loss))
      = some (some (1 / 2), (1, 1 / 2), 0) ∧
     (play_simulation example_cfg example_env 1 () 0 start_state fresh_node).map
        (fun s => s.node.m_children.map (fun c => (c.m_move, c.m_virtual_loss)))
      = some [(61, 0), (60, 0)]) ∧
    (∃ fuel0, ∀ fuel, fuel0 ≤ fuel →
      ∃ out, play_simulation example_cfg example_env fuel () 0 start_state fresh_node
          = some out ∧
        (∀ (path : List Nat) (n0 : UCTNode), fresh_node.descend path = some n0 →
          ∃ n1, out.node.descend path = some n1 ∧ n1.m_virtual_loss = n0.m_virtual_loss) ∧
        (∀ (path : List Nat) (n1 : UCTNode), out.node.descend path = some n1 →
          fresh_node.descend path = none → n1.m_virtual_loss = 0) ∧
        ((∀ (path : List Nat) (n0 : UCTNode), fresh_node.descend path = some n0 →
            n0.m_virtual_loss = 0) →
          ∀ (path : List Nat) (n1 : UCTNode), out.node.descend path = some n1 →
            n1.m_virtual_loss = 0)) :=
  ⟨⟨by decide!, by decide!⟩,
   play_simulation_virtual_loss_balanced example_cfg example_env
     (fun _ _ n => by cases n; rfl) () 0 start_state fresh_node⟩

/-! ## `dirichlet_noise` -/

/-- The accumulation of the sample is its sum. -/
theorem foldl_add_eq_sum (l : List ℚ) (a : ℚ) :
    l.foldl (fun s v => s + v) a = a + l.sum := by
  induction l generalizing a with
  | nil => simp
  | cons x l ih => rw [List.foldl_cons, ih, List.sum_cons]; ring

/-- The last loop of `dirichlet_noise` at position `i`. -/
theorem noise_children_getElem? (epsilon : ℚ) (cs : List UCTNode) (etas : List ℚ)
    (hlen : cs.length ≤ etas.length) (i : Nat) (c : UCTNode) (eta : ℚ)
    (hc : cs[i]? = some c) (he : etas[i]? = some eta) :
    (noise_children epsilon cs etas)[i]?
      = some { c with m_score := c.m_score * (1 - epsilon) + epsilon * eta } := by
  induction cs generalizing etas i with
  | nil => simp at hc
  | cons child rest ih =>
    cases etas with
    | nil => simp at he
    | cons e etas =>
      cases i with
      | zero =>
        simp only [List.getElem?_cons_zero, Option.some.injEq] at hc he
        subst hc; subst he
        simp [noise_children]
      | succ k =>
        simp only [List.getElem?_cons_succ] at hc he
        simp only [noise_children, List.getElem?_cons_succ]
        exact ih etas (by simpa using hlen) k hc he

/-- The last loop of `dirichlet_noise` keeps the number of children. -/
theorem noise_children_length (epsilon : ℚ) (cs : List UCTNode) (etas : List ℚ) :
    (noise_children epsilon cs etas).length = cs.length := by
  induction cs generalizing etas with
  | nil => simp [noise_children]
  | cons child rest ih =>
    cases etas with
    | nil => simp [noise_children]
    | cons e etas => simp [noise_children, ih]

/-- With `epsilon = 0` the last loop of `dirichlet_noise` changes no child. -/
theorem noise_children_zero (cs : List UCTNode) (etas : List ℚ) :
    noise_children 0 cs etas = cs := by
  induction cs generalizing etas with
  | nil => simp [noise_children]
  | cons child rest ih =>
    cases etas with
    | nil => simp [noise_children]
    | cons e etas =>
      simp only [noise_children, ih]
      cases child
      simp

/-- The children after `dirichlet_noise` when the sample's sum is not below the
float minimum. -/
theorem dirichlet_noise_children (n : UCTNode) (epsilon alpha : ℚ) (gamma : Nat → ℚ)
    (hsum : FLT_MIN ≤ ((List.range n.m_children.length).map gamma).sum) :
    (n.dirichlet_noise epsilon alpha gamma).m_children
      = noise_children epsilon n.m_children
          (((List.range n.m_children.length).map gamma).map
            (fun v => v / ((List.range n.m_children.length).map gamma).sum)) := by
  unfold UCTNode.dirichlet_noise
  simp only [foldl_add_eq_sum, zero_add]
  rw [if_neg (not_lt.mpr hsum)]

/-- C21. When the sum of the gamma sample is at least the float minimum,
`dirichlet_noise(epsilon, alpha)` keeps the number of children and sets the
prior of the `i`-th child to `(1 - epsilon) * prior_i + epsilon * g_i / sum(g)`,
leaving its other members as they were; with `epsilon = 0` the node and its
children are unchanged. -/
theorem dirichlet_noise_formula (n : UCTNode) (epsilon alpha : ℚ) (gamma : Nat → ℚ)
    (hsum : FLT_MIN ≤ ((List.range n.m_children.length).map gamma).sum) :
    (n.dirichlet_noise epsilon alpha gamma).m_children.length = n.m_children.length ∧
    (∀ (i : Nat) (c : UCTNode), n.m_children[i]? = some c →
      (n.dirichlet_noise epsilon alpha gamma).m_children[i]?
        = some { c with m_score := (1 - epsilon) * c.m_score
            + epsilon * (gamma i / ((List.range n.m_children.length).map gamma).sum) }) ∧
    n.dirichlet_noise 0 alpha gamma = n := by
  refine ⟨?_, ?_, ?_⟩
  · rw [dirichlet_noise_children n epsilon alpha gamma hsum, noise_children_length]
  · intro i c hc
    have hi : i < n.m_children.length := by
      by_contra hge
      rw [List.getElem?_eq_none (by omega)] at hc
      cases hc
    rw [dirichlet_noise_children n epsilon alpha gamma hsum,
      noise_children_getElem? epsilon n.m_children _ (by simp) i c
        (gamma i / ((List.range n.m_children.length).map gamma).sum) hc
        (by simp [List.getElem?_map, List.getElem?_range hi])]
    congr 2
    ring
  · unfold UCTNode.dirichlet_noise
    simp only [noise_children_zero]
    split
    · rfl
    · cases n
      rfl


/-- With `epsilon = 1` the priors after the last loop are the entries of the
vector. -/
theorem noise_children_one_scores (cs : List UCTNode) (etas : List ℚ)
    (hlen : cs.length = etas.length) :
    (noise_children 1 cs etas).map (fun c => c.m_score) = etas := by
  induction cs generalizing etas with
  | nil =>
    cases etas with
    | nil => rfl
    | cons e etas => simp at hlen
  | cons child rest ih =>
    cases etas with
    | nil => simp at hlen
    | cons e etas =>
      simp only [noise_children, List.map_cons, ih etas (by simpa using hlen)]
      simp

/-- The sum of a list divided entry by entry. -/
theorem sum_map_div (l : List ℚ) (s : ℚ) : (l.map (fun v => v / s)).sum = l.sum / s := by
  induction l with
  | nil => simp
  | cons x l ih => rw [List.map_cons, List.sum_cons, ih, List.sum_cons]; ring

/-- The float minimum is positive. -/
theorem FLT_MIN_pos : 0 < FLT_MIN := by
  unfold FLT_MIN
  positivity

/-- C22. When the priors of the children sum to `1` and the sum of the gamma
sample is at least the float minimum (so there is at least one child), the
priors after `dirichlet_noise` with `epsilon = 1` are the sample values divided
by their sum, in list order, and their sum is the sum of the input priors,
`1`. -/
theorem dirichlet_noise_epsilon_one (n : UCTNode) (alpha : ℚ) (gamma : Nat → ℚ)
    (hprior : (n.m_children.map (fun c => c.m_score)).sum = 1)
    (hsum : FLT_MIN ≤ ((List.range n.m_children.length).map gamma).sum) :
    (n.dirichlet_noise 1 alpha gamma).m_children.map (fun c => c.m_score)
      = (List.range n.m_children.length).map
          (fun i => gamma i / ((List.range n.m_children.length).map gamma).sum) ∧
    ((n.dirichlet_noise 1 alpha gamma).m_children.map (fun c => c.m_score)).sum
      = (n.m_children.map (fun c => c.m_score)).sum ∧
    ((n.dirichlet_noise 1 alpha gamma).m_children.map (fun c => c.m_score)).sum = 1 := by
  have hpos : ((List.range n.m_children.length).map gamma).sum ≠ 0 :=
    ne_of_gt (lt_of_lt_of_le FLT_MIN_pos hsum)
  have hscores : (n.dirichlet_noise 1 alpha gamma).m_children.map (fun c => c.m_score)
      = ((List.range n.m_children.length).map gamma).map
          (fun v => v / ((List.range n.m_children.length).map gamma).sum) := by
    rw [dirichlet_noise_children n 1 alpha gamma hsum, noise_children_one_scores _ _ (by simp)]
  have hone : ((n.dirichlet_noise 1 alpha gamma).m_children.map (fun c => c.m_score)).sum = 1 := by
    rw [hscores, sum_map_div, div_self hpos]
  refine ⟨?_, ?_, hone⟩
  · rw [hscores, List.map_map]
    rfl
  · rw [hone, hprior]

/-- C21 at the root with three children and the sample `1, 2, 3`. -/
theorem dirichlet_noise_formula_witness :
    (visits_root.dirichlet_noise (1 / 4) (3 / 100) (fun i => (i : ℚ) + 1)).m_children.length
      = visits_root.m_children.length ∧
    (∀ (i : Nat) (c : UCTNode), visits_root.m_children[i]? = some c →
      (visits_root.dirichlet_noise (1 / 4) (3 / 100) (fun i => (i : ℚ) + 1)).m_children[i]?
        = some { c with m_score := (1 - 1 / 4) * c.m_score
            + 1 / 4 * (((i : ℚ) + 1) / ((List.range visits_root.m_children.length).map
                (fun i => (i : ℚ) + 1)).sum) }) ∧
    visits_root.dirichlet_noise 0 (3 / 100) (fun i => (i : ℚ) + 1) = visits_root :=
  dirichlet_noise_formula visits_root (1 / 4) (3 / 100) (fun i => (i : ℚ) + 1)
    (by simp [visits_root, FLT_MIN, List.range_succ]; norm_num)

/-- C22 at the root with three children of prior `1/3` and the sample
`1, 2, 3`: the new priors are `1/6, 2/6, 3/6`. -/
theorem dirichlet_noise_epsilon_one_witness :
    (visits_root.dirichlet_noise 1 (3 / 100) (fun i => (i : ℚ) + 1)).m_children.map
        (fun c => c.m_score)
      = (List.range visits_root.m_children.length).map
          (fun i => ((i : ℚ) + 1) / ((List.range visits_root.m_children.length).map
            (fun i => (i : ℚ) + 1)).sum) ∧
    ((visits_root.dirichlet_noise 1 (3 / 100) (fun i => (i : ℚ) + 1)).m_children.map
        (fun c => c.m_score)).sum
      = (visits_root.m_children.map (fun c => c.m_score)).sum ∧
    ((visits_root.dirichlet_noise 1 (3 / 100) (fun i => (i : ℚ) + 1)).m_children.map
        (fun c => c.m_score)).sum = 1 :=
  dirichlet_noise_epsilon_one visits_root (3 / 100) (fun i => (i : ℚ) + 1)
    (by simp [visits_root, visited_child, UCTNode.new]; norm_num)
    (by simp [visits_root, FLT_MIN, List.range_succ]; norm_num)

/-! ## `randomize_first_proportionally`: the new order -/

/-- The child list after `randomize_first_proportionally` when the loop leaves
the index `i > 0`: the chosen child, then the children before it in their old
order, then the children after it. -/
theorem randomize_first_moves_to_front (n : UCTNode) (p : Nat) (i : Nat) (c : UCTNode)
    (hpick : pick_index p (accum_vector 0 n.m_children) = i) (hi : 0 < i)
    (hc : n.m_children[i]? = some c) :
    (n.randomize_first_proportionally (fun _ => p)).m_children
      = c :: (n.m_children.take i ++ n.m_children.drop (i + 1)) := by
  have hlt : i < n.m_children.length := by
    by_contra hge
    rw [List.getElem?_eq_none (by omega)] at hc
    cases hc
  have hci : n.m_children[i] = c := by
    rw [List.getElem?_eq_getElem hlt] at hc
    exact Option.some.inj hc
  unfold UCTNode.randomize_first_proportionally
  simp only [hpick, if_neg (Nat.pos_iff_ne_zero.mp hi)]
  rw [List.drop_eq_getElem_cons hlt, hci]

/-- C27, on the code. At the root with visits `10, 30, 60` the draw `50`
selects the third child (index `2`).  After the call the chosen child is at the
head, the former head is at index `1` and the former second child at index
`2`: the chosen child is moved to the front, the two are not swapped. -/
theorem randomize_first_not_swap :
    pick_index 50 (accum_vector 0 visits_root.m_children) = 2 ∧
    (visits_root.randomize_first_proportionally (fun _ => 50)).m_children
      = [visited_child 62 60, visited_child 60 10, visited_child 61 30] ∧
    (visits_root.randomize_first_proportionally (fun _ => 50)).m_children
      ≠ [visited_child 62 60, visited_child 61 30, visited_child 60 10] := by
  have hpick : pick_index 50 (accum_vector 0 visits_root.m_children) = 2 := by decide
  have hlist := randomize_first_moves_to_front visits_root 50 2 (visited_child 62 60) hpick
    (by decide) rfl
  refine ⟨hpick, hlist, ?_⟩
  rw [hlist]
  intro h
  have h1 : visited_child 60 10 = visited_child 61 30 := by
    have := (List.cons.inj h).2
    exact (List.cons.inj this).1
  have h2 := congrArg UCTNode.m_move h1
  simp [visited_child, UCTNode.new] at h2

/-! ## `play_simulation` at the tree size cap -/

/-- C28. A call of `play_simulation` on a leaf (no children after the
transposition table's sync) of a state with fewer than two passes, while the
node count is at least `MAX_TREE_SIZE`, returns with any fuel; no child is
linked, the node count is as before, the result is valid with the oracle's
value from Black's point of view (`1 - value` when White is to move), and that
value is backed up into the leaf once: one more visit, the value added to the
sum, the virtual loss undone. -/
theorem play_simulation_at_capacity {TT : Type} (cfg : Config) (env : SearchEnv TT)
    (fuel : Nat) (table : TT) (m_nodes : Int) (currstate : GameState) (node : UCTNode)
    (hleaf : (env.sync table currstate node).m_has_children = false)
    (hpass : currstate.m_passes < 2)
    (hcap : env.MAX_TREE_SIZE ≤ m_nodes) :
    ∃ out, play_simulation cfg env (fuel + 1) table m_nodes currstate node = some out ∧
      out.result = some (if currstate.board.m_tomove = square_t.WHITE.toInt
                         then 1 - (env.get_scored_moves currstate).2
                         else (env.get_scored_moves currstate).2) ∧
      out.m_nodes = m_nodes ∧
      out.node.m_children = (env.sync table currstate node).m_children ∧
      out.node.m_has_children = false ∧
      out.node.m_visits = (env.sync table currstate node).m_visits + 1 ∧
      out.node.m_blackevals = (env.sync table currstate node).m_blackevals
        + (if currstate.board.m_tomove = square_t.WHITE.toInt
           then 1 - (env.get_scored_moves currstate).2
           else (env.get_scored_moves currstate).2) ∧
      out.node.m_virtual_loss = (env.sync table currstate node).m_virtual_loss := by
  have hleaf' : ((env.sync table currstate node).virtual_loss cfg).m_has_children = false :=
    hleaf
  have he : expand_leaf env m_nodes currstate ((env.sync table currstate node).virtual_loss cfg)
      = (SearchResult.from_eval
          (((env.sync table currstate node).virtual_loss cfg).eval_state currstate
            (env.get_scored_moves currstate)),
         (env.sync table currstate node).virtual_loss cfg, m_nodes) := by
    have h2 : ¬ currstate.m_passes ≥ 2 := by omega
    have h3 : ¬ m_nodes < env.MAX_TREE_SIZE := by omega
    simp [expand_leaf, hleaf', h2, h3]
  rw [play_simulation]
  simp only [he, hleaf', Bool.false_and, Bool.false_eq_true, if_false, Option.map_some']
  refine ⟨_, rfl, rfl, rfl, rfl, hleaf, rfl, rfl, ?_⟩
  simp [back_up, SearchResult.from_eval, UCTNode.update, UCTNode.virtual_loss_undo,
    UCTNode.virtual_loss]

/-- C28 at the fresh root with the tree size cap `0`. -/
theorem play_simulation_at_capacity_witness :
    ∃ out, play_simulation example_cfg full_env 1 () 0 start_state fresh_node = some out ∧
      out.result = some (if start_state.board.m_tomove = square_t.WHITE.toInt
                         then 1 - (full_env.get_scored_moves start_state).2
                         else (full_env.get_scored_moves start_state).2) ∧
      out.m_nodes = 0 ∧
      out.node.m_children = (full_env.sync () start_state fresh_node).m_children ∧
      out.node.m_has_children = false ∧
      out.node.m_visits = (full_env.sync () start_state fresh_node).m_visits + 1 ∧
      out.node.m_blackevals = (full_env.sync () start_state fresh_node).m_blackevals
        + (if start_state.board.m_tomove = square_t.WHITE.toInt
           then 1 - (full_env.get_scored_moves start_state).2
           else (full_env.get_scored_moves start_state).2) ∧
      out.node.m_virtual_loss = (full_env.sync () start_state fresh_node).m_virtual_loss :=
  play_simulation_at_capacity example_cfg full_env 0 () 0 start_state fresh_node rfl
    (by decide) (by decide)

/-! ## The rank bonus and the tallies -/

/-- Of two candidates with the same tallies the one with the smaller rank has
the strictly higher winrate. -/
theorem pattern_winrate_rank (r1 r2 : Int) (five four : Nat) (h : r1 < r2) :
    pattern_winrate (init_point r2) five four < pattern_winrate (init_point r1) five four := by
  have hq : ((r1 : Int) : ℚ) < ((r2 : Int) : ℚ) := by exact_mod_cast h
  have hi : init_point r2 < init_point r1 := by
    unfold init_point
    push_cast
    linarith
  unfold pattern_winrate
  split_ifs <;> linarith

/-- With no five on either side and ranks in `[0, 361]`, more fours give the
strictly higher winrate. -/
theorem pattern_winrate_more_fours (r1 r2 : Int) (four1 four2 : Nat)
    (h1 : 0 ≤ r1 ∧ r1 ≤ 361) (h2 : 0 ≤ r2 ∧ r2 ≤ 361) (h0 : 1 ≤ four2) (h : four2 < four1) :
    pattern_winrate (init_point r2) 0 four2 < pattern_winrate (init_point r1) 0 four1 := by
  have a1 : (0 : ℚ) ≤ ((r1 : Int) : ℚ) := by exact_mod_cast h1.1
  have a2 : ((r1 : Int) : ℚ) ≤ 361 := by exact_mod_cast h1.2
  have b1 : (0 : ℚ) ≤ ((r2 : Int) : ℚ) := by exact_mod_cast h2.1
  have b2 : ((r2 : Int) : ℚ) ≤ 361 := by exact_mod_cast h2.2
  have hf : ((four2 : ℚ)) + 1 ≤ (four1 : ℚ) := by exact_mod_cast h
  have hf0 : (1 : ℚ) ≤ (four2 : ℚ) := by exact_mod_cast h0
  have hgt : four1 > 1 := by omega
  unfold pattern_winrate init_point
  simp only [gt_iff_lt, lt_self_iff_false, if_false, hgt, if_true]
  push_cast
  by_cases hc : 1 < four2
  · simp only [hc, if_true]
    linarith
  · have he : four2 = 1 := by omega
    subst he
    simp only [lt_self_iff_false, if_false, if_true]
    push_cast at hf
    linarith

set_option maxRecDepth 1000000 in
/-- C26, on the code. In position 1 the empty vertex `(4, 0)` gives black one
five and is the first child of the root (rank `0`); the empty vertex `(9, 9)`
gives black no five and fifteen fours and is no child (rank `1`).  The vertex
with more fives gets the lower winrate, `1.001361` against `1.00536`. -/
theorem rank_bonus_position1 :
    scan_tally position1 (4, 0) square_t.BLACK = (1, 0) ∧
    scan_tally position1 (9, 9) square_t.BLACK = (0, 15) ∧
    rank_of (position1.get_vertex 4 0) [example_child 26] = 0 ∧
    rank_of (position1.get_vertex 9 9) [example_child 26] = 1 ∧
    pattern_winrate (init_point 0) 1 0 = 1001361 / 1000000 ∧
    pattern_winrate (init_point 1) 0 15 = 100536 / 100000 ∧
    pattern_winrate (init_point 0) 1 0 < pattern_winrate (init_point 1) 0 15 := by
  refine ⟨by decide!, by decide!, by decide!, by decide!, by decide!, by decide!, by decide!⟩

/-! ## `get_best_move`: the pass policy and the resign policy -/

/-- The method `get_best_move` in its parts. -/
theorem get_best_move_eq (cfg : Config) (m_root : UCTNode) (m_rootstate : GameState)
    (passflag : Nat) :
    get_best_move cfg m_root m_rootstate passflag
      = if m_root.m_children.isEmpty then PASS
        else
          match (sorted_root cfg m_root m_rootstate).m_children with
          | [] => PASS
          | first :: _ =>
            match tactical_override (root_scan m_rootstate.board
                (sorted_root cfg m_root m_rootstate).m_children m_rootstate.board.m_tomove) with
            | some move => move
            | none => network_choice cfg (sorted_root cfg m_root m_rootstate) m_rootstate
                        passflag first := rfl

/-- Linking keeps the visits of the node. -/
theorem foldl_link_child_visits (l : List sortnode_t) (m : UCTNode) :
    (l.foldl (fun (node : UCTNode) sortnode => node.link_child sortnode.2.2.2) m).m_visits
      = m.m_visits := by
  induction l generalizing m with
  | nil => rfl
  | cons a l ih => rw [List.foldl_cons, ih]; rfl

/-- The sort and the randomisation keep the visits of the root. -/
theorem sorted_root_visits (cfg : Config) (m_root : UCTNode) (m_rootstate : GameState) :
    (sorted_root cfg m_root m_rootstate).m_visits = m_root.m_visits := by
  have hs : ∀ color, (m_root.sort_root_children color).m_visits = m_root.m_visits := by
    intro color
    unfold UCTNode.sort_root_children
    rw [foldl_link_child_visits]
  have hr : ∀ (n : UCTNode) (r : Nat → Nat),
      (n.randomize_first_proportionally r).m_visits = n.m_visits := by
    intro n r
    unfold UCTNode.randomize_first_proportionally
    simp only []
    split
    · rfl
    · split <;> rfl
  unfold sorted_root
  simp only []
  split
  · rw [hr, hs]
  · rw [hs]

/-- A root without children has none after the sort and the randomisation. -/
theorem sorted_root_children_nil (cfg : Config) (m_root : UCTNode) (m_rootstate : GameState)
    (h : m_root.m_children = []) : (sorted_root cfg m_root m_rootstate).m_children = [] := by
  have hs : ∀ color, (m_root.sort_root_children color).m_children = [] := by
    intro color
    rw [sort_root_children_children, h]
    rfl
  unfold sorted_root
  simp only []
  split
  · unfold UCTNode.randomize_first_proportionally
    simp [hs, accum_vector, pick_index]
  · exact hs _

/-- The value of `get_best_move` when the override rules return a move. -/
theorem get_best_move_override (cfg : Config) (m_root : UCTNode) (m_rootstate : GameState)
    (passflag : Nat) (first : UCTNode) (rest : List UCTNode) (move : Int)
    (hroot : (sorted_root cfg m_root m_rootstate).m_children = first :: rest)
    (hov : tactical_override (root_scan m_rootstate.board
        (sorted_root cfg m_root m_rootstate).m_children m_rootstate.board.m_tomove) = some move) :
    get_best_move cfg m_root m_rootstate passflag = move := by
  have he : m_root.m_children.isEmpty = false := by
    cases h : m_root.m_children with
    | nil =>
      rw [sorted_root_children_nil cfg m_root m_rootstate h] at hroot
      cases hroot
    | cons a l => rfl
  rw [get_best_move_eq, he, hov, hroot]
  rfl

/-- The value of `get_best_move` when the override rules fall through. -/
theorem get_best_move_fall_through (cfg : Config) (m_root : UCTNode) (m_rootstate : GameState)
    (passflag : Nat) (first : UCTNode) (rest : List UCTNode)
    (hroot : (sorted_root cfg m_root m_rootstate).m_children = first :: rest)
    (hov : tactical_override (root_scan m_rootstate.board
        (sorted_root cfg m_root m_rootstate).m_children m_rootstate.board.m_tomove) = none) :
    get_best_move cfg m_root m_rootstate passflag
      = network_choice cfg (sorted_root cfg m_root m_rootstate) m_rootstate passflag first := by
  have he : m_root.m_children.isEmpty = false := by
    cases h : m_root.m_children with
    | nil =>
      rw [sorted_root_children_nil cfg m_root m_rootstate h] at hroot
      cases hroot
    | cons a l => rfl
  rw [get_best_move_eq, he, hov, hroot]
  rfl


/-- The move the pass policy leaves is the move it was given, `PASS`, or the
move of a child of the root. -/
theorem pass_policy_move (cfg : Config) (root : UCTNode) (state : GameState) (passflag : Nat)
    (to_move : Int) (bestmove : Int) (bestscore : ℚ) :
    (pass_policy cfg root state passflag to_move bestmove bestscore).1 = bestmove ∨
    (pass_policy cfg root state passflag to_move bestmove bestscore).1 = PASS ∨
    ∃ c ∈ root.m_children,
      (pass_policy cfg root state passflag to_move bestmove bestscore).1 = c.m_move := by
  have hp : (prefer_nopass root state to_move bestmove bestscore).1 = bestmove ∨
      ∃ c ∈ root.m_children, (prefer_nopass root state to_move bestmove bestscore).1 = c.m_move := by
    unfold prefer_nopass
    cases hn : root.get_nopass_child state with
    | none => exact Or.inl rfl
    | some nopass =>
      refine Or.inr ⟨nopass, ?_, rfl⟩
      unfold UCTNode.get_nopass_child at hn
      exact List.mem_of_find?_eq_some hn
  unfold pass_policy
  split_ifs
  · rcases hp with h | h
    · exact Or.inl h
    · exact Or.inr (Or.inr h)
  · exact Or.inl rfl
  · rcases hp with h | h
    · exact Or.inl h
    · exact Or.inr (Or.inr h)
  · exact Or.inl rfl
  · exact Or.inl rfl
  · exact Or.inr (Or.inl rfl)
  · exact Or.inl rfl

/-- The resign policy returns `RESIGN` exactly under its five conditions, when
the move it is given is not `RESIGN` itself. -/
theorem resign_policy_iff (cfg : Config) (root : UCTNode) (state : GameState) (passflag : Nat)
    (bestmove : Int) (bestscore : ℚ) (hmove : bestmove ≠ RESIGN) :
    resign_policy cfg root state passflag bestmove bestscore = RESIGN ↔
      bestmove ≠ PASS ∧ passflag &&& NORESIGN = 0 ∧
      bestscore < (cfg.cfg_resignpct : ℚ) / 100 ∧ root.m_visits > 500 ∧
      state.board.m_boardsize * state.board.m_boardsize / 4 < (state.m_movenum : Int) := by
  have hsq : 0 ≤ state.board.m_boardsize * state.board.m_boardsize := mul_self_nonneg _
  have hdiv : (Int.tdiv (state.board.m_boardsize * state.board.m_boardsize) 4)
      = state.board.m_boardsize * state.board.m_boardsize / 4 :=
    Int.tdiv_eq_ediv hsq (by decide)
  have hnn : 0 ≤ state.board.m_boardsize * state.board.m_boardsize / 4 :=
    Int.ediv_nonneg hsq (by decide)
  have hthr : state.m_movenum
        > (Int.tdiv (state.board.m_boardsize * state.board.m_boardsize) 4).toNat ↔
      state.board.m_boardsize * state.board.m_boardsize / 4 < (state.m_movenum : Int) := by
    rw [hdiv]
    omega
  unfold resign_policy
  simp only []
  by_cases h1 : bestmove ≠ PASS
  · rw [if_pos h1]
    by_cases h2 : passflag &&& NORESIGN = 0
    · rw [if_pos h2]
      by_cases h3 : bestscore < (cfg.cfg_resignpct : ℚ) / 100 ∧ root.m_visits > 500
          ∧ state.m_movenum
            > (Int.tdiv (state.board.m_boardsize * state.board.m_boardsize) 4).toNat
      · rw [if_pos h3]
        exact ⟨fun _ => ⟨h1, h2, h3.1, h3.2.1, hthr.mp h3.2.2⟩, fun _ => rfl⟩
      · rw [if_neg h3]
        constructor
        · intro h; exact absurd h hmove
        · rintro ⟨_, _, a, b, c⟩
          exact absurd ⟨a, b, hthr.mpr c⟩ h3
    · rw [if_neg h2]
      constructor
      · intro h; exact absurd h hmove
      · rintro ⟨_, a, _⟩
        exact absurd a h2
  · rw [if_neg h1]
    constructor
    · intro h; exact absurd h hmove
    · rintro ⟨a, _⟩
      exact absurd a h1


set_option maxRecDepth 1000000 in
/-- The empty board has no active square. -/
theorem empty_board_active : active_squares [] [] = [] := by
  decide!

/-- On the empty board the override rules fall through, whatever the children. -/
theorem empty_board_override (children : List UCTNode) (to_move : Int) :
    tactical_override (root_scan empty_board children to_move) = none := by
  have htable : scan_tallies empty_board = [] := by
    unfold empty_board
    rw [board_of_stones_tallies, empty_board_active]
    rfl
  rw [root_scan_eq, htable]
  simp only [best_of_table, List.map_nil, List.foldl_nil, best_init, tactical_override]
  norm_num

/-- C23, amended. Let the override rules fall through and no child's move be
`RESIGN`.  When the first child of the sorted list has been visited,
`get_best_move` returns `RESIGN` if and only if the move chosen after the pass
policy is not `PASS`, the `NORESIGN` flag is not set, the chosen move's score is
below `resign_pct / 100`, the root has more than `500` visits and the move
number is above `floor(board_size^2 / 4)`.  When the first child of the sorted
list has no visit, `get_best_move` returns the move of that child.  With
`NORESIGN` set it does not return `RESIGN`, visited or not. -/
theorem get_best_move_resign_iff (cfg : Config) (m_root : UCTNode) (m_rootstate : GameState)
    (passflag : Nat) (first : UCTNode) (rest : List UCTNode)
    (hroot : (sorted_root cfg m_root m_rootstate).m_children = first :: rest)
    (hov : tactical_override (root_scan m_rootstate.board
        (sorted_root cfg m_root m_rootstate).m_children m_rootstate.board.m_tomove) = none)
    (hmoves : ∀ c ∈ (sorted_root cfg m_root m_rootstate).m_children, c.m_move ≠ RESIGN) :
    (first.m_visits ≠ 0 →
      (get_best_move cfg m_root m_rootstate passflag = RESIGN ↔
        (pass_policy cfg (sorted_root cfg m_root m_rootstate) m_rootstate passflag
            m_rootstate.board.m_tomove first.m_move
            (first.get_eval m_rootstate.board.m_tomove)).1 ≠ PASS ∧
        passflag &&& NORESIGN = 0 ∧
        (pass_policy cfg (sorted_root cfg m_root m_rootstate) m_rootstate passflag
            m_rootstate.board.m_tomove first.m_move
            (first.get_eval m_rootstate.board.m_tomove)).2 < (cfg.cfg_resignpct : ℚ) / 100 ∧
        m_root.m_visits > 500 ∧
        m_rootstate.board.m_boardsize * m_rootstate.board.m_boardsize / 4
          < (m_rootstate.m_movenum : Int))) ∧
    (first.m_visits = 0 → get_best_move cfg m_root m_rootstate passflag = first.m_move) ∧
    (passflag &&& NORESIGN ≠ 0 → get_best_move cfg m_root m_rootstate passflag ≠ RESIGN) := by
  have hfirst : first ∈ (sorted_root cfg m_root m_rootstate).m_children := by
    rw [hroot]; exact List.mem_cons_self _ _
  have hbest : (pass_policy cfg (sorted_root cfg m_root m_rootstate) m_rootstate passflag
      m_rootstate.board.m_tomove first.m_move
      (first.get_eval m_rootstate.board.m_tomove)).1 ≠ RESIGN := by
    rcases pass_policy_move cfg (sorted_root cfg m_root m_rootstate) m_rootstate passflag
      m_rootstate.board.m_tomove first.m_move (first.get_eval m_rootstate.board.m_tomove)
      with h | h | ⟨c, hc, h⟩
    · rw [h]; exact hmoves first hfirst
    · rw [h]; decide
    · rw [h]; exact hmoves c hc
  have hval : first.m_visits ≠ 0 → get_best_move cfg m_root m_rootstate passflag
      = resign_policy cfg (sorted_root cfg m_root m_rootstate) m_rootstate passflag
          (pass_policy cfg (sorted_root cfg m_root m_rootstate) m_rootstate passflag
            m_rootstate.board.m_tomove first.m_move
            (first.get_eval m_rootstate.board.m_tomove)).1
          (pass_policy cfg (sorted_root cfg m_root m_rootstate) m_rootstate passflag
            m_rootstate.board.m_tomove first.m_move
            (first.get_eval m_rootstate.board.m_tomove)).2 := by
    intro hvisited
    rw [get_best_move_fall_through cfg m_root m_rootstate passflag first rest hroot hov]
    unfold network_choice
    have hv : first.first_visit = false := by
      simp [UCTNode.first_visit, hvisited]
    simp only [hv, Bool.false_eq_true, if_false]
  have hunvisited : first.m_visits = 0 →
      get_best_move cfg m_root m_rootstate passflag = first.m_move := by
    intro hzero
    rw [get_best_move_fall_through cfg m_root m_rootstate passflag first rest hroot hov]
    unfold network_choice
    have hv : first.first_visit = true := by
      simp [UCTNode.first_visit, hzero]
    simp only [hv, if_true]
  have hiff := resign_policy_iff cfg (sorted_root cfg m_root m_rootstate) m_rootstate passflag
    _ (pass_policy cfg (sorted_root cfg m_root m_rootstate) m_rootstate passflag
            m_rootstate.board.m_tomove first.m_move
            (first.get_eval m_rootstate.board.m_tomove)).2 hbest
  rw [sorted_root_visits] at hiff
  refine ⟨?_, hunvisited, ?_⟩
  · intro hvisited
    rw [hval hvisited]
    exact hiff
  · intro hflag hres
    by_cases hvisited : first.m_visits = 0
    · rw [hunvisited hvisited] at hres
      exact hmoves first hfirst hres
    · rw [hval hvisited] at hres
      exact hflag (hiff.mp hres).2.1


/-- The root of the examples with one child keeps it under the sort; the
example configuration does not randomise. -/
theorem sorted_root_single (c : UCTNode) (board : FastBoard) (movenum : Nat) :
    (sorted_root example_cfg (busy_root [c]) (state_at board movenum)).m_children = [c] := by
  have hr : ¬ (((state_at board movenum).m_movenum : Int) < example_cfg.cfg_random_cnt) := by
    simp [example_cfg, state_at]
  unfold sorted_root
  simp only [hr, if_false]
  rw [sort_root_children_children]
  simp [busy_root, UCTNode.new, stable_sort, sort_entry_child]

/-- C23, as stated, fails. On the empty board at move `100` the root has `501`
visits and one child, the move `60`, without a visit and with value `0`: the
override rules fall through, the move after the pass policy is not `PASS`,
`NORESIGN` is not set, the value `0` is below `10 / 100`, the root has more
than `500` visits and the move number is above `90`; `get_best_move` returns
the move `60` and not `RESIGN`, because the first child has no visit. -/
theorem get_best_move_resign_unvisited :
    ¬ ∀ (cfg : Config) (m_root : UCTNode) (m_rootstate : GameState) (passflag : Nat)
        (first : UCTNode) (rest : List UCTNode),
        (sorted_root cfg m_root m_rootstate).m_children = first :: rest →
        tactical_override (root_scan m_rootstate.board
          (sorted_root cfg m_root m_rootstate).m_children m_rootstate.board.m_tomove) = none →
        (∀ c ∈ (sorted_root cfg m_root m_rootstate).m_children, c.m_move ≠ RESIGN) →
        (get_best_move cfg m_root m_rootstate passflag = RESIGN ↔
          (pass_policy cfg (sorted_root cfg m_root m_rootstate) m_rootstate passflag
              m_rootstate.board.m_tomove first.m_move
              (first.get_eval m_rootstate.board.m_tomove)).1 ≠ PASS ∧
          passflag &&& NORESIGN = 0 ∧
          (pass_policy cfg (sorted_root cfg m_root m_rootstate) m_rootstate passflag
              m_rootstate.board.m_tomove first.m_move
              (first.get_eval m_rootstate.board.m_tomove)).2 < (cfg.cfg_resignpct : ℚ) / 100 ∧
          m_root.m_visits > 500 ∧
          m_rootstate.board.m_boardsize * m_rootstate.board.m_boardsize / 4
            < (m_rootstate.m_movenum : Int)) := by
  intro h
  have hroot := sorted_root_single (stat_child 60 1 0 0) empty_board 100
  have hov : tactical_override (root_scan (state_at empty_board 100).board
      (sorted_root example_cfg (busy_root [stat_child 60 1 0 0])
        (state_at empty_board 100)).m_children (state_at empty_board 100).board.m_tomove)
      = none := empty_board_override _ _
  have hiff := h example_cfg (busy_root [stat_child 60 1 0 0]) (state_at empty_board 100) 0
    (stat_child 60 1 0 0) [] hroot hov
    (by rw [hroot]; simp [stat_child, UCTNode.new, RESIGN])
  have hval : get_best_move example_cfg (busy_root [stat_child 60 1 0 0])
      (state_at empty_board 100) 0 = 60 := by
    rw [get_best_move_fall_through _ _ _ _ _ _ hroot hov]
    simp [network_choice, UCTNode.first_visit, stat_child, UCTNode.new]
  have hpol : pass_policy example_cfg
      (sorted_root example_cfg (busy_root [stat_child 60 1 0 0]) (state_at empty_board 100))
      (state_at empty_board 100) 0 (state_at empty_board 100).board.m_tomove
      (stat_child 60 1 0 0).m_move
      ((stat_child 60 1 0 0).get_eval (state_at empty_board 100).board.m_tomove) = (60, 0) := by
    simp [pass_policy, NOPASS, example_cfg, state_at, stat_child, UCTNode.new, PASS,
      UCTNode.get_eval, empty_board, board_of_stones, board_of_masks, square_t.toInt]
  rw [hval, hpol] at hiff
  have hres : (60 : Int) = RESIGN := hiff.mpr (by
    refine ⟨by decide, by decide, ?_, by decide, by decide⟩
    simp [example_cfg])
  exact absurd hres (by decide)


/-- C23, amended, on the empty board at move `100` at the root with `501`
visits and one child, the move `60` with value `0`: with three visits of the
child the call returns `RESIGN`, with no visit it returns the move `60`. -/
theorem get_best_move_resign_iff_witness :
    get_best_move example_cfg (busy_root [stat_child 60 1 3 0]) (state_at empty_board 100) 0
      = RESIGN ∧
    get_best_move example_cfg (busy_root [stat_child 60 1 0 0]) (state_at empty_board 100) 0
      = 60 :=
  ⟨((get_best_move_resign_iff example_cfg (busy_root [stat_child 60 1 3 0])
      (state_at empty_board 100) 0 (stat_child 60 1 3 0) []
      (sorted_root_single (stat_child 60 1 3 0) empty_board 100)
      (empty_board_override _ _)
      (by rw [sorted_root_single]; simp [stat_child, UCTNode.new, RESIGN])).1
      (by simp [stat_child])).mpr
    (by
      have hpol : pass_policy example_cfg
          (sorted_root example_cfg (busy_root [stat_child 60 1 3 0]) (state_at empty_board 100))
          (state_at empty_board 100) 0 (state_at empty_board 100).board.m_tomove
          (stat_child 60 1 3 0).m_move
          ((stat_child 60 1 3 0).get_eval (state_at empty_board 100).board.m_tomove)
            = (60, 0) := by
        simp [pass_policy, NOPASS, example_cfg, state_at, stat_child, UCTNode.new, PASS,
          UCTNode.get_eval, empty_board, board_of_stones, board_of_masks, square_t.toInt]
      rw [hpol]
      refine ⟨by decide, by decide, ?_, by decide, by decide⟩
      simp [example_cfg]),
   (get_best_move_resign_iff example_cfg (busy_root [stat_child 60 1 0 0])
      (state_at empty_board 100) 0 (stat_child 60 1 0 0) []
      (sorted_root_single (stat_child 60 1 0 0) empty_board 100)
      (empty_board_override _ _)
      (by rw [sorted_root_single]; simp [stat_child, UCTNode.new, RESIGN])).2.1
      (by simp [stat_child])⟩

/-- The first child that is neither `PASS` nor an eye is the child
`get_nopass_child` returns. -/
theorem get_nopass_child_first (root : UCTNode) (state : GameState)
    (before after : List UCTNode) (nopass : UCTNode)
    (hlist : root.m_children = before ++ nopass :: after)
    (hmove : nopass.m_move ≠ PASS)
    (heye : state.board.is_eye state.board.m_tomove nopass.m_move = false)
    (hbefore : ∀ c ∈ before,
      c.m_move = PASS ∨ state.board.is_eye state.board.m_tomove c.m_move = true) :
    root.get_nopass_child state = some nopass := by
  unfold UCTNode.get_nopass_child
  rw [List.find?_eq_some]
  refine ⟨by simp [hmove, heye], before, after, hlist, ?_⟩
  intro c hc
  rcases hbefore c hc with h | h
  · simp [h]
  · simp [h]

/-- C24, amended. When the `NOPASS` flag is set, the override rules fall
through, the first child of the sorted list is `PASS` and has been visited, and
`nopass` is the first child in list order that is neither `PASS` nor an eye for
the side to move, `get_best_move` returns what the resign policy makes of the
move of `nopass`: that move when the `NORESIGN` flag is set, and in every case
that move or `RESIGN`. -/
theorem get_best_move_nopass (cfg : Config) (m_root : UCTNode) (m_rootstate : GameState)
    (passflag : Nat) (first : UCTNode) (rest before after : List UCTNode) (nopass : UCTNode)
    (hroot : (sorted_root cfg m_root m_rootstate).m_children = first :: rest)
    (hov : tactical_override (root_scan m_rootstate.board
        (sorted_root cfg m_root m_rootstate).m_children m_rootstate.board.m_tomove) = none)
    (hflag : passflag &&& NOPASS ≠ 0)
    (hpass : first.m_move = PASS)
    (hvisited : first.m_visits ≠ 0)
    (hlist : (sorted_root cfg m_root m_rootstate).m_children = before ++ nopass :: after)
    (hmove : nopass.m_move ≠ PASS)
    (heye : m_rootstate.board.is_eye m_rootstate.board.m_tomove nopass.m_move = false)
    (hbefore : ∀ c ∈ before,
      c.m_move = PASS ∨ m_rootstate.board.is_eye m_rootstate.board.m_tomove c.m_move = true) :
    get_best_move cfg m_root m_rootstate passflag
      = resign_policy cfg (sorted_root cfg m_root m_rootstate) m_rootstate passflag
          nopass.m_move
          (if nopass.first_visit then 1 else nopass.get_eval m_rootstate.board.m_tomove) ∧
    (passflag &&& NORESIGN ≠ 0 →
      get_best_move cfg m_root m_rootstate passflag = nopass.m_move) ∧
    (get_best_move cfg m_root m_rootstate passflag = nopass.m_move ∨
      get_best_move cfg m_root m_rootstate passflag = RESIGN) := by
  have hn := get_nopass_child_first (sorted_root cfg m_root m_rootstate) m_rootstate
    before after nopass hlist hmove heye hbefore
  have hval : get_best_move cfg m_root m_rootstate passflag
      = resign_policy cfg (sorted_root cfg m_root m_rootstate) m_rootstate passflag
          nopass.m_move
          (if nopass.first_visit then 1 else nopass.get_eval m_rootstate.board.m_tomove) := by
    rw [get_best_move_fall_through cfg m_root m_rootstate passflag first rest hroot hov]
    unfold network_choice
    have hv : first.first_visit = false := by
      simp [UCTNode.first_visit, hvisited]
    simp only [hv, Bool.false_eq_true, if_false]
    unfold pass_policy prefer_nopass
    simp only [hflag, ne_eq, not_false_eq_true, if_true, hpass, hn]
  refine ⟨hval, ?_, ?_⟩
  · intro hnr
    rw [hval]
    unfold resign_policy
    simp only [hmove, ne_eq, not_false_eq_true, if_true, hnr, if_false]
  · rw [hval]
    unfold resign_policy
    simp only []
    split_ifs <;> simp

/-- The example root with the child `PASS` (prior `1`) before the child `60`
(prior `1/2`), both without a visit, keeps the two in this order. -/
theorem sorted_root_pass_unvisited (movenum : Nat) :
    (sorted_root example_cfg (busy_root [stat_child PASS 1 0 0, stat_child 60 (1 / 2) 0 0])
        (state_at empty_board movenum)).m_children
      = [stat_child PASS 1 0 0, stat_child 60 (1 / 2) 0 0] := by
  have hr : ¬ (((state_at empty_board movenum).m_movenum : Int)
      < example_cfg.cfg_random_cnt) := by
    simp [example_cfg, state_at]
  unfold sorted_root
  simp only [hr, if_false]
  rw [sort_root_children_children]
  have hq : ¬ ((1 : ℚ) ≤ 2⁻¹) := by norm_num
  simp [busy_root, stable_sort, sort_entry, stat_child, UCTNode.new, NodeComp,
    List.insertionSort, List.orderedInsert, hq]

/-- The example root with the child `PASS` (five visits) before the child `60`
(three visits) keeps the two in this order. -/
theorem sorted_root_pass_visited (movenum : Nat) :
    (sorted_root example_cfg (busy_root [stat_child PASS 1 5 0, stat_child 60 (1 / 2) 3 0])
        (state_at empty_board movenum)).m_children
      = [stat_child PASS 1 5 0, stat_child 60 (1 / 2) 3 0] := by
  have hr : ¬ (((state_at empty_board movenum).m_movenum : Int)
      < example_cfg.cfg_random_cnt) := by
    simp [example_cfg, state_at]
  unfold sorted_root
  simp only [hr, if_false]
  rw [sort_root_children_children]
  simp [busy_root, stable_sort, sort_entry, stat_child, UCTNode.new, NodeComp,
    List.insertionSort, List.orderedInsert]

/-- C24, as stated, fails in two ways, on the empty board with the children
`PASS` and `60` in this order and the `NOPASS` flag set; the override rules fall
through and the child `60` is the first child that is neither `PASS` nor an eye.
With no visit on the first child the call returns `PASS` (also with `NORESIGN`
set); with `501` visits of the root, five of `PASS` and three of the child `60`
with value `0`, at move `100`, it returns `RESIGN`. -/
theorem get_best_move_nopass_fails :
    get_best_move example_cfg (busy_root [stat_child PASS 1 0 0, stat_child 60 (1 / 2) 0 0])
        (state_at empty_board 100) (NOPASS ||| NORESIGN) = PASS ∧
    get_best_move example_cfg (busy_root [stat_child PASS 1 5 0, stat_child 60 (1 / 2) 3 0])
        (state_at empty_board 100) NOPASS = RESIGN ∧
    (stat_child 60 (1 / 2) 0 0).m_move ≠ PASS ∧
    (state_at empty_board 100).board.is_eye (state_at empty_board 100).board.m_tomove 60
      = false := by
  refine ⟨?_, ?_, by decide, rfl⟩
  · rw [get_best_move_fall_through _ _ _ _ _ _ (sorted_root_pass_unvisited 100)
      (empty_board_override _ _)]
    simp [network_choice, UCTNode.first_visit, stat_child, UCTNode.new]
  · have hn : (sorted_root example_cfg
          (busy_root [stat_child PASS 1 5 0, stat_child 60 (1 / 2) 3 0])
          (state_at empty_board 100)).get_nopass_child (state_at empty_board 100)
        = some (stat_child 60 (1 / 2) 3 0) :=
      get_nopass_child_first _ _ [stat_child PASS 1 5 0] [] _
        (sorted_root_pass_visited 100) (by decide) rfl
        (by intro c hc; simp at hc; subst hc; exact Or.inl rfl)
    rw [get_best_move_fall_through _ _ _ _ _ _ (sorted_root_pass_visited 100)
      (empty_board_override _ _)]
    have hv : (stat_child PASS 1 5 0).first_visit = false := by
      simp [UCTNode.first_visit, stat_child]
    unfold network_choice
    simp only [hv, Bool.false_eq_true, if_false]
    unfold pass_policy prefer_nopass
    have hflag : NOPASS &&& NOPASS ≠ 0 := by decide
    have hpass : (stat_child PASS 1 5 0).m_move = PASS := rfl
    simp only [hflag, ne_eq, not_false_eq_true, if_true, hpass, hn]
    have hres := (resign_policy_iff example_cfg
      (sorted_root example_cfg (busy_root [stat_child PASS 1 5 0, stat_child 60 (1 / 2) 3 0])
        (state_at empty_board 100))
      (state_at empty_board 100) NOPASS (stat_child 60 (1 / 2) 3 0).m_move
      (if (stat_child 60 (1 / 2) 3 0).first_visit then 1
       else (stat_child 60 (1 / 2) 3 0).get_eval (state_at empty_board 100).board.m_tomove)
      (by decide)).mpr
    apply hres
    rw [sorted_root_visits]
    refine ⟨by decide, by decide, ?_, by decide, by decide⟩
    simp [UCTNode.first_visit, stat_child, UCTNode.new, UCTNode.get_eval, example_cfg,
      state_at, empty_board, board_of_stones, board_of_masks, square_t.toInt]

/-- C24, amended, with the flags `NOPASS` and `NORESIGN` on the empty board: the
first child `PASS` has five visits, the child `60` is the first child that is
neither `PASS` nor an eye, and the call returns the move `60`. -/
theorem get_best_move_nopass_witness :
    get_best_move example_cfg (busy_root [stat_child PASS 1 5 0, stat_child 60 (1 / 2) 3 0])
        (state_at empty_board 100) (NOPASS ||| NORESIGN) = 60 :=
  (get_best_move_nopass example_cfg
      (busy_root [stat_child PASS 1 5 0, stat_child 60 (1 / 2) 3 0])
      (state_at empty_board 100) (NOPASS ||| NORESIGN)
      (stat_child PASS 1 5 0) [stat_child 60 (1 / 2) 3 0] [stat_child PASS 1 5 0] []
      (stat_child 60 (1 / 2) 3 0)
      (sorted_root_pass_visited 100) (empty_board_override _ _) (by decide) rfl
      (by simp [stat_child])
      (sorted_root_pass_visited 100) (by decide) rfl
      (by intro c hc; simp at hc; subst hc; exact Or.inl rfl)).2.1 (by decide)

/-! ## The override rules against a double four -/

/-- The rank of a vertex is between `0` and the number of children. -/
theorem rank_of_bounds (vertex : Int) (children : List UCTNode) :
    0 ≤ rank_of vertex children ∧ rank_of vertex children ≤ (children.length : Int) := by
  induction children with
  | nil => simp [rank_of]
  | cons c rest ih =>
    unfold rank_of
    split
    · simp
      omega
    · simp
      omega

/-- With a rank in `[0, 361]` a single four is worth at least `0.98` and less
than `0.99`. -/
theorem pattern_winrate_single_four (rank : Int) (h0 : 0 ≤ rank) (h1 : rank ≤ 361) :
    0.98 ≤ pattern_winrate (init_point rank) 0 1 ∧
    pattern_winrate (init_point rank) 0 1 < 0.99 := by
  have a0 : (0 : ℚ) ≤ ((rank : Int) : ℚ) := by exact_mod_cast h0
  have a1 : ((rank : Int) : ℚ) ≤ 361 := by exact_mod_cast h1
  unfold pattern_winrate init_point
  simp only [gt_iff_lt, lt_self_iff_false, if_false, Nat.lt_irrefl, if_true]
  push_cast
  constructor <;> norm_num <;> linarith

/-- The comparisons of candidates of the other side leave the best winrate of
the side to move as it was. -/
theorem foldl_best_update_no_mine (cs : List (Int × Bool × ℚ)) (b : Best)
    (h : ∀ c ∈ cs, c.2.1 = false) :
    (cs.foldl best_update b).best_mine_winrate = b.best_mine_winrate := by
  induction cs generalizing b with
  | nil => rfl
  | cons c cs ih =>
    rw [List.foldl_cons, ih _ (fun c' hc' => h c' (List.mem_cons_of_mem _ hc'))]
    have hc := h c (List.mem_cons_self _ _)
    unfold best_update
    simp only [hc, Bool.false_eq_true, if_false]
    split <;> rfl

/-- When every candidate of the side to move has its winrate in `[lo, hi)`, the
best winrate of the side to move stays below `hi`, and it is at least `lo` once
it was, or once there is such a candidate. -/
theorem foldl_best_update_range (lo hi : ℚ) (cs : List (Int × Bool × ℚ)) (b : Best)
    (hb : b.best_mine_winrate < hi)
    (h : ∀ c ∈ cs, c.2.1 = true → lo ≤ c.2.2 ∧ c.2.2 < hi) :
    (cs.foldl best_update b).best_mine_winrate < hi ∧
    ((lo ≤ b.best_mine_winrate ∨ ∃ c ∈ cs, c.2.1 = true) →
      lo ≤ (cs.foldl best_update b).best_mine_winrate) := by
  induction cs generalizing b with
  | nil =>
    refine ⟨hb, ?_⟩
    rintro (h1 | ⟨c, hc, _⟩)
    · exact h1
    · cases hc
  | cons c cs ih =>
    rw [List.foldl_cons]
    have hrest : ∀ c' ∈ cs, c'.2.1 = true → lo ≤ c'.2.2 ∧ c'.2.2 < hi :=
      fun c' hc' => h c' (List.mem_cons_of_mem _ hc')
    by_cases hm : c.2.1 = true
    · obtain ⟨hlo, hhi⟩ := h c (List.mem_cons_self _ _) hm
      have hb' : (best_update b c).best_mine_winrate < hi := by
        unfold best_update
        simp only [hm, if_true]
        split
        · exact hhi
        · exact hb
      have hlo' : lo ≤ (best_update b c).best_mine_winrate := by
        unfold best_update
        simp only [hm, if_true]
        split
        · exact hlo
        · rename_i hnlt
          exact le_trans hlo (not_lt.mp hnlt)
      obtain ⟨r1, r2⟩ := ih (best_update b c) hb' hrest
      exact ⟨r1, fun _ => r2 (Or.inl hlo')⟩
    · have hf : c.2.1 = false := by simpa using hm
      have hsame : (best_update b c).best_mine_winrate = b.best_mine_winrate := by
        unfold best_update
        simp only [hf, Bool.false_eq_true, if_false]
        split <;> rfl
      obtain ⟨r1, r2⟩ := ih (best_update b c) (by rw [hsame]; exact hb) hrest
      refine ⟨r1, ?_⟩
      rintro (h1 | ⟨c', hc', hm'⟩)
      · exact r2 (Or.inl (by rw [hsame]; exact h1))
      · rcases List.mem_cons.mp hc' with he | he
        · subst he
          exact absurd hm' hm
        · exact r2 (Or.inr ⟨c', he, hm'⟩)


/-- C25. Let the best enemy winrate of the scan be in `[0.99, 1)`, a double
four of the opponent and no five.  When the best winrate of the side to move is
below `0.98`, `get_best_move` returns the opponent's vertex; when it is in
`[0.98, 0.99)` the override rules fall through and the result is the network
choice with the pass and the resign policy; from `0.99` on the result is the
own vertex.  The best winrate of the side to move is below `0.98` when the scan
has no row for the side to move (no five and no four anywhere), and it is in
`[0.98, 0.99)` when the scan has rows for the side to move and each of them is
a single four, with at most `361` children. -/
theorem get_best_move_double_four (cfg : Config) (m_root : UCTNode) (m_rootstate : GameState)
    (passflag : Nat) (first : UCTNode) (rest : List UCTNode)
    (hroot : (sorted_root cfg m_root m_rootstate).m_children = first :: rest)
    (henemy : 0.99 ≤ (root_scan m_rootstate.board (sorted_root cfg m_root m_rootstate).m_children
        m_rootstate.board.m_tomove).best_enemy_winrate ∧
      (root_scan m_rootstate.board (sorted_root cfg m_root m_rootstate).m_children
        m_rootstate.board.m_tomove).best_enemy_winrate < 1) :
    ((root_scan m_rootstate.board (sorted_root cfg m_root m_rootstate).m_children
          m_rootstate.board.m_tomove).best_mine_winrate < 0.98 →
      get_best_move cfg m_root m_rootstate passflag
        = (root_scan m_rootstate.board (sorted_root cfg m_root m_rootstate).m_children
            m_rootstate.board.m_tomove).best_enemy_move) ∧
    (0.98 ≤ (root_scan m_rootstate.board (sorted_root cfg m_root m_rootstate).m_children
          m_rootstate.board.m_tomove).best_mine_winrate →
      (root_scan m_rootstate.board (sorted_root cfg m_root m_rootstate).m_children
          m_rootstate.board.m_tomove).best_mine_winrate < 0.99 →
      tactical_override (root_scan m_rootstate.board
          (sorted_root cfg m_root m_rootstate).m_children m_rootstate.board.m_tomove) = none ∧
      get_best_move cfg m_root m_rootstate passflag
        = network_choice cfg (sorted_root cfg m_root m_rootstate) m_rootstate passflag first) ∧
    (0.99 ≤ (root_scan m_rootstate.board (sorted_root cfg m_root m_rootstate).m_children
          m_rootstate.board.m_tomove).best_mine_winrate →
      get_best_move cfg m_root m_rootstate passflag
        = (root_scan m_rootstate.board (sorted_root cfg m_root m_rootstate).m_children
            m_rootstate.board.m_tomove).best_mine_move) ∧
    ((∀ row ∈ scan_tallies m_rootstate.board, row.2.1.toInt ≠ m_rootstate.board.m_tomove) →
      (root_scan m_rootstate.board (sorted_root cfg m_root m_rootstate).m_children
          m_rootstate.board.m_tomove).best_mine_winrate < 0.98) ∧
    ((sorted_root cfg m_root m_rootstate).m_children.length ≤ 361 →
      (∃ row ∈ scan_tallies m_rootstate.board, row.2.1.toInt = m_rootstate.board.m_tomove) →
      (∀ row ∈ scan_tallies m_rootstate.board, row.2.1.toInt = m_rootstate.board.m_tomove →
        row.2.2.1 = 0 ∧ row.2.2.2 = 1) →
      0.98 ≤ (root_scan m_rootstate.board (sorted_root cfg m_root m_rootstate).m_children
          m_rootstate.board.m_tomove).best_mine_winrate ∧
      (root_scan m_rootstate.board (sorted_root cfg m_root m_rootstate).m_children
          m_rootstate.board.m_tomove).best_mine_winrate < 0.99) := by
  generalize hbest : root_scan m_rootstate.board (sorted_root cfg m_root m_rootstate).m_children
    m_rootstate.board.m_tomove = best at henemy ⊢
  obtain ⟨he1, he2⟩ := henemy
  refine ⟨?_, ?_, ?_, ?_, ?_⟩
  · intro hm
    apply get_best_move_override cfg m_root m_rootstate passflag first rest _ hroot
    rw [hbest]
    unfold tactical_override
    have h1 : ¬ best.best_mine_winrate ≥ 1 := by intro h; norm_num at hm; linarith
    have h2 : ¬ best.best_enemy_winrate ≥ 1 := not_le.mpr he2
    have h3 : ¬ best.best_mine_winrate ≥ 0.99 := by
      intro h; norm_num at hm h; linarith
    simp only [he1, ge_iff_le, or_true, if_true, h1, h2, h3, if_false, hm, and_self]
  · intro hm1 hm2
    have hov : tactical_override best = none := by
      unfold tactical_override
      have h1 : ¬ best.best_mine_winrate ≥ 1 := by intro h; norm_num at hm2; linarith
      have h2 : ¬ best.best_enemy_winrate ≥ 1 := not_le.mpr he2
      have h3 : ¬ best.best_mine_winrate ≥ 0.99 := not_le.mpr hm2
      have h4 : ¬ best.best_mine_winrate < 0.98 := not_lt.mpr hm1
      simp only [ge_iff_le] at h1 h2 h3
      simp [he1, h1, h2, h3, h4]
    refine ⟨hov, ?_⟩
    apply get_best_move_fall_through cfg m_root m_rootstate passflag first rest hroot
    rw [hbest]
    exact hov
  · intro hm
    apply get_best_move_override cfg m_root m_rootstate passflag first rest _ hroot
    rw [hbest]
    unfold tactical_override
    have h2 : ¬ best.best_enemy_winrate ≥ 1 := not_le.mpr he2
    simp only [ge_iff_le] at h2 hm
    by_cases h1 : 1 ≤ best.best_mine_winrate
    · simp [hm, h1]
    · simp [hm, h1, h2]
  · intro hrows
    rw [← hbest, root_scan_eq]
    unfold best_of_table
    rw [foldl_best_update_no_mine]
    · simp only [best_init]
      norm_num
    · intro c hc
      obtain ⟨row, hrow, rfl⟩ := List.mem_map.mp hc
      simp [candidate_of, hrows row hrow]
  · intro hlen hex hall
    rw [← hbest, root_scan_eq]
    unfold best_of_table
    have hr := foldl_best_update_range 0.98 0.99
      ((scan_tallies m_rootstate.board).map
        (candidate_of (sorted_root cfg m_root m_rootstate).m_children
          m_rootstate.board.m_tomove))
      best_init (by simp only [best_init]; norm_num)
      (by
        intro c hc hm
        obtain ⟨row, hrow, rfl⟩ := List.mem_map.mp hc
        have hcol : row.2.1.toInt = m_rootstate.board.m_tomove := by
          simpa [candidate_of] using hm
        obtain ⟨h5, h4⟩ := hall row hrow hcol
        obtain ⟨r0, r1⟩ := rank_of_bounds row.1 (sorted_root cfg m_root m_rootstate).m_children
        simp only [candidate_of, h5, h4]
        exact pattern_winrate_single_four _ r0 (by omega))
    obtain ⟨row, hrow, hcol⟩ := hex
    exact ⟨hr.2 (Or.inr ⟨_, List.mem_map.mpr ⟨row, hrow, rfl⟩, by simp [candidate_of, hcol]⟩),
      hr.1⟩


/-! ## Position 4 -/

set_option maxRecDepth 1000000 in
/-- The active squares of position 4. -/
theorem position4_active :
    active_squares [] [(1, 0), (2, 0), (3, 0)] = [(0, 0), (4, 0), (5, 0)] := by
  decide!

set_option maxRecDepth 1000000 in
/-- The table of tallies of position 4: white has a four at `(0, 0)` and at
`(5, 0)` and two fours at `(4, 0)`; black has no row. -/
theorem position4_table :
    scan_tallies position4
      = [(22, square_t.WHITE, 0, 1), (26, square_t.WHITE, 0, 2),
         (27, square_t.WHITE, 0, 1)] := by
  unfold position4
  rw [board_of_stones_tallies, position4_active]
  decide!

/-- The root of the examples with the one child `26`, sorted. -/
theorem sorted_root_with_one (board : FastBoard) (movenum : Nat) :
    (sorted_root example_cfg (root_with [26]) (state_at board movenum)).m_children
      = [example_child 26] := by
  have hr : ¬ (((state_at board movenum).m_movenum : Int) < example_cfg.cfg_random_cnt) := by
    simp [example_cfg, state_at]
  unfold sorted_root
  simp only [hr, if_false]
  exact root_with_one_sorted 26 _

set_option maxRecDepth 1000000 in
/-- The result of the scan of position 4 with the one child `26`. -/
theorem position4_scan :
    (root_scan position4 [example_child 26] 0).best_mine_winrate = 0 ∧
    (root_scan position4 [example_child 26] 0).best_enemy_winrate = 992361 / 1000000 ∧
    (root_scan position4 [example_child 26] 0).best_enemy_move = 26 := by
  rw [root_scan_eq, position4_table]
  refine ⟨by decide!, by decide!, by decide!⟩

/-- C25 in position 4, black to move: white's best vertex `(4, 0)`, the vertex
`26`, is a double four worth `0.992361`, black has no four, and
`get_best_move` returns the vertex `26`. -/
theorem get_best_move_double_four_witness :
    (root_scan (state_at position4 6).board
        (sorted_root example_cfg (root_with [26]) (state_at position4 6)).m_children
        (state_at position4 6).board.m_tomove).best_enemy_move = 26 ∧
    get_best_move example_cfg (root_with [26]) (state_at position4 6) 0
      = (root_scan (state_at position4 6).board
          (sorted_root example_cfg (root_with [26]) (state_at position4 6)).m_children
          (state_at position4 6).board.m_tomove).best_enemy_move :=
  ⟨by rw [sorted_root_with_one]; exact position4_scan.2.2,
   (get_best_move_double_four example_cfg (root_with [26]) (state_at position4 6) 0
      (example_child 26) [] (sorted_root_with_one position4 6)
      (by
        rw [sorted_root_with_one]
        show 0.99 ≤ (root_scan position4 [example_child 26] 0).best_enemy_winrate ∧
          (root_scan position4 [example_child 26] 0).best_enemy_winrate < 1
        rw [position4_scan.2.1]
        norm_num)).1
    (by
      rw [sorted_root_with_one]
      show (root_scan position4 [example_child 26] 0).best_mine_winrate < 0.98
      rw [position4_scan.1]
      norm_num)⟩

/-! ## The scan does not depend on how the four lines are listed -/

/-- The scan of the source is the scan over the table `dir`. -/
theorem scan_tally_eq_dirs (board : FastBoard) (pos : Int × Int) (color : square_t) :
    scan_tally board pos color = scan_tally_dirs board pos color dir := rfl

/-- The scan over any list of directions adds up the numbers of fives and of
fours of the directions, counted on the squares. -/
theorem scan_tally_dirs_sum (board : FastBoard) (pos : Int × Int) (color : square_t)
    (hpos : on_board pos) (hcolor : color ≠ square_t.EMPTY) (dirs : List (Int × Int)) :
    scan_tally_dirs board pos color dirs
      = ((dirs.map (fun d => (List.range 5).countP
            (fun w => decide (spec_own board pos color d w = 5)))).sum,
         (dirs.map (fun d => (List.range 5).countP
            (fun w => decide (spec_own board pos color d w = 4
              ∧ spec_empty board pos d w = 1)))).sum) := by
  unfold scan_tally_dirs
  rw [foldl_add_pair (fun ff d => count_windows (fill_stones board pos color d) ff)
    (fun d => (List.range 5).countP (fun w => decide (spec_own board pos color d w = 5)))
    (fun d => (List.range 5).countP
      (fun w => decide (spec_own board pos color d w = 4 ∧ spec_empty board pos d w = 1)))
    (fun ff d => count_windows_eq board pos color hpos hcolor d ff)]
  simp only [Nat.zero_add]

/-- The windows along the opposite direction are the windows along the
direction, each read backwards. -/
theorem window_squares_opposite (v d : Int × Int) (w : Nat) (hw : w < 5) :
    window_squares v (opposite d) w = (window_squares v d (4 - w)).reverse := by
  have hc : ((4 - w : Nat) : Int) = 4 - (w : Int) := by omega
  simp only [window_squares, line_square, opposite, List.range_succ, List.range_zero,
    List.nil_append, List.cons_append, List.map_cons, List.map_nil, List.reverse_cons,
    List.reverse_nil, hc]
  simp only [List.cons.injEq, Prod.mk.injEq, and_true]
  push_cast
  refine ⟨⟨?_, ?_⟩, ⟨?_, ?_⟩, ⟨?_, ?_⟩, ⟨?_, ?_⟩, ⟨?_, ?_⟩⟩ <;> ring

/-- The counts of a window along the opposite direction. -/
theorem spec_counts_opposite (board : FastBoard) (v : Int × Int) (C : square_t)
    (d : Int × Int) (w : Nat) (hw : w < 5) :
    spec_own board v C (opposite d) w = spec_own board v C d (4 - w) ∧
    spec_empty board v (opposite d) w = spec_empty board v d (4 - w) := by
  unfold spec_own spec_empty
  rw [window_squares_opposite v d w hw, List.countP_reverse, List.countP_reverse]
  exact ⟨rfl, rfl⟩

/-- Counting the five windows in the opposite order. -/
theorem countP_range_five_flip (p : Nat → Bool) :
    (List.range 5).countP (fun w => p (4 - w)) = (List.range 5).countP p := by
  simp only [List.range_succ, List.range_zero, List.nil_append, List.cons_append,
    List.countP_cons, List.countP_nil]
  simp only [show 4 - 0 = 4 from rfl, show 4 - 1 = 3 from rfl, show 4 - 2 = 2 from rfl,
    show 4 - 3 = 1 from rfl, show 4 - 4 = 0 from rfl]
  omega


/-- The numbers of fives and of fours of a direction are those of the opposite
direction. -/
theorem direction_counts_opposite (board : FastBoard) (v : Int × Int) (C : square_t)
    (d : Int × Int) :
    (List.range 5).countP (fun w => decide (spec_own board v C (opposite d) w = 5))
      = (List.range 5).countP (fun w => decide (spec_own board v C d w = 5)) ∧
    (List.range 5).countP (fun w => decide (spec_own board v C (opposite d) w = 4
        ∧ spec_empty board v (opposite d) w = 1))
      = (List.range 5).countP (fun w => decide (spec_own board v C d w = 4
        ∧ spec_empty board v d w = 1)) := by
  constructor
  · rw [← countP_range_five_flip (fun w => decide (spec_own board v C d w = 5))]
    apply List.countP_congr
    intro w hw
    have hlt : w < 5 := List.mem_range.mp hw
    rw [(spec_counts_opposite board v C d w hlt).1]
  · rw [← countP_range_five_flip (fun w => decide (spec_own board v C d w = 4
        ∧ spec_empty board v d w = 1))]
    apply List.countP_congr
    intro w hw
    have hlt : w < 5 := List.mem_range.mp hw
    rw [(spec_counts_opposite board v C d w hlt).1, (spec_counts_opposite board v C d w hlt).2]

/-- C29. For every board, every vertex `(x, y)` of the board and each colour
(black or white), the tallies of the pattern scan are the same for every list
of directions that is a rearrangement of another, for every list in which some
directions are replaced by their opposites, and for the four directions of the
source each rotated by 90 degrees: the tallies depend on the lines through the
vertex only. -/
theorem scan_tally_lines (board : FastBoard) (x y : Int) (color : square_t)
    (hx : 0 ≤ x ∧ x < 19) (hy : 0 ≤ y ∧ y < 19)
    (hcolor : color = square_t.BLACK ∨ color = square_t.WHITE) :
    (∀ ds ds' : List (Int × Int), ds.Perm ds' →
      scan_tally_dirs board (x, y) color ds = scan_tally_dirs board (x, y) color ds') ∧
    (∀ (ds : List (Int × Int)) (flip : Int × Int → Bool),
      scan_tally_dirs board (x, y) color (ds.map (fun d => if flip d then opposite d else d))
        = scan_tally_dirs board (x, y) color ds) ∧
    scan_tally_dirs board (x, y) color (dir.map rotate90) = scan_tally board (x, y) color := by
  have hpos : on_board (x, y) := ⟨hx.1, hx.2, hy.1, hy.2⟩
  have hne : color ≠ square_t.EMPTY := by
    rcases hcolor with h | h <;> simp [h]
  have hperm : ∀ ds ds' : List (Int × Int), ds.Perm ds' →
      scan_tally_dirs board (x, y) color ds = scan_tally_dirs board (x, y) color ds' := by
    intro ds ds' h
    rw [scan_tally_dirs_sum board (x, y) color hpos hne,
      scan_tally_dirs_sum board (x, y) color hpos hne]
    rw [(h.map _).sum_eq, (h.map _).sum_eq]
  have hflip : ∀ (ds : List (Int × Int)) (flip : Int × Int → Bool),
      scan_tally_dirs board (x, y) color (ds.map (fun d => if flip d then opposite d else d))
        = scan_tally_dirs board (x, y) color ds := by
    intro ds flip
    rw [scan_tally_dirs_sum board (x, y) color hpos hne,
      scan_tally_dirs_sum board (x, y) color hpos hne, List.map_map, List.map_map]
    have h5 : ∀ d : Int × Int,
        ((fun d => (List.range 5).countP
            (fun w => decide (spec_own board (x, y) color d w = 5)))
          ∘ (fun d => if flip d then opposite d else d)) d
        = (List.range 5).countP (fun w => decide (spec_own board (x, y) color d w = 5)) := by
      intro d
      simp only [Function.comp]
      split
      · exact (direction_counts_opposite board (x, y) color d).1
      · rfl
    have h4 : ∀ d : Int × Int,
        ((fun d => (List.range 5).countP
            (fun w => decide (spec_own board (x, y) color d w = 4
              ∧ spec_empty board (x, y) d w = 1)))
          ∘ (fun d => if flip d then opposite d else d)) d
        = (List.range 5).countP (fun w => decide (spec_own board (x, y) color d w = 4
              ∧ spec_empty board (x, y) d w = 1)) := by
      intro d
      simp only [Function.comp]
      split
      · exact (direction_counts_opposite board (x, y) color d).2
      · rfl
    rw [List.map_congr_left (fun d _ => h5 d), List.map_congr_left (fun d _ => h4 d)]
  refine ⟨hperm, hflip, ?_⟩
  rw [scan_tally_eq_dirs]
  have hrot : dir.map rotate90
      = [(0, 1), opposite (1, 0), (-1, 1), opposite (1, 1)] := by
    simp [dir, rotate90, opposite]
  have hflipped : [opposite ((1 : Int), (0 : Int)), (0, 1), opposite (1, 1), (-1, 1)]
      = dir.map (fun d => if (decide (d = (1, 0)) || decide (d = (1, 1))) then opposite d
          else d) := by
    simp [dir]
  rw [hrot, hperm [(0, 1), opposite (1, 0), (-1, 1), opposite (1, 1)]
      [opposite (1, 0), (0, 1), opposite (1, 1), (-1, 1)]
      ((List.Perm.swap _ _ _).trans ((List.Perm.swap _ _ _).cons _ |>.cons _)),
    hflipped, hflip]


/-- C29 in position 1 at the vertex `(9, 9)` for black: the scan over the
rotated directions gives the tallies of the scan. -/
theorem scan_tally_lines_witness :
    scan_tally_dirs position1 (9, 9) square_t.BLACK (dir.map rotate90)
      = scan_tally position1 (9, 9) square_t.BLACK :=
  (scan_tally_lines position1 9 9 square_t.BLACK (by decide) (by decide) (Or.inl rfl)).2.2

/-! ## The threes of the scan in `create_children` -/

/-- The cell `j` of the buffer holds the code of the square `j - 4` steps from
`pos`. -/
theorem fill_stones_getD (board : FastBoard) (pos : Int × Int) (color : square_t)
    (d : Int × Int) (j : Nat) (hj : j < 9) :
    (fill_stones board pos color d).getD j 0
      = stone_code board pos color (line_square pos d ((j : Int) - 4)) := by
  rw [fill_stones_eq, List.getD_eq_getElem?_getD, List.getElem?_map,
    List.getElem?_range hj]
  rfl

/-- C30, amended. In the scan of `create_children`, for a vertex of the board
and a colour, the window `j` of a direction increments `three` if and only if
it holds exactly three own squares and exactly two empty squares and at least
one of its two end squares is empty; in every other case `three` stays as it
was. -/
theorem expansion_window_three (board : FastBoard) (pos : Int × Int) (color : square_t)
    (hpos : on_board pos) (hcolor : color ≠ square_t.EMPTY) (d : Int × Int)
    (fft : Nat × Nat × Nat) (j : Nat) (hj : j < 5) :
    ((expansion_window (fill_stones board pos color d) fft j).2.2 = fft.2.2 + 1 ↔
      spec_own board pos color d j = 3 ∧ spec_empty board pos d j = 2 ∧
      (empty_square board pos (line_square pos d ((j : Int) - 4)) = true ∨
       empty_square board pos (line_square pos d (j : Int)) = true)) ∧
    ((expansion_window (fill_stones board pos color d) fft j).2.2 = fft.2.2 + 1 ∨
     (expansion_window (fill_stones board pos color d) fft j).2.2 = fft.2.2) := by
  have hfirst : (fill_stones board pos color d).getD j 0 = 0 ↔
      empty_square board pos (line_square pos d ((j : Int) - 4)) = true := by
    rw [fill_stones_getD board pos color d j (by omega)]
    exact stone_code_eq_zero board pos color hcolor _
  have hlast : (fill_stones board pos color d).getD (j + 4) 0 = 0 ↔
      empty_square board pos (line_square pos d (j : Int)) = true := by
    have hc : (((j + 4 : Nat) : Int) - 4) = (j : Int) := by omega
    rw [fill_stones_getD board pos color d (j + 4) (by omega), hc]
    exact stone_code_eq_zero board pos color hcolor _
  have hstep : expansion_window (fill_stones board pos color d) fft j
      = if spec_own board pos color d j = 5 then (fft.1 + 1, fft.2.1, fft.2.2)
        else if spec_own board pos color d j = 4 ∧ spec_empty board pos d j = 1 then
          (fft.1, fft.2.1 + 1, fft.2.2)
        else if spec_own board pos color d j = 3 ∧ spec_empty board pos d j = 2 then
          if empty_square board pos (line_square pos d ((j : Int) - 4)) = true ∨
              empty_square board pos (line_square pos d (j : Int)) = true then
            (fft.1, fft.2.1, fft.2.2 + 1)
          else fft
        else fft := by
    unfold expansion_window
    simp only [window_counts_eq board pos color hpos hcolor d j hj, DK_num_stone,
      Nat.add_one_sub_one, Nat.reduceSub, hfirst]
    have h4 : j + 5 - 1 = j + 4 := by omega
    simp only [h4, hlast]
  rw [hstep]
  by_cases h5 : spec_own board pos color d j = 5
  · rw [if_pos h5]
    refine ⟨⟨fun h => ?_, fun h => ?_⟩, Or.inr rfl⟩
    · simp at h
    · omega
  · rw [if_neg h5]
    by_cases h4 : spec_own board pos color d j = 4 ∧ spec_empty board pos d j = 1
    · rw [if_pos h4]
      refine ⟨⟨fun h => ?_, fun h => ?_⟩, Or.inr rfl⟩
      · simp at h
      · omega
    · rw [if_neg h4]
      by_cases h3 : spec_own board pos color d j = 3 ∧ spec_empty board pos d j = 2
      · rw [if_pos h3]
        by_cases he : empty_square board pos (line_square pos d ((j : Int) - 4)) = true ∨
            empty_square board pos (line_square pos d (j : Int)) = true
        · rw [if_pos he]
          exact ⟨⟨fun _ => ⟨h3.1, h3.2, he⟩, fun _ => rfl⟩, Or.inl rfl⟩
        · rw [if_neg he]
          refine ⟨⟨fun h => ?_, fun h => absurd h.2.2 he⟩, Or.inr rfl⟩
          omega
      · rw [if_neg h3]
        refine ⟨⟨fun h => ?_, fun h => absurd ⟨h.1, h.2.1⟩ h3⟩, Or.inr rfl⟩
        omega


set_option maxRecDepth 1000000 in
/-- C30, as stated, fails. On the board with the black stones `(5, 0)` and
`(6, 0)`, at the vertex `(4, 0)` for black along the direction `(1, 0)`, the
window `(4, 0) .. (8, 0)` holds three own squares and two empty squares and
increments `three`, and its first end square is the vertex itself, an own
square and not an empty one. -/
theorem expansion_window_one_end :
    ¬ ∀ (board : FastBoard) (pos : Int × Int) (color : square_t) (d : Int × Int)
        (fft : Nat × Nat × Nat) (j : Nat),
        on_board pos → color ≠ square_t.EMPTY → j < 5 →
        (expansion_window (fill_stones board pos color d) fft j).2.2 = fft.2.2 + 1 →
        spec_own board pos color d j = 3 ∧ spec_empty board pos d j = 2 ∧
        empty_square board pos (line_square pos d ((j : Int) - 4)) = true ∧
        empty_square board pos (line_square pos d (j : Int)) = true := by
  intro h
  have h0 := h three_board (4, 0) square_t.BLACK (1, 0) (0, 0, 0) 4 (by decide) (by decide)
    (by decide) (by decide!)
  have hv : empty_square three_board (4, 0) (line_square (4, 0) (1, 0) (((4 : Nat) : Int) - 4))
      = false := by decide!
  rw [hv] at h0
  exact absurd h0.2.2.1 (by decide)

set_option maxRecDepth 1000000 in
/-- C30, amended, on the board with the black stones `(5, 0)` and `(6, 0)`: the
window `(4, 0) .. (8, 0)` of the vertex `(4, 0)` increments `three`; it holds
three own squares and two empty squares and its last end square is empty. -/
theorem expansion_window_three_witness :
    (expansion_window (fill_stones three_board (4, 0) square_t.BLACK (1, 0)) (0, 0, 0) 4).2.2
      = 1 ∧
    spec_own three_board (4, 0) square_t.BLACK (1, 0) 4 = 3 ∧
    spec_empty three_board (4, 0) (1, 0) 4 = 2 ∧
    (empty_square three_board (4, 0) (line_square (4, 0) (1, 0) (((4 : Nat) : Int) - 4)) = true ∨
     empty_square three_board (4, 0) (line_square (4, 0) (1, 0) ((4 : Nat) : Int)) = true) :=
  ⟨by decide!,
   (expansion_window_three three_board (4, 0) square_t.BLACK (by decide) (by decide) (1, 0)
      (0, 0, 0) 4 (by decide)).1.mp (by decide!)⟩

/-! ## `create_children` succeeds at most once -/

/-- The flag `m_is_expanding` after `link_nodelist` is the flag before it. -/
theorem link_nodelist_is_expanding (n : UCTNode) (nodecount : Int)
    (nodelist : List scored_node) (init_eval : ℚ) :
    (n.link_nodelist nodecount nodelist init_eval).1.m_is_expanding = n.m_is_expanding := by
  by_cases hne : nodelist = []
  · subst hne
    simp [UCTNode.link_nodelist]
  · rw [link_nodelist_spec n nodecount nodelist init_eval hne]

/-- After a successful `create_children` the node is marked as expanding. -/
theorem create_children_marks (n : UCTNode) (nodecount : Int) (state : GameState)
    (raw_netlist : List scored_node × ℚ)
    (h : (n.create_children nodecount state raw_netlist).success = true) :
    (n.create_children nodecount state raw_netlist).node.m_is_expanding = true := by
  obtain ⟨_, _, hnode, _⟩ := create_children_success n nodecount state raw_netlist h
  rw [hnode, link_nodelist_is_expanding]

/-- On a node marked as expanding every call of a sequence returns false and
the node stays as it is. -/
theorem create_children_calls_marked (n : UCTNode) (nodecount : Int)
    (calls : List (GameState × (List scored_node × ℚ))) (h : n.m_is_expanding = true) :
    (∀ r ∈ (create_children_calls n nodecount calls).1, r = false) ∧
    (create_children_calls n nodecount calls).2.1 = n ∧
    (create_children_calls n nodecount calls).2.2 = nodecount := by
  induction calls with
  | nil => exact ⟨fun r hr => (by cases hr), rfl, rfl⟩
  | cons call rest ih =>
    have he : n.create_children nodecount call.1 call.2 = ⟨false, n, nodecount, none⟩ := by
      unfold UCTNode.create_children
      by_cases h1 : n.m_has_children = true
      · simp [h1]
      · by_cases h2 : call.1.m_passes ≥ 2
        · simp [h1, h2]
        · simp [h1, h2, h]
    simp only [create_children_calls, he]
    obtain ⟨a, b, c⟩ := ih
    refine ⟨?_, b, c⟩
    intro r hr
    rcases List.mem_cons.mp hr with h0 | h0
    · exact h0
    · exact a r h0

/-- C34. In every sequence of `create_children` calls on one node, whatever the
states and the oracle answers, at most one call returns true.  When a call
with an empty oracle list returns true, `has_children` is false after it, every
later call returns false and the node stays as that call left it. -/
theorem create_children_calls_once (n : UCTNode) (nodecount : Int)
    (calls : List (GameState × (List scored_node × ℚ))) :
    (create_children_calls n nodecount calls).1.count true ≤ 1 ∧
    ∀ (state : GameState) (raw_netlist : List scored_node × ℚ),
      raw_netlist.1 = [] →
      (n.create_children nodecount state raw_netlist).success = true →
      (n.create_children nodecount state raw_netlist).node.m_has_children = false ∧
      (∀ r ∈ (create_children_calls (n.create_children nodecount state raw_netlist).node
          (n.create_children nodecount state raw_netlist).nodecount calls).1, r = false) ∧
      (create_children_calls (n.create_children nodecount state raw_netlist).node
          (n.create_children nodecount state raw_netlist).nodecount calls).2.1
        = (n.create_children nodecount state raw_netlist).node := by
  constructor
  · induction calls generalizing n nodecount with
    | nil => simp [create_children_calls]
    | cons call rest ih =>
      simp only [create_children_calls]
      by_cases hs : (n.create_children nodecount call.1 call.2).success = true
      · have hm := create_children_marks n nodecount call.1 call.2 hs
        have hall := (create_children_calls_marked
          (n.create_children nodecount call.1 call.2).node
          (n.create_children nodecount call.1 call.2).nodecount rest hm).1
        have hzero : (create_children_calls (n.create_children nodecount call.1 call.2).node
            (n.create_children nodecount call.1 call.2).nodecount rest).1.count true = 0 := by
          rw [List.count_eq_zero]
          intro hmem
          exact absurd (hall true hmem) (by decide)
        rw [hs, List.count_cons_self, hzero]
      · have hf : (n.create_children nodecount call.1 call.2).success = false := by
          simpa using hs
        rw [hf, List.count_cons_of_ne (by decide)]
        exact ih _ _
  · intro state raw_netlist hempty hs
    have hm := create_children_marks n nodecount state raw_netlist hs
    obtain ⟨a, b, _⟩ := create_children_calls_marked
      (n.create_children nodecount state raw_netlist).node
      (n.create_children nodecount state raw_netlist).nodecount calls hm
    refine ⟨?_, a, b⟩
    obtain ⟨h1, _, hnode, _⟩ := create_children_success n nodecount state raw_netlist hs
    rw [hnode, hempty]
    simp [UCTNode.link_nodelist, h1]

/-! ## `get_best_move` on a root without children -/

/-- C35. When the root has no children `get_best_move` returns `PASS`, for
every configuration, state and pass flag: the override rules are not
evaluated. -/
theorem get_best_move_no_children (cfg : Config) (m_root : UCTNode) (m_rootstate : GameState)
    (passflag : Nat) (h : m_root.m_children = []) :
    get_best_move cfg m_root m_rootstate passflag = PASS := by
  unfold get_best_move
  simp [h]

set_option maxRecDepth 1000000 in
/-- C35 in position 1, where the empty vertex `(4, 0)` completes a five for
black, the side to move: without children the result is `PASS`. -/
theorem get_best_move_no_children_witness :
    scan_tally position1 (4, 0) square_t.BLACK = (1, 0) ∧
    get_best_move example_cfg (root_with []) (state_at position1 44) 0 = PASS :=
  ⟨by decide!,
   get_best_move_no_children example_cfg (root_with []) (state_at position1 44) 0 rfl⟩

/-! ## The main loop of `think` -/

/-- A reading more than `250` centiseconds after `last_update` ends the loop. -/
theorem think_loop_break (time_for_move last_update : Int) (r : Reading)
    (rest : List Reading) (h : r.centiseconds_elapsed - last_update > 250) :
    think_loop time_for_move last_update (r :: rest) = some 1 := by
  simp [think_loop, h]

/-- A reading at most `250` centiseconds after `last_update` lets the loop run
another simulation exactly when the run flag is set, the time is below
`time_for_move` and the playout limit is not reached. -/
theorem think_loop_continue (time_for_move last_update : Int) (r : Reading)
    (rest : List Reading) (h : ¬ r.centiseconds_elapsed - last_update > 250) :
    think_loop time_for_move last_update (r :: rest)
      = if r.is_running = true ∧ r.centiseconds_elapsed < time_for_move
            ∧ r.playout_limit_reached = false then
          (think_loop time_for_move last_update rest).map (fun k => k + 1)
        else some 1 := by
  simp only [think_loop, h, if_false]
  by_cases h1 : r.is_running = true <;> by_cases h2 : r.centiseconds_elapsed < time_for_move <;>
    by_cases h3 : r.playout_limit_reached = true <;> simp [h1, h2, h3]

/-- C31, on the code. With `time_for_move` = 1000 centiseconds, the run flag
set and the playout limit not reached, and the clock reading `100`, `200`,
`251`, `300`, `1000` after the simulations, the loop stops after the third
simulation, at `251` centiseconds: none of the three conditions holds there. -/
theorem think_loop_stops_early :
    think_loop 1000 0
        [quiet_reading 100, quiet_reading 200, quiet_reading 251, quiet_reading 300,
         quiet_reading 1000] = some 3 ∧
    (quiet_reading 251).is_running = true ∧
    (quiet_reading 251).centiseconds_elapsed < 1000 ∧
    (quiet_reading 251).playout_limit_reached = false := by
  refine ⟨by decide, rfl, by decide, rfl⟩

/-! ## The indices of the buffer `stones` -/

/-- C32, on the code. For every board, vertex, colour and direction the fill
loop stores outside the buffer: the buffer has `9` cells and the loop stores at
`stones[9]`.  The indices the window loops read are inside the buffer. -/
theorem fill_stones_out_of_bounds (board : FastBoard) (pos : Int × Int) (color : square_t)
    (d : Int × Int) :
    fill_stones_checked board pos color d = none ∧
    9 ∈ List.range (DK_num_stone * 2) ∧
    ¬ 9 < (List.replicate (DK_num_stone * 2 - 1) 0).length ∧
    ∀ k ∈ window_indices, k < (List.replicate (DK_num_stone * 2 - 1) 0).length := by
  refine ⟨?_, by decide, by decide, by decide⟩
  simp [fill_stones_checked, DK_num_stone, List.range_succ, List.replicate]

/-! ## The head of the sorted list and `get_best_root_child` -/

/-- The tuple `get_sortnode` builds is the tuple `sort_root_children` builds. -/
theorem get_sortnode_eq (color : Int) (child : UCTNode) :
    get_sortnode color child = sort_entry color child := by
  unfold get_sortnode sort_entry
  by_cases h : child.m_visits = 0
  · simp [h]
  · simp [h]

/-- No entry goes before itself. -/
theorem NodeComp_irrefl (a : sortnode_t) : NodeComp a a = false := by
  rcases NodeComp_total a a with h | h <;> exact h

/-- The loop of `get_best_root_child`: the result is the start or the entry of
a child of the list, and no entry of the list and not the start goes before
it. -/
theorem best_fold_spec (color : Int) (l : List UCTNode) (b : sortnode_t) :
    ((l.foldl (fun best_child child =>
          if NodeComp (get_sortnode color child) best_child then get_sortnode color child
          else best_child) b = b) ∨
      ∃ c ∈ l, l.foldl (fun best_child child =>
          if NodeComp (get_sortnode color child) best_child then get_sortnode color child
          else best_child) b = get_sortnode color c) ∧
    NodeComp b (l.foldl (fun best_child child =>
          if NodeComp (get_sortnode color child) best_child then get_sortnode color child
          else best_child) b) = false ∧
    ∀ c ∈ l, NodeComp (get_sortnode color c) (l.foldl (fun best_child child =>
          if NodeComp (get_sortnode color child) best_child then get_sortnode color child
          else best_child) b) = false := by
  induction l generalizing b with
  | nil => exact ⟨Or.inl rfl, NodeComp_irrefl b, fun c hc => (by cases hc)⟩
  | cons t l ih =>
    rw [List.foldl_cons]
    by_cases ht : NodeComp (get_sortnode color t) b = true
    · rw [if_pos ht]
      obtain ⟨h1, h2, h3⟩ := ih (get_sortnode color t)
      refine ⟨?_, ?_, ?_⟩
      · rcases h1 with h | ⟨c, hc, h⟩
        · exact Or.inr ⟨t, List.mem_cons_self _ _, h⟩
        · exact Or.inr ⟨c, List.mem_cons_of_mem _ hc, h⟩
      · by_contra hcon
        have hb : NodeComp b (get_sortnode color t) = false := by
          rcases NodeComp_total b (get_sortnode color t) with h | h
          · rw [h] at ht; cases ht
          · exact h
        have := NodeComp_trans _ _ _ h2 hb
        exact hcon this
      · intro c hc
        rcases List.mem_cons.mp hc with h | h
        · subst h; exact h2
        · exact h3 c h
    · have hf : NodeComp (get_sortnode color t) b = false := by simpa using ht
      rw [if_neg ht]
      obtain ⟨h1, h2, h3⟩ := ih b
      refine ⟨?_, h2, ?_⟩
      · rcases h1 with h | ⟨c, hc, h⟩
        · exact Or.inl h
        · exact Or.inr ⟨c, List.mem_cons_of_mem _ hc, h⟩
      · intro c hc
        rcases List.mem_cons.mp hc with h | h
        · subst h
          exact NodeComp_trans _ _ _ h2 hf
        · exact h3 c h


/-- What `get_best_root_child` returns on a non-empty list is a child of the
list, and the entry of no child goes before its entry. -/
theorem get_best_root_child_spec (n : UCTNode) (color : Int) (hne : n.m_children ≠ []) :
    ∃ b, n.get_best_root_child color = some b ∧ b ∈ n.m_children ∧
      ∀ c ∈ n.m_children,
        NodeComp (sort_entry color c) (sort_entry color b) = false := by
  unfold UCTNode.get_best_root_child
  cases hc : n.m_children with
  | nil => exact absurd hc hne
  | cons t l =>
    obtain ⟨h1, _, h3⟩ := best_fold_spec color (t :: l) (get_sortnode color t)
    have hmem : ∃ c ∈ t :: l, (t :: l).foldl (fun best_child child =>
          if NodeComp (get_sortnode color child) best_child then get_sortnode color child
          else best_child) (get_sortnode color t) = get_sortnode color c := by
      rcases h1 with h | h
      · exact ⟨t, List.mem_cons_self _ _, h⟩
      · exact h
    obtain ⟨b, hb, hfold⟩ := hmem
    refine ⟨b, ?_, hb, ?_⟩
    · simp only []
      rw [hfold, get_sortnode_eq, sort_entry_child]
    · intro c hc'
      have := h3 c hc'
      rw [hfold, get_sortnode_eq, get_sortnode_eq] at this
      exact this

/-- The head of the list after `sort_root_children` on a non-empty list is a
child of the list before, and the entry of no child goes before its entry. -/
theorem sort_root_children_head_spec (n : UCTNode) (color : Int) (hne : n.m_children ≠ []) :
    ∃ b, (n.sort_root_children color).m_children.head? = some b ∧ b ∈ n.m_children ∧
      ∀ c ∈ n.m_children,
        NodeComp (sort_entry color c) (sort_entry color b) = false := by
  rw [sort_root_children_children]
  have hperm : List.Perm (stable_sort NodeComp (n.m_children.map (sort_entry color)).reverse)
      (n.m_children.map (sort_entry color)) :=
    (List.perm_insertionSort _ _).trans (List.reverse_perm _)
  have hsorted := stable_sort_sorted (n.m_children.map (sort_entry color)).reverse
  cases hs : stable_sort NodeComp (n.m_children.map (sort_entry color)).reverse with
  | nil =>
    rw [hs] at hperm
    have := hperm.symm.eq_nil
    simp at this
    exact absurd this hne
  | cons e rest =>
    rw [hs] at hperm hsorted
    have he : e ∈ n.m_children.map (sort_entry color) :=
      hperm.subset (List.mem_cons_self _ _)
    obtain ⟨b, hb, hbe⟩ := List.mem_map.mp he
    refine ⟨b, ?_, hb, ?_⟩
    · simp only [List.map_cons, List.head?_cons]
      rw [← hbe, sort_entry_child]
    · intro c hc
      have hce : sort_entry color c ∈ e :: rest :=
        hperm.symm.subset (List.mem_map.mpr ⟨c, hc, rfl⟩)
      rw [hbe]
      rcases List.mem_cons.mp hce with h | h
      · rw [h]; exact NodeComp_irrefl e
      · exact List.rel_of_pairwise_cons hsorted h

/-- The head after the sort is not always the child `get_best_root_child`
returns: the two children of `tie_root` tie; after the sort the second stands
at the head, and `get_best_root_child` returns the first. -/
theorem sort_head_differs_from_best_root_child :
    ¬ ∀ (n : UCTNode) (color : Int), n.m_children ≠ [] →
        (n.sort_root_children color).m_children.head? = n.get_best_root_child color := by
  intro h
  have h0 := h tie_root 0 (by simp [tie_root])
  have hs : (tie_root.sort_root_children 0).m_children = [tie_second, tie_first] := by
    simp [sort_root_children_children, tie_root, stable_sort, sort_entry, tie_first,
      tie_second, UCTNode.new, NodeComp, List.insertionSort, List.orderedInsert]
  have hb : tie_root.get_best_root_child 0 = some tie_first := by
    simp [UCTNode.get_best_root_child, tie_root, get_sortnode, tie_first, tie_second,
      UCTNode.new, NodeComp]
  rw [hs, hb] at h0
  have hne : tie_second ≠ tie_first := by
    intro he
    have := congrArg UCTNode.m_move he
    simp [tie_first, tie_second, UCTNode.new] at this
  simp at h0
  exact hne h0

/-- Without ties the two paths agree: for a non-empty child list in which no
two children tie under `NodeComp`, the head of the list after
`sort_root_children` is the child `get_best_root_child` returns on the list
before the sort. -/
theorem sort_head_eq_best_root_child (n : UCTNode) (color : Int)
    (hne : n.m_children ≠ [])
    (hties : n.m_children.Pairwise (fun c d => ¬ tied color c d)) :
    (n.sort_root_children color).m_children.head? = n.get_best_root_child color := by
  obtain ⟨b, hb, hbm, hbbest⟩ := get_best_root_child_spec n color hne
  obtain ⟨s, hs, hsm, hsbest⟩ := sort_root_children_head_spec n color hne
  rw [hb, hs]
  by_contra hcon
  have hsb : s ≠ b := fun he => hcon (by rw [he])
  have hsym : Symmetric (fun c d : UCTNode => ¬ tied color c d) :=
    fun c d hcd hdc => hcd ⟨hdc.2, hdc.1⟩
  exact List.Pairwise.forall hsym hties hsm hbm hsb ⟨hbbest s hsm, hsbest b hbm⟩

/-- The agreement at `visits_root`, whose children have `10`, `30` and `60`
visits: both the head after the sort and `get_best_root_child` are the child
with `60` visits. -/
theorem sort_head_eq_best_root_child_witness :
    visits_root.m_children ≠ [] ∧
    visits_root.m_children.Pairwise (fun c d => ¬ tied 0 c d) ∧
    (visits_root.sort_root_children 0).m_children.head?
      = visits_root.get_best_root_child 0 ∧
    visits_root.get_best_root_child 0 = some (visited_child 62 60) :=
  ⟨by simp [visits_root],
   by simp [visits_root, tied, NodeComp, sort_entry, visited_child, UCTNode.new],
   sort_head_eq_best_root_child visits_root 0 (by simp [visits_root])
     (by simp [visits_root, tied, NodeComp, sort_entry, visited_child, UCTNode.new]),
   by simp [UCTNode.get_best_root_child, visits_root, get_sortnode, visited_child,
     UCTNode.new, NodeComp, UCTNode.get_eval]⟩

/-- C36, on the code. At `tie_root`, whose two children tie for the best, the
head of the list after `sort_root_children` is the second child, and
`get_best_root_child` on the list before the sort returns the first child: the
two are not the same child. -/
theorem sort_head_not_best_root_child :
    tie_root.m_children = [tie_first, tie_second] ∧
    (tie_root.sort_root_children 0).m_children.head? = some tie_second ∧
    tie_root.get_best_root_child 0 = some tie_first ∧
    tie_second ≠ tie_first ∧
    (tie_root.sort_root_children 0).m_children.head? ≠ tie_root.get_best_root_child 0 := by
  have hs : (tie_root.sort_root_children 0).m_children = [tie_second, tie_first] := by
    simp [sort_root_children_children, tie_root, stable_sort, sort_entry, tie_first,
      tie_second, UCTNode.new, NodeComp, List.insertionSort, List.orderedInsert]
  have hb : tie_root.get_best_root_child 0 = some tie_first := by
    simp [UCTNode.get_best_root_child, tie_root, get_sortnode, tie_first, tie_second,
      UCTNode.new, NodeComp]
  have hne : tie_second ≠ tie_first := by
    intro he
    have := congrArg UCTNode.m_move he
    simp [tie_first, tie_second, UCTNode.new] at this
  refine ⟨rfl, by rw [hs]; rfl, hb, hne, ?_⟩
  rw [hs, hb]
  intro h
  exact hne (Option.some.inj h)

/-! ## `win` and the fives of the pattern scan -/

/-- On the board with the stone on `v`, the squares of the board that hold `C`
are the own squares of the scan at `v`. -/
theorem own_square_placed (board board' : FastBoard) (v : Int × Int) (C : square_t)
    (hv : on_board v) (hC : board'.get_square_xy v.1 v.2 = C)
    (hother : ∀ p q : Int, (p, q) ≠ v → board'.get_square_xy p q = board.get_square_xy p q)
    (p : Int × Int) :
    (on_board p ∧ board'.get_square_xy p.1 p.2 = C) ↔ own_square board v C p = true := by
  unfold own_square
  simp only [decide_eq_true_eq]
  by_cases hp : p = v
  · subst hp
    simp [hv, hC]
  · rw [hother p.1 p.2 hp]
    simp [hp]

/-- The `while` loop of `win` returns when the fuel exceeds the distance to the
edge: it adds to `count` the length `r` of the run of `color` that starts at
`tpos`. -/
theorem win_while_run (board : FastBoard) (color : square_t) (d : Int × Int)
    (hd : unit_step d) :
    ∀ (fuel : Nat) (tpos : Int × Int) (count : Nat),
      0 < fuel → (on_board tpos → steps_left d tpos < fuel) →
      ∃ r : Nat, win_while board color d fuel tpos count = some (count + r) ∧
        (∀ i : Nat, i < r → on_board (line_square tpos d i) ∧
          board.get_square_xy (line_square tpos d i).1 (line_square tpos d i).2 = color) ∧
        ¬ (on_board (line_square tpos d r) ∧
          board.get_square_xy (line_square tpos d r).1 (line_square tpos d r).2 = color) := by
  intro fuel
  induction fuel with
  | zero => intro tpos count h; exact absurd h (by decide)
  | succ f ih =>
    intro tpos count _ hfuel
    have h0 : line_square tpos d ((0 : Nat) : Int) = tpos := by
      simp [line_square]
    unfold win_while
    by_cases hb : on_board tpos
    · have hcond : tpos.1 ≥ 0 ∧ tpos.1 < MAXBOARDSIZE ∧ tpos.2 ≥ 0 ∧ tpos.2 < MAXBOARDSIZE := by
        unfold on_board at hb; unfold MAXBOARDSIZE; omega
      rw [if_pos hcond]
      by_cases hc : board.get_square_xy tpos.1 tpos.2 = color
      · simp only [hc, ne_eq, not_true_eq_false, if_false]
        have hmeasure := hfuel hb
        have hf : 0 < f ∧ (on_board (tpos.1 + d.1, tpos.2 + d.2) →
            steps_left d (tpos.1 + d.1, tpos.2 + d.2) < f) := by
          obtain ⟨dx, dy⟩ := d
          obtain ⟨tx, ty⟩ := tpos
          unfold steps_left at hmeasure ⊢
          unfold on_board at hb ⊢
          unfold unit_step at hd
          simp only [] at hd hb hmeasure ⊢
          rcases hd with h | h | ⟨h, h2 | h2⟩
          · subst h; simp only [if_true] at hmeasure ⊢; omega
          · subst h
            simp only [show ¬ ((-1 : Int) = 1) by decide, if_false, if_true] at hmeasure ⊢
            omega
          · subst h; subst h2
            simp only [show ¬ ((0 : Int) = 1) by decide, show ¬ ((0 : Int) = -1) by decide,
              if_false, if_true] at hmeasure ⊢
            omega
          · subst h; subst h2
            simp only [show ¬ ((0 : Int) = 1) by decide, show ¬ ((0 : Int) = -1) by decide,
              show ¬ ((-1 : Int) = 1) by decide, if_false] at hmeasure ⊢
            omega
        obtain ⟨r, hr, hrun, hend⟩ := ih (tpos.1 + d.1, tpos.2 + d.2) (count + 1) hf.1 hf.2
        have hshift : ∀ i : Nat, line_square (tpos.1 + d.1, tpos.2 + d.2) d (i : Int)
            = line_square tpos d ((i + 1 : Nat) : Int) := by
          intro i
          simp only [line_square, Nat.cast_add, Nat.cast_one, Prod.mk.injEq]
          constructor <;> ring
        refine ⟨r + 1, ?_, ?_, ?_⟩
        · rw [hr]; congr 1; omega
        · intro i hi
          cases i with
          | zero => rw [h0]; exact ⟨hb, hc⟩
          | succ j =>
            rw [← hshift j]
            exact hrun j (by omega)
        · rw [← hshift r]; exact hend
      · simp only [hc, ne_eq, not_false_eq_true, if_true]
        refine ⟨0, rfl, fun i hi => absurd hi (by omega), ?_⟩
        rw [h0]
        exact fun h => hc h.2
    · have hcond : ¬ (tpos.1 ≥ 0 ∧ tpos.1 < MAXBOARDSIZE ∧ tpos.2 ≥ 0
          ∧ tpos.2 < MAXBOARDSIZE) := by
        unfold on_board at hb; unfold MAXBOARDSIZE; omega
      rw [if_neg hcond]
      refine ⟨0, rfl, fun i hi => absurd hi (by omega), ?_⟩
      rw [h0]
      exact fun h => hb h.1

/-- A run of `rp` squares ahead and `rm` squares behind the square `0` of a
line reaches five squares together with it exactly when one of the five windows
of five squares through `0` lies inside the run. -/
theorem run_window (g : Int → Prop) (h0 : g 0) (rp rm : Nat)
    (hp : ∀ i : Nat, i < rp → g (1 + (i : Int))) (hpend : ¬ g (1 + (rp : Int)))
    (hm : ∀ i : Nat, i < rm → g (-(1 + (i : Int)))) (hmend : ¬ g (-(1 + (rm : Int)))) :
    5 ≤ 1 + rp + rm ↔ ∃ w : Nat, w < 5 ∧ ∀ i : Nat, i < 5 → g ((w : Int) - 4 + (i : Int)) := by
  have hin : ∀ t : Int, -(rm : Int) ≤ t → t ≤ (rp : Int) → g t := by
    intro t h1 h2
    rcases lt_trichotomy t 0 with h | h | h
    · have := hm (-t - 1).toNat (by omega)
      have he : -(1 + (((-t - 1).toNat : Nat) : Int)) = t := by omega
      rw [he] at this; exact this
    · rw [h]; exact h0
    · have := hp (t - 1).toNat (by omega)
      have he : 1 + (((t - 1).toNat : Nat) : Int) = t := by omega
      rw [he] at this; exact this
  constructor
  · intro h
    refine ⟨min rp 4, by omega, fun i hi => hin _ (by omega) (by omega)⟩
  · rintro ⟨w, hw, hall⟩
    by_contra hcon
    by_cases h1 : rp < w
    · apply hpend
      have := hall (rp + 1 + 4 - w) (by omega)
      have he : (w : Int) - 4 + ((rp + 1 + 4 - w : Nat) : Int) = 1 + (rp : Int) := by omega
      rw [he] at this; exact this
    · apply hmend
      have := hall (4 - w - (rm + 1) + 0 + (w + 4 - 4 - w)) (by omega)
      have he : (w : Int) - 4 + ((4 - w - (rm + 1) + 0 + (w + 4 - 4 - w) : Nat) : Int)
          = -(1 + (rm : Int)) := by omega
      rw [he] at this; exact this


/-- A window counts five own squares exactly when each of its five squares is
an own square. -/
theorem spec_own_five (board : FastBoard) (v : Int × Int) (C : square_t) (d : Int × Int)
    (w : Nat) :
    spec_own board v C d w = 5 ↔
      ∀ i : Nat, i < 5 → own_square board v C (line_square v d ((w : Int) - 4 + (i : Int))) = true := by
  unfold spec_own window_squares
  rw [List.countP_map]
  have h := List.countP_eq_length
    (p := own_square board v C ∘ fun (i : Nat) => line_square v d ((w : Int) - 4 + (i : Int)))
    (l := List.range 5)
  rw [List.length_range] at h
  rw [h]
  simp only [List.mem_range, Function.comp]

/-- One step from a square of the board, the distance to the edge is at most
the size of the board. -/
theorem steps_left_bound (d v : Int × Int) (hv : on_board v) (fuel : Nat) (hfuel : 20 ≤ fuel) :
    on_board (v.1 + d.1, v.2 + d.2) → steps_left d (v.1 + d.1, v.2 + d.2) < fuel := by
  intro h
  unfold on_board at h hv
  unfold steps_left
  simp only [] at h ⊢
  split_ifs <;> omega

/-- The count `win` reaches for one axis: the two loops return, and the count
reaches five exactly when a window of the scan along the axis, in either of its
two directions, holds five own squares. -/
theorem win_count_run (board board' : FastBoard) (v : Int × Int) (C : square_t)
    (hv : on_board v) (hC : board'.get_square_xy v.1 v.2 = C)
    (hother : ∀ p q : Int, (p, q) ≠ v → board'.get_square_xy p q = board.get_square_xy p q)
    (a b : Int × Int) (ha : unit_step a) (hb : unit_step b) (hab : b = (-a.1, -a.2))
    (fuel : Nat) (hfuel : 20 ≤ fuel) :
    ∃ count : Nat, win_count board' v C fuel (a, b) = some count ∧
      (5 ≤ count ↔ ∃ w : Nat, w < 5 ∧ spec_own board v C a w = 5) ∧
      (5 ≤ count ↔ ∃ w : Nat, w < 5 ∧ spec_own board v C b w = 5) := by
  have hfuel0 : 0 < fuel := by omega
  obtain ⟨r1, hr1, hrun1, hend1⟩ := win_while_run board' C a ha fuel
    (v.1 + a.1, v.2 + a.2) 1 hfuel0 (steps_left_bound a v hv fuel hfuel)
  obtain ⟨r2, hr2, hrun2, hend2⟩ := win_while_run board' C b hb fuel
    (v.1 + b.1, v.2 + b.2) (1 + r1) hfuel0 (steps_left_bound b v hv fuel hfuel)
  have hown := own_square_placed board board' v C hv hC hother
  simp only [hown] at hrun1 hend1 hrun2 hend2
  have haa : ∀ t : Int, line_square (v.1 + a.1, v.2 + a.2) a t = line_square v a (1 + t) := by
    intro t
    simp only [line_square, Prod.mk.injEq]
    constructor <;> ring
  have hbb : ∀ t : Int, line_square (v.1 + b.1, v.2 + b.2) b t = line_square v b (1 + t) := by
    intro t
    simp only [line_square, Prod.mk.injEq]
    constructor <;> ring
  have hba : ∀ t : Int, line_square v b t = line_square v a (-t) := by
    intro t
    subst hab
    simp only [line_square, Prod.mk.injEq]
    constructor <;> ring
  have hzero : ∀ d : Int × Int, own_square board v C (line_square v d 0) = true := by
    intro d
    simp [own_square, line_square]
  refine ⟨1 + r1 + r2, ?_, ?_, ?_⟩
  · simp [win_count, hr1, hr2]
  · simp only [spec_own_five]
    refine run_window (fun t => own_square board v C (line_square v a t) = true)
      (hzero a) r1 r2 ?_ ?_ ?_ ?_
    · intro i hi
      have := hrun1 i hi
      rw [haa] at this
      exact this
    · rw [haa] at hend1
      exact hend1
    · intro i hi
      have := hrun2 i hi
      rw [hbb, hba] at this
      exact this
    · rw [hbb, hba] at hend2
      exact hend2
  · simp only [spec_own_five]
    have hsum : 1 + r1 + r2 = 1 + r2 + r1 := by omega
    rw [hsum]
    refine run_window (fun t => own_square board v C (line_square v b t) = true)
      (hzero b) r2 r1 ?_ ?_ ?_ ?_
    · intro i hi
      have := hrun2 i hi
      rw [hbb] at this
      exact this
    · rw [hbb] at hend2
      exact hend2
    · intro i hi
      have := hrun1 i hi
      rw [haa] at this
      simp only [hba, neg_neg]
      exact this
    · rw [haa] at hend1
      simp only [hba, neg_neg]
      exact hend1

/-- Some window along a direction holds five own squares exactly when the count
of such windows is positive. -/
theorem five_window_pos (board : FastBoard) (v : Int × Int) (C : square_t) (d : Int × Int) :
    (∃ w : Nat, w < 5 ∧ spec_own board v C d w = 5) ↔
      0 < (List.range 5).countP (fun w => decide (spec_own board v C d w = 5)) := by
  rw [List.countP_pos_iff]
  simp [List.mem_range]

/-- C33. For a vertex `(x, y)` of the 19x19 board, a colour `C` (black or
white), and a board `b'` that holds `C` on `(x, y)` and agrees with `board`
everywhere else, `win` on `b'` at `(x, y)` returns when each of its loops has
fuel for 20 iterations, and its value is `true` exactly when the pattern scan on
`board` reports a positive `five` for `C` at `(x, y)`. -/
theorem win_iff_scan_five (board b' : FastBoard) (x y : Int) (C : square_t)
    (hx : 0 ≤ x ∧ x < 19) (hy : 0 ≤ y ∧ y < 19)
    (hcolor : C = square_t.BLACK ∨ C = square_t.WHITE)
    (hstone : b'.get_square_xy x y = C)
    (hother : ∀ p q : Int, (p, q) ≠ (x, y) → b'.get_square_xy p q = board.get_square_xy p q)
    (fuel : Nat) (hfuel : 20 ≤ fuel) :
    b'.win (x, y) fuel = some (decide (0 < (scan_tally board (x, y) C).1)) := by
  have hv : on_board (x, y) := ⟨hx.1, hx.2, hy.1, hy.2⟩
  obtain ⟨c1, h1, _, e1⟩ := win_count_run board b' (x, y) C hv hstone hother (-1, 0) (1, 0)
    (by simp [unit_step]) (by simp [unit_step]) (by simp) fuel hfuel
  obtain ⟨c2, h2, _, e2⟩ := win_count_run board b' (x, y) C hv hstone hother (0, -1) (0, 1)
    (by simp [unit_step]) (by simp [unit_step]) (by simp) fuel hfuel
  obtain ⟨c3, h3, _, e3⟩ := win_count_run board b' (x, y) C hv hstone hother (-1, -1) (1, 1)
    (by simp [unit_step]) (by simp [unit_step]) (by simp) fuel hfuel
  obtain ⟨c4, h4, e4, _⟩ := win_count_run board b' (x, y) C hv hstone hother (-1, 1) (1, -1)
    (by simp [unit_step]) (by simp [unit_step]) (by simp) fuel hfuel
  have hfive : 0 < (scan_tally board (x, y) C).1 ↔ (5 ≤ c1 ∨ 5 ≤ c2 ∨ 5 ≤ c3 ∨ 5 ≤ c4) := by
    rw [scan_tally_counts board x y C hx hy hcolor, e1, e2, e3, e4]
    simp only [five_window_pos, spec_fives, axes, List.map_cons, List.map_nil, List.sum_cons,
      List.sum_nil]
    omega
  unfold FastBoard.win
  simp only [hstone, hcolor, if_true, win_dir, win_axes, h1, h2, h3, h4, DK_num_stone, ge_iff_le,
    hfive]
  by_cases g1 : 5 ≤ c1 <;> by_cases g2 : 5 ≤ c2 <;> by_cases g3 : 5 ≤ c3 <;>
    by_cases g4 : 5 ≤ c4 <;> simp [g1, g2, g3, g4]

/-- C33 at position 1 and the vertex `(4, 0)`, where black completes a five:
`win` on the board with the black stone returns `true`. -/
theorem win_iff_scan_five_witness :
    (with_stone position1 (4, 0) square_t.BLACK).get_square_xy 4 0 = square_t.BLACK ∧
    (∀ p q : Int, (p, q) ≠ ((4 : Int), (0 : Int)) →
      (with_stone position1 (4, 0) square_t.BLACK).get_square_xy p q
        = position1.get_square_xy p q) ∧
    (with_stone position1 (4, 0) square_t.BLACK).win (4, 0) 20
      = some (decide (0 < (scan_tally position1 (4, 0) square_t.BLACK).1)) ∧
    (scan_tally position1 (4, 0) square_t.BLACK).1 = 1 :=
  ⟨by simp [with_stone],
   fun p q h => (by unfold with_stone; exact if_neg h),
   win_iff_scan_five position1 (with_stone position1 (4, 0) square_t.BLACK) 4 0 square_t.BLACK
     (by decide) (by decide) (Or.inl rfl) (by simp [with_stone])
     (fun p q h => (by unfold with_stone; exact if_neg h)) 20 (le_refl 20),
   by decide!⟩

end LeelaZero
